import Mathlib

/-!
# domchain: the markup parser `Page.parse`

A shallow embedding of `Page.parse` (src/domchain.js, lines 353-459) and of the
four `Page` methods it calls (`insert`, `set`, `html`, `id`).

Conventions of the embedding.

* A JavaScript string is a `List Char`; one list element stands for one UTF-16
  code unit. Indices (`charAt`, `substring`, the `open`/`close` tables) are
  list positions.
* `Page` objects live in a heap (`World.pages`); an object is identified by its
  position in the heap. The DOM element behind a `Page` is the external
  collaborator: of an element the model keeps the type string it was created
  from, the mappings handed to `set` and the value handed to `html`.
* `World.calls` is the chronological record of the calls made to the four
  methods. What `set` does to the element with a mapping (lines 88-102) is
  listed separately, by `setOps`.
* The object literal `map = {}` of the attribute scan is a finite map from
  property names to values: an association list of its own properties with
  unique keys, in the order of their creation, an assignment to an existing key
  replacing its value. The key `__proto__` is not an own property: it names
  the accessor inherited from `Object.prototype`, whose setter ignores a string
  (`objSet`). The enumeration order of `for ... in`, which lists integer-like
  keys first, is not modelled.
* The registry `Page.#ids` is an array (line 7) used as a map. Its own
  properties other than `length` are `World.ids`. An assignment to the key
  `length` throws a `RangeError` (the value is a `Page`, not a length), an
  assignment to the key `__proto__` replaces the prototype of the array
  (`World.proto`) and creates no property; see `id`.
* An exception: `World.thrown` says that the `RangeError` of line 178 has been
  thrown. The code stops there. The model reads the text on, but
  `createElement`, the only place where `parse` changes the world, does
  nothing any more: the world stays as it was at the throw, and `parse`
  reports the exception instead of a value returned.
* The mutable variables that the closures of `parse` share (`quote`, `content`,
  `mode`, `obj`, `pair`, `map`, `m`) are passed explicitly.
-/

set_option maxRecDepth 100000

namespace Domchain

/-- A JavaScript string, as its sequence of code units. -/
abbrev Str := List Char

/-! ## String primitives of the platform -/

/-- The single quote character. -/
def SQ : Char := Char.ofNat 39

/-- The double quote character. -/
def DQ : Char := Char.ofNat 34

/-- White space as `String.prototype.trim` understands it (ECMAScript WhiteSpace
and LineTerminator code points). -/
def isJsSpace (c : Char) : Bool :=
  let n := c.toNat
  n = 9 || n = 10 || n = 11 || n = 12 || n = 13 || n = 32 || n = 160 || n = 5760
    || (8192 ≤ n && n ≤ 8202) || n = 8232 || n = 8233 || n = 8239 || n = 8287
    || n = 12288 || n = 65279

/-- The method `s.trim()`. -/
def trim (s : Str) : Str :=
  ((s.dropWhile isJsSpace).reverse.dropWhile isJsSpace).reverse

/-- The method `s.substring(a, b)` for non-negative integer arguments: both are
clamped to the length and swapped when `a > b`. -/
def substring (s : Str) (a b : Nat) : Str :=
  (s.drop (min a b)).take (max a b - min a b)

/-- The inner loop of `s.split(sep)` for a one-character separator: `cur` is the
piece being collected. -/
def splitAux (sep : Char) : Str → Str → List Str
  | [], cur => [cur]
  | c :: cs, cur => if c = sep then cur :: splitAux sep cs [] else splitAux sep cs (cur ++ [c])

/-- The method `s.split(sep)` for a one-character separator. -/
def split (sep : Char) (s : Str) : List Str := splitAux sep s []

/-- The method `a.join(sep)`. -/
def join (sep : Str) : List Str → Str
  | [] => []
  | [x] => x
  | x :: y :: rest => x ++ sep ++ join sep (y :: rest)

/-- Lower-casing of one code unit. ASCII capitals map to their small letters and
U+212A KELVIN SIGN maps to `k`; these are the only code units whose lower case
is an ASCII letter. Every other code unit is left as it is: its lower case is
never made of ASCII letters only, which is all the keyword test of
`createElement` observes. -/
def lowerChar (c : Char) : Char :=
  if c.toNat = 8490 then 'k' else c.toLower

/-- The method `s.toLowerCase()`, see `lowerChar`. -/
def toLowerCase (s : Str) : Str := s.map lowerChar

/-! ## The collaborator: `Page` objects and the lookup registry -/

/-- An attribute mapping: the object built by the attribute scan. -/
abbrev AttrMap := List (Str × Str)

/-- The property name `__proto__`: on an object that inherits from
`Object.prototype` it names an accessor, not an own property. -/
def protoKey : Str := "__proto__".toList

/-- The property name `length`: on an array, its length. -/
def lengthKey : Str := "length".toList

/-- Assignment `map[key] = value` on a finite map. -/
def assign {β : Type} : List (Str × β) → Str → β → List (Str × β)
  | [], key, value => [(key, value)]
  | (k, v) :: rest, key, value =>
    if k = key then (k, value) :: rest else (k, v) :: assign rest key value

/-- Reading `map[key]`; `none` stands for `undefined`. -/
def lookup {β : Type} : List (Str × β) → Str → Option β
  | [], _ => none
  | (k, v) :: rest, key => if k = key then some v else lookup rest key

/-- One call of a `Page` method made by the parser. -/
inductive SinkCall where
  | insert (parent : Nat) (type : Str)
  | set (node : Nat) (attributes : AttrMap)
  | html (node : Nat) (value : Str)
  | id (node : Nat) (key : Str)
  deriving DecidableEq, Repr

/-- A `Page` object. `type` is the string its element was created from, `maps`
the mappings applied to it by `set` (oldest first), `inner` the value last
assigned by `html`. -/
structure PageObj where
  type : Str
  parent : Option Nat
  child : List Nat
  maps : List AttrMap
  inner : Option Str
  deriving DecidableEq, Repr

/-- The heap of `Page` objects, the static registry `Page.#ids` (its own
properties other than `length`, and its prototype: `none` for
`Array.prototype`, `some p` for the `Page` object `p`), the record of the calls
made so far, and whether an exception has been thrown. -/
structure World where
  pages : List PageObj
  ids : List (Str × Nat)
  proto : Option Nat
  calls : List SinkCall
  thrown : Bool
  deriving DecidableEq, Repr

/-- Apply `f` to the object at position `n` of the heap. -/
def modifyAt (f : PageObj → PageObj) : List PageObj → Nat → List PageObj
  | [], _ => []
  | p :: ps, 0 => f p :: ps
  | p :: ps, n + 1 => p :: modifyAt f ps n

/-- The method `this.insert(type)` called without attributes (lines 43-49): the
new object is created with `this` as parent, pushed on `this.child`, and
returned (`created.set(undefined)` returns `created` unchanged). -/
def insert (w : World) (this : Nat) (type : Str) : World × Nat :=
  let created := w.pages.length
  ({ w with
      pages := modifyAt (fun p => { p with child := p.child ++ [created] }) w.pages this ++
        [{ type := type, parent := some this, child := [], maps := [], inner := none }],
      calls := w.calls ++ [SinkCall.insert this type] }, created)

/-- The method `this.set(attributes)` (lines 85-104) for a mapping: what the
element does with each key is the collaborator's business, the mapping is
recorded. -/
def set (w : World) (this : Nat) (attributes : AttrMap) : World :=
  { w with
    pages := modifyAt (fun p => { p with maps := p.maps ++ [attributes] }) w.pages this,
    calls := w.calls ++ [SinkCall.set this attributes] }

/-- The method `this.html(value)` (lines 240-243). -/
def html (w : World) (this : Nat) (value : Str) : World :=
  { w with
    pages := modifyAt (fun p => { p with inner := some value }) w.pages this,
    calls := w.calls ++ [SinkCall.html this value] }

/-- The method `this.id(id)` (lines 177-180): `Page.#ids[id] = this`, where
`Page.#ids` is an array. For the key `length` the assignment sets the length of
the array to a `Page` object, which is not a number: a `RangeError` is thrown
and nothing is assigned. For the key `__proto__` the setter inherited from
`Object.prototype` makes `this` the prototype of the array and no property is
created. Every other key becomes, or stays, an own property bound to `this`. -/
def id (w : World) (this : Nat) (key : Str) : World :=
  if key = lengthKey then
    { w with calls := w.calls ++ [SinkCall.id this key], thrown := true }
  else if key = protoKey then
    { w with proto := some this, calls := w.calls ++ [SinkCall.id this key] }
  else
    { w with ids := assign w.ids key this, calls := w.calls ++ [SinkCall.id this key] }

/-- A world holding one `Page` without children and an empty registry: the
empty root. -/
def emptyRoot : World :=
  { pages := [{ type := [], parent := none, child := [], maps := [], inner := none }],
    ids := [],
    proto := none,
    calls := [],
    thrown := false }

/-- The children of a `Page`, in order: the array `this.child`. -/
def children (w : World) (n : Nat) : List Nat :=
  match w.pages.get? n with
  | some p => p.child
  | none => []

/-- The type string a `Page` was inserted with. -/
def typeOf (w : World) (n : Nat) : Option Str := (w.pages.get? n).map PageObj.type

/-- The type strings of the children of a `Page`, in order. -/
def childTypes (w : World) (n : Nat) : List (Option Str) := (children w n).map (typeOf w)

/-- The mappings applied to a `Page`, oldest first. -/
def mapsOf (w : World) (n : Nat) : List AttrMap :=
  match w.pages.get? n with
  | some p => p.maps
  | none => []

/-- The HTML payload of a `Page`, if one was assigned. -/
def innerOf (w : World) (n : Nat) : Option Str := (w.pages.get? n).bind PageObj.inner

/-! ## The quote cursor (lines 354-359) -/

/-- The closure `quoted(c)`: the value returned and the new value of `quote`
(`none` stands for `false`). -/
def quoted (quote : Option Char) (c : Char) : Bool × Option Char :=
  match quote with
  | some q => (true, if c = q then none else some q)
  | none => if c = SQ ∨ c = DQ then (true, some c) else (false, none)

/-! ## The brace matching pass (lines 361-375) -/

/-- Assignment `a[i] = v` on an array with holes. -/
def arraySet : List (Option Nat) → Nat → Nat → List (Option Nat)
  | [], 0, v => [some v]
  | [], i + 1, v => none :: arraySet [] i v
  | _ :: rest, 0, v => some v :: rest
  | x :: rest, i + 1, v => x :: arraySet rest i v

/-- The variables `pair`, `open`, `stack`, `close`. The top of `stack` is the
head of the list. Since `pair` is the length of `open` whenever
`open[pair] = i` runs, that assignment is an append. -/
structure Braces where
  pair : Nat
  opens : List Nat
  stack : List Nat
  closes : List (Option Nat)
  deriving DecidableEq, Repr

/-- The tables before the loop. -/
def Braces.init : Braces := { pair := 0, opens := [], stack := [], closes := [] }

/-- The loop of lines 362-374 from index `i` on, `cs` being the characters not
yet read. `none` is the early return after `'{' expected`. -/
def matchLoop : Str → Nat → Option Char → Braces → Option (Braces × Option Char)
  | [], _, quote, b => some (b, quote)
  | c :: cs, i, quote, b =>
    let r := quoted quote c
    if r.1 then matchLoop cs (i + 1) r.2 b
    else if c = '{' then
      matchLoop cs (i + 1) r.2
        { pair := b.pair + 1, opens := b.opens ++ [i], stack := b.pair :: b.stack,
          closes := b.closes }
    else if c = '}' then
      match b.stack with
      | [] => none
      | closing :: rest =>
        matchLoop cs (i + 1) r.2
          { pair := b.pair, opens := b.opens, stack := rest,
            closes := arraySet b.closes closing i }
    else matchLoop cs (i + 1) r.2 b

/-! ## The segment parser `parse2` (lines 377-439) -/

/-- The closure `unquote(s)` (lines 382-388). `charAt` of an empty string is the
empty string, which is neither quote. -/
def unquote (s : Str) : Str :=
  match s.head?, s.getLast? with
  | some c, some cc =>
    if c = SQ ∨ c = DQ then
      if c = cc then substring s 1 (s.length - 1) else s
    else s
  | _, _ => s

/-- The array `content`: the buffers at the indices `TAG`, `PARAM`, `TEXT` and
`ID`. What the loop appends at the indices `WSPACE` and `NA` is never read and
is left out. -/
structure Content where
  tag : Str
  param : Str
  text : Str
  id : Str
  deriving DecidableEq, Repr

/-- The values of `mode`. -/
inductive Mode where
  | TAG | PARAM | TEXT | ID | WSPACE | NA
  deriving DecidableEq, Repr

/-- The keyword list of line 392. -/
def keywords : List Str :=
  ["checkbox".toList, "radio".toList, "text".toList, "number".toList, "password".toList,
   "url".toList]

/-- The variables of the attribute scan (lines 400-414): the cursor, `pair[KEY]`,
`pair[VALUE]`, `m` (`true` for `VALUE`) and `map`. -/
structure AttrScan where
  quote : Option Char
  key : Str
  value : Str
  m : Bool
  map : AttrMap
  deriving DecidableEq, Repr

/-- The assignment `map[key] = value` of line 404, on the object created by the
literal `{}` of line 400, the value being a string. The key `__proto__` names
the accessor that the object inherits from `Object.prototype`: its setter is
called, ignores a value that is neither an object nor `null`, and no property
is created. Every other key becomes, or stays, an own property. -/
def objSet (map : AttrMap) (key value : Str) : AttrMap :=
  if key = protoKey then map else assign map key value

/-- The closure `store()` (lines 401-406). -/
def store (s : AttrScan) : AttrScan :=
  let key := unquote (trim s.key)
  let value := unquote (trim s.value)
  { quote := s.quote, key := [], value := [], m := false,
    map := if key ≠ [] then objSet s.map key value else s.map }

/-- The statement `pair[m] += c`. -/
def AttrScan.push (s : AttrScan) (quote : Option Char) (c : Char) : AttrScan :=
  if s.m then { s with quote := quote, value := s.value ++ [c] }
  else { s with quote := quote, key := s.key ++ [c] }

/-- One round of the loop of lines 408-413. -/
def attrStep (s : AttrScan) (c : Char) : AttrScan :=
  let r := quoted s.quote c
  if r.1 then s.push r.2 c
  else if c = ':' ∧ s.m = false then { s with quote := r.2, m := true }
  else if c = ',' ∧ s.m = true then store { s with quote := r.2 }
  else s.push r.2 c

/-- The attribute list parser (lines 400-414): the loop over the PARAM buffer
and the final `store()`. -/
def attrScan (quote : Option Char) (param : Str) : AttrScan :=
  store (param.foldl attrStep { quote := quote, key := [], value := [], m := false, map := [] })

/-- The variables of `parse2` that its loop and `createElement` share, with the
world and the cursor. `obj` is `none` for `null`. -/
structure Scan where
  world : World
  quote : Option Char
  content : Content
  mode : Mode
  obj : Option Nat
  deriving DecidableEq, Repr

/-- The first piece of the TAG buffer, lower-cased (lines 390-391): `tag0`. -/
def tag0 (k : Content) : Str := toLowerCase ((split '.' k.tag).headD [])

/-- The PARAM buffer after the keyword rewrite of lines 392-397. -/
def elemParam (k : Content) : Str :=
  if tag0 k ∈ keywords then
    (if k.param ≠ [] then k.param ++ ",".toList else k.param) ++ ("type:".toList ++ tag0 k)
  else k.param

/-- The TAG buffer after the keyword rewrite of lines 392-397. -/
def elemType (k : Content) : Str :=
  if tag0 k ∈ keywords then join ".".toList ("input".toList :: (split '.' k.tag).tail)
  else k.tag

/-- The closure `createElement()` (lines 381-422) for the parent `parent`. The
call `obj.id(...)` is its last statement that acts on the world, so an
exception thrown there leaves the closure with the world as `id` left it. Once
an exception has been thrown the closure is not run any more. -/
def createElement (parent : Nat) (s : Scan) : Scan :=
  if s.world.thrown then s
  else
    let param := elemParam s.content
    let ins := insert s.world parent (elemType s.content)
    let obj := ins.2
    let afterParam : World × Option Char :=
      if param ≠ [] then
        let a := attrScan s.quote param
        (set ins.1 obj a.map, a.quote)
      else (ins.1, s.quote)
    let afterText : World :=
      if s.content.text ≠ [] then html afterParam.1 obj (unquote (trim s.content.text))
      else afterParam.1
    let afterId : World :=
      if s.content.id ≠ [] then id afterText obj s.content.id else afterText
    { world := afterId, quote := afterParam.2,
      content := { tag := [], param := [], text := [], id := [] },
      mode := Mode.WSPACE, obj := some obj }

/-- The statement `content[mode] += c`. -/
def Content.push (k : Content) (mode : Mode) (c : Char) : Content :=
  match mode with
  | Mode.TAG => { k with tag := k.tag ++ [c] }
  | Mode.PARAM => { k with param := k.param ++ [c] }
  | Mode.TEXT => { k with text := k.text ++ [c] }
  | Mode.ID => { k with id := k.id ++ [c] }
  | Mode.WSPACE => k
  | Mode.NA => k

/-- The test `mode == TAG || mode == ID || mode == NA`. -/
def Mode.open3 (m : Mode) : Bool :=
  match m with
  | Mode.TAG => true
  | Mode.ID => true
  | Mode.NA => true
  | _ => false

/-- One round of the loop of lines 425-436. -/
def scanStep (parent : Nat) (s : Scan) (c : Char) : Scan :=
  let r := quoted s.quote c
  if r.1 then { s with quote := r.2, content := s.content.push s.mode c }
  else
    let s := { s with quote := r.2 }
    if c.toNat ≤ 32 ∧ s.mode.open3 then createElement parent s
    else if c = '<' ∧ s.mode.open3 then { s with mode := Mode.PARAM }
    else if c = '>' ∧ s.mode = Mode.PARAM then { s with mode := Mode.NA }
    else if c = '(' ∧ s.mode.open3 then { s with mode := Mode.TEXT }
    else if c = ')' ∧ s.mode = Mode.TEXT then { s with mode := Mode.NA }
    else if c = '#' ∧ (s.mode = Mode.TAG ∨ s.mode = Mode.NA) then { s with mode := Mode.ID }
    else if s.mode = Mode.WSPACE ∧ 32 < c.toNat then
      { s with mode := Mode.TAG, content := s.content.push Mode.TAG c }
    else { s with content := s.content.push s.mode c }

/-- The state of `parse2` before its loop. -/
def Scan.init (w : World) (quote : Option Char) : Scan :=
  { world := w, quote := quote, content := { tag := [], param := [], text := [], id := [] },
    mode := Mode.TAG, obj := none }

/-- The loop of lines 425-436 over the whole header. -/
def scanHead (parent : Nat) (w : World) (quote : Option Char) (head : Str) : Scan :=
  head.foldl (scanStep parent) (Scan.init w quote)

/-- The closure `parse2(parent, head)`: the loop, the final `createElement()`,
and the object returned, with the world and the cursor it leaves. -/
def parse2 (w : World) (quote : Option Char) (parent : Nat) (head : Str) :
    World × Option Char × Nat :=
  let s := createElement parent (scanHead parent w quote head)
  (s.world, s.quote, s.obj.getD parent)

/-! ## The tree builder `parse1` (lines 441-456) -/

/-- The loop of line 445: the first index `i`, counted from `i0`, with
`open[i] > pos`, or the length of `open`. -/
def firstAfter (pos : Nat) : List Nat → Nat → Nat
  | [], i0 => i0
  | o :: rest, i0 => if o > pos then i0 else firstAfter pos rest (i0 + 1)

/-- The index `i` after lines 445-446: the first pair whose opening brace lies
after `pos`, replaced by the length of `open` if that brace lies beyond `end`. -/
def nextOpen (opens : List Nat) (pos stop : Nat) : Nat :=
  let i0 := firstAfter pos opens 0
  if i0 < opens.length ∧ opens.getD i0 0 > stop then opens.length else i0

/-- The header of line 447-448 for the index `i`, trimmed. -/
def headAt (text : Str) (opens : List Nat) (i pos stop : Nat) : Str :=
  if i < opens.length then trim (substring text pos (opens.getD i 0))
  else trim (substring text pos stop)

/-- Lines 449-450: `parse2` is called if the header is not empty; the world, the
cursor and `obj`. -/
def headObj (st : World × Option Char) (parent : Nat) (head : Str) : World × Option Char × Nat :=
  if head ≠ [] then parse2 st.1 st.2 parent head else (st.1, st.2, parent)

/-- The closure `parse1(parent, start, end)`, its loop unrolled from the
position `pos`. Every round and every nested call spends one unit of `fuel`;
`none` means the fuel ran out. A hole `close[i]` makes the nested call and the
rest of the loop do nothing (`pos < undefined` and `NaN < end` are false). -/
def parse1 (text : Str) (opens : List Nat) (closes : List (Option Nat)) :
    Nat → World × Option Char → Nat → Nat → Nat → Option (World × Option Char)
  | 0, _, _, _, _ => none
  | fuel + 1, st, parent, pos, stop =>
    if pos < stop then
      let i := nextOpen opens pos stop
      let r := headObj st parent (headAt text opens i pos stop)
      if i < opens.length then
        match (closes.getD i none) with
        | none => some (r.1, r.2.1)
        | some cl =>
          match parse1 text opens closes fuel (r.1, r.2.1) r.2.2 (opens.getD i 0 + 1) cl with
          | none => none
          | some st1 => parse1 text opens closes fuel st1 parent (cl + 1) stop
      else some (r.1, r.2.1)
    else some st

/-! ## `Page.parse` (lines 353-459) -/

/-- What `console.error` is called with: that an opening brace was expected
(line 369), or that a closing brace was expected (line 375). -/
inductive Logged where
  | openExpected
  | closeExpected
  deriving DecidableEq, Repr

/-- What a call of `parse` leaves: the world, the value returned (`none` for
`undefined`, and when the call is left by an exception: `world.thrown` tells
the two apart) and the message logged, if any. -/
structure Outcome where
  world : World
  returned : Option Nat
  logged : Option Logged
  deriving DecidableEq, Repr

/-- What the brace matching pass ends with: the tables and the cursor, or the
message of its early return. -/
inductive BraceResult where
  | ok (b : Braces) (quote : Option Char)
  | error (e : Logged)
  deriving DecidableEq, Repr

/-- The brace matching pass as a whole (lines 361-375): the tables and the cursor
it leaves, or the message of the early return. -/
def matchBraces (text : Str) : BraceResult :=
  match matchLoop text 0 none Braces.init with
  | none => BraceResult.error Logged.openExpected
  | some (b, quote) =>
    match b.stack with
    | [] => BraceResult.ok b quote
    | _ :: _ => BraceResult.error Logged.closeExpected

/-- The method `this.parse(text)`. The result is `none` only if the fuel given to
`parse1` ran out. Line 458, `return this`, is reached unless an exception was
thrown on the way. -/
def parse (w : World) (this : Nat) (text : Str) : Option Outcome :=
  match matchBraces text with
  | BraceResult.error e => some { world := w, returned := none, logged := some e }
  | BraceResult.ok b quote =>
    match parse1 text b.opens b.closes (text.length + 1) (w, quote) this 0 text.length with
    | none => none
    | some st =>
      some { world := st.1, returned := if st.1.thrown then none else some this, logged := none }

/-! ## The cursor over a whole text -/

/-- The value of `quote` after `quoted` has been fed the characters of `cs` in
turn, starting from `quote`. -/
def cursorEnd (quote : Option Char) (cs : Str) : Option Char :=
  cs.foldl (fun q c => (quoted q c).2) quote

/-- The characters of `cs` as the cursor classifies them, starting from `quote`:
`some c` for a character outside a quote, `none` for a quoted character (the
quote characters themselves are quoted). -/
def marks : Option Char → Str → List (Option Char)
  | _, [] => []
  | quote, c :: cs =>
    (if (quoted quote c).1 then none else some c) :: marks (quoted quote c).2 cs

/-- The mark of the character read after `pre`. -/
def markAfter (pre : Str) (c : Char) : Option Char :=
  if (quoted (cursorEnd none pre) c).1 then none else some c

/-- The cursor state that scanning the PARAM buffer again from outside a quote
ends in is the current one while the buffer is being filled, and is outside a
quote otherwise. -/
def Scan.paramOk (s : Scan) : Prop :=
  cursorEnd none s.content.param = (if s.mode = Mode.PARAM then s.quote else none)

/-! ## Vocabulary of the claims about headers -/

/-- A character that mode TAG appends to the TAG buffer when read outside a
quote: above the space, no quote, none of `<`, `(`, `#`. -/
def plainChar (c : Char) : Prop :=
  32 < c.toNat ∧ c ≠ SQ ∧ c ≠ DQ ∧ c ≠ '<' ∧ c ≠ '(' ∧ c ≠ '#'

/-- A string of letters only (ASCII letters), possibly empty. -/
def lettersOnly (t : Str) : Prop := ∀ c ∈ t, c.isAlpha = true

/-- A simple tag name: letters only, not empty, and not a shorthand keyword in
any letter case. -/
def simpleTag (t : Str) : Prop := t ≠ [] ∧ lettersOnly t ∧ toLowerCase t ∉ keywords

instance (c : Char) : Decidable (plainChar c) := by
  unfold plainChar; infer_instance

instance (t : Str) : Decidable (lettersOnly t) := by
  unfold lettersOnly; infer_instance

instance (t : Str) : Decidable (simpleTag t) := by
  unfold simpleTag; infer_instance

/-- The content array with its four buffers empty. -/
def Content.empty : Content := { tag := [], param := [], text := [], id := [] }

/-! ## Vocabulary of the claims about attribute lists -/

/-- The text of one pair: key, colon, value. -/
def pairText (p : Str × Str) : Str := p.1 ++ (":".toList ++ p.2)

/-- The text of a list of pairs: the pair texts joined with commas. -/
def pairsText (ps : List (Str × Str)) : Str := join ",".toList (ps.map pairText)

/-- A key text: it holds no quote character and no colon. -/
def keyText (k : Str) : Prop := ∀ c ∈ k, c ≠ SQ ∧ c ≠ DQ ∧ c ≠ ':'

/-- A value text: its quotes are balanced and it holds no comma outside
quotes. -/
def valueText (v : Str) : Prop := cursorEnd none v = none ∧ some ',' ∉ marks none v

instance (k : Str) : Decidable (keyText k) := by
  unfold keyText; infer_instance

instance (v : Str) : Decidable (valueText v) := by
  unfold valueText; infer_instance

/-- What `store()` does to `map` when `pair` holds the key and value texts of
`p`. -/
def storePair (map : AttrMap) (p : Str × Str) : AttrMap :=
  if unquote (trim p.1) ≠ [] then objSet map (unquote (trim p.1)) (unquote (trim p.2)) else map

/-- The variables of the attribute scan at the start of a pair, outside a
quote. -/
def AttrScan.fresh (map : AttrMap) : AttrScan :=
  { quote := none, key := [], value := [], m := false, map := map }

/-- The header `t<k:qVq>`: a tag, and an attribute block with one pair whose
value `V` stands between two quote characters `q`. -/
def quotedAttrHeader (t k V : Str) (q : Char) : Str :=
  t ++ ('<' :: (pairText (k, q :: (V ++ [q])) ++ ['>']))

/-- A key as written in an attribute block: not empty, unchanged by `trim`, and
without quote character, colon or `>`. -/
def cleanKey (k : Str) : Prop :=
  k ≠ [] ∧ trim k = k ∧ ∀ c ∈ k, c ≠ SQ ∧ c ≠ DQ ∧ c ≠ ':' ∧ c ≠ '>'

/-- A value as written in an attribute block: balanced quotes, and neither a
comma nor `>` outside quotes. -/
def blockValue (v : Str) : Prop := valueText v ∧ some '>' ∉ marks none v

instance (k : Str) : Decidable (cleanKey k) := by
  unfold cleanKey; infer_instance

instance (v : Str) : Decidable (blockValue v) := by
  unfold blockValue; infer_instance

/-- The header of a shorthand input: the keyword as written, the class tokens
after dots, and the attribute block `<...>` with the given pairs if there is
one. -/
def shorthandHeader (K : Str) (cls : List Str) (block : Option (List (Str × Str))) : Str :=
  join ".".toList (K :: cls) ++
    (match block with
     | none => []
     | some ps => '<' :: (pairsText ps ++ ['>']))

/-- A `Page` as `insert` creates it. -/
def leaf (parent : Nat) (type : Str) : PageObj :=
  { type := type, parent := some parent, child := [], maps := [], inner := none }

/-- The world after the tag names `names` have been inserted, in order, under
`parent`. -/
def insertAll (w : World) (parent : Nat) (names : List Str) : World :=
  names.foldl (fun w t => (insert w parent t).1) w

/-- The text `t1 ... tn { u1 ... um }`, the names separated by single spaces. -/
def groupText (ts us : List Str) : Str :=
  (join " ".toList ts ++ [' ']) ++ ('{' :: ((' ' :: (join " ".toList us ++ [' '])) ++ ['}']))

/-! ## Balance of braces, in the words of the specification -/

/-- The number of opening braces outside quotes among the first `n` characters. -/
def opensSeen (text : Str) (n : Nat) : Nat := ((marks none text).take n).count (some '{')

/-- The number of closing braces outside quotes among the first `n` characters. -/
def closesSeen (text : Str) (n : Nat) : Nat := ((marks none text).take n).count (some '}')

/-- Extra close: some closing brace outside quotes stands where as many opening
as closing braces outside quotes have been seen. -/
def extraClose (text : Str) : Prop :=
  ∃ n, n < text.length ∧
    ((marks none text)[n]? = some (some '}') ∧ opensSeen text n = closesSeen text n)

/-- Unclosed open: at the end of the text more opening than closing braces
outside quotes have been seen. -/
def unclosedOpen (text : Str) : Prop := closesSeen text text.length < opensSeen text text.length

/-- The braces of a text are unbalanced under the quote cursor. -/
def unbalanced (text : Str) : Prop := extraClose text ∨ unclosedOpen text

instance (text : Str) : Decidable (extraClose text) := by
  unfold extraClose; infer_instance

instance (text : Str) : Decidable (unclosedOpen text) := by
  unfold unclosedOpen; infer_instance

instance (text : Str) : Decidable (unbalanced text) := by
  unfold unbalanced; infer_instance

/-- The state of the tables after the characters `pre` have been read without
an early return. -/
structure BInv (pre : Str) (b : Braces) : Prop where
  pair_eq : b.pair = b.opens.length
  opens_count : b.opens.length = (marks none pre).count (some '{')
  depth : (marks none pre).count (some '}') + b.stack.length = b.opens.length
  closes_le : b.closes.length ≤ b.opens.length
  nodup : b.stack.Nodup
  stack_open : ∀ id ∈ b.stack, id < b.opens.length ∧ b.closes.getD id none = none
  closed : ∀ id, id < b.opens.length → id ∉ b.stack →
    ∃ c, b.closes.getD id none = some c ∧ b.opens.getD id 0 < c ∧ pre[c]? = some '}'
  opened : ∀ id, id < b.opens.length → pre[b.opens.getD id 0]? = some '{'
  no_extra : ∀ n, (marks none pre)[n]? = some (some '}') →
    ((marks none pre).take n).count (some '{') ≠ ((marks none pre).take n).count (some '}')

/-! ## The element operations of `set` (lines 85-104) -/

/-- One operation of `set` on the element: `e.classList.add(c)`,
`e.style[name] = value` or `e[name] = value`. -/
inductive ElemOp where
  | addClass (c : Str)
  | setStyle (name value : Str)
  | setProp (name value : Str)
  deriving DecidableEq, Repr

/-- Lines 97-99 for one clause `v` of the style value: `vv = v.split(':')`, and
if `vv.length > 1` the assignment `e.style[vv[0]] = vv[1]`. -/
def clauseOps (v : Str) : List ElemOp :=
  let vv := split ':' v
  if vv.length > 1 then [ElemOp.setStyle (vv.getD 0 []) (vv.getD 1 [])] else []

/-- The branch of `set` for the key `style` (lines 95-100): the clauses of
`value.split(';')`, in order. -/
def styleOps (value : Str) : List ElemOp :=
  (split ';' value).flatMap clauseOps

/-- The body of the loop of `set` for one key and its value (lines 89-101). -/
def attributeOps (key value : Str) : List ElemOp :=
  if key = "class".toList then (split '.' value).map ElemOp.addClass
  else if key = "style".toList then styleOps value
  else [ElemOp.setProp key value]

/-- The operations of `set(attributes)` on the element, the keys taken in the
order of the mapping. -/
def setOps (attributes : AttrMap) : List ElemOp :=
  attributes.flatMap fun p => attributeOps p.1 p.2

/-- The first index of the character `c` in `s`, if any: `s.indexOf(c)`. -/
def indexOf (c : Char) : Str → Option Nat
  | [] => none
  | d :: rest => if d = c then some 0 else (indexOf c rest).map (· + 1)

/-- The assignment that the specification describes for one clause: if the
clause holds a colon, the name is the text before the first colon and the
value the whole text after it. -/
def clauseOpsSpec (v : Str) : List ElemOp :=
  match indexOf ':' v with
  | none => []
  | some n => [ElemOp.setStyle (v.take n) (v.drop (n + 1))]

/-! ## Nesting of the brace spans -/

/-- What the tables record about order and nesting after the characters `pre`
have been read: `open` increases, the stack holds larger ids on top, a closed
pair lies after every smaller closed pair or inside it, a pair still open
lies after every smaller closed pair, and the recorded positions are braces
outside quotes. -/
structure NInv (pre : Str) (b : Braces) : Prop where
  opens_mono : ∀ i j, i < j → j < b.opens.length → b.opens.getD i 0 < b.opens.getD j 0
  stack_desc : b.stack.Pairwise (fun x y => y < x)
  nested : ∀ i j cj, i < j → j < b.opens.length → b.closes.getD j none = some cj →
    i ∈ b.stack ∨ ∃ ci, b.closes.getD i none = some ci ∧ (ci < b.opens.getD j 0 ∨ cj < ci)
  before : ∀ i j, i < j → j ∈ b.stack → i ∉ b.stack →
    ∃ ci, b.closes.getD i none = some ci ∧ ci < b.opens.getD j 0
  open_mark : ∀ id, id < b.opens.length →
    (marks none pre)[b.opens.getD id 0]? = some (some '{')
  close_mark : ∀ id c, b.closes.getD id none = some c → (marks none pre)[c]? = some (some '}')

/-! ## The loop states of the tree builder -/

/-- Lines 445-450 at the position `pos` of a call with end `stop`: the header is
cut out, trimmed and, if not empty, handed to `parse2`; the world, the cursor
and `obj` after that. -/
def nextHead (text : Str) (opens : List Nat) (st : World × Option Char) (parent pos stop : Nat) :
    World × Option Char × Nat :=
  headObj st parent (headAt text opens (nextOpen opens pos stop) pos stop)

/-- The loop states reached from `parse1(this, 0, text.length)` started in the
world `w0` with the cursor `q0`: `Visits ... st parent start pos stop` says
that some call `parse1(parent, start, stop)` reaches the test of its loop at
the position `pos`, the world and the cursor being `st`. A round that finds a
brace pair makes the nested call (`nested`) and, when that call has returned,
goes on behind the closing brace (`next`); a round that finds none ends the
loop (`last`). Where `id` throws, the code reaches no further state; the
relation, like `parse1`, reads on, so that it holds of every state the code
reaches. -/
inductive Visits (text : Str) (opens : List Nat) (closes : List (Option Nat)) (w0 : World)
    (q0 : Option Char) (this : Nat) : World × Option Char → Nat → Nat → Nat → Nat → Prop where
  | root : Visits text opens closes w0 q0 this (w0, q0) this 0 0 text.length
  | nested {st : World × Option Char} {parent start pos stop cl : Nat} :
      Visits text opens closes w0 q0 this st parent start pos stop → pos < stop →
      nextOpen opens pos stop < opens.length →
      closes.getD (nextOpen opens pos stop) none = some cl →
      Visits text opens closes w0 q0 this
        ((nextHead text opens st parent pos stop).1, (nextHead text opens st parent pos stop).2.1)
        (nextHead text opens st parent pos stop).2.2
        (opens.getD (nextOpen opens pos stop) 0 + 1) (opens.getD (nextOpen opens pos stop) 0 + 1) cl
  | next {st st1 : World × Option Char} {parent start pos stop cl fuel : Nat} :
      Visits text opens closes w0 q0 this st parent start pos stop → pos < stop →
      nextOpen opens pos stop < opens.length →
      closes.getD (nextOpen opens pos stop) none = some cl →
      parse1 text opens closes fuel
          ((nextHead text opens st parent pos stop).1, (nextHead text opens st parent pos stop).2.1)
          (nextHead text opens st parent pos stop).2.2
          (opens.getD (nextOpen opens pos stop) 0 + 1) cl = some st1 →
      Visits text opens closes w0 q0 this st1 parent start (cl + 1) stop
  | last {st : World × Option Char} {parent start pos stop : Nat} :
      Visits text opens closes w0 q0 this st parent start pos stop → pos < stop →
      ¬ nextOpen opens pos stop < opens.length →
      Visits text opens closes w0 q0 this
        ((nextHead text opens st parent pos stop).1, (nextHead text opens st parent pos stop).2.1)
        parent start stop stop

/-- The range of a call of `parse1` is the whole text or the inside of a
recorded pair. -/
def RangeOk (b : Braces) (len start pos stop : Nat) : Prop :=
  start ≤ pos ∧ pos ≤ stop ∧ stop ≤ len ∧
    (stop = len ∨ ∃ k, k < b.opens.length ∧ b.closes.getD k none = some stop ∧
      b.opens.getD k 0 < start)

/-! ## The shared cursor -/

/-- The states in which `createElement()` is called while `parse2` scans `cs`
from the state `s`: at every white-space character read outside a quote in
mode TAG, ID or NA (line 428), the cursor already moved by `quoted(c)`, and
at the end of the header (line 437). -/
def flushStates (parent : Nat) : Scan → Str → List Scan
  | s, [] => [s]
  | s, c :: cs =>
    (if (quoted s.quote c).1 = false ∧ c.toNat ≤ 32 ∧ s.mode.open3 = true then
        [{ s with quote := (quoted s.quote c).2 }]
      else []) ++ flushStates parent (scanStep parent s c) cs

/-- The brace matching pass, started outside a quote, is outside a quote before
it reads the character at position `p`. -/
def CursorAt (text : Str) (p : Nat) : Prop := cursorEnd none (text.take p) = none

/-- The call `parse2(parent, head)` made in the state `st` keeps the cursor
consistent: it ends outside a quote; every flush, and with it every attribute
scan, starts and ends outside a quote; and `head` stands in the text at some
offset such that, before each character of `head` and after the last, the
cursor of the scan is the cursor the brace matching pass had at the same
position of the text. -/
def HeaderAgrees (text : Str) (st : World × Option Char) (parent : Nat) (head : Str) : Prop :=
  (parse2 st.1 st.2 parent head).2.1 = none ∧
  (∀ f ∈ flushStates parent (Scan.init st.1 st.2) head,
    f.quote = none ∧ (attrScan f.quote (elemParam f.content)).quote = none) ∧
  ∃ off, (text.drop off).take head.length = head ∧
    ∀ j, j ≤ head.length →
      (scanHead parent st.1 st.2 (head.take j)).quote = cursorEnd none (text.take (off + j))

/-! ## Theorems -/

/-- C1: when the brace matching pass fails, `parse` returns without calling
`insert`, `set`, `html` or `id`: the world (heap, registry and record of calls)
is the one it was called in. -/
theorem parse_brace_error_untouched (w : World) (this : Nat) (text : Str) (e : Logged)
    (h : matchBraces text = BraceResult.error e) :
    parse w this text = some { world := w, returned := none, logged := some e } := by
  simp [parse, h]

/-- C1, at the text `div { span`: the pass fails with an open brace left and no
node is created. -/
theorem parse_brace_error_untouched_witness :
    matchBraces "div \x7b span".toList = BraceResult.error Logged.closeExpected ∧
    parse emptyRoot 0 "div \x7b span".toList =
      some { world := emptyRoot, returned := none, logged := some Logged.closeExpected } :=
  ⟨by decide, parse_brace_error_untouched emptyRoot 0 _ _ (by decide)⟩

/-- C2, what the code does: on `a{b}{c}` the second group is not entered. The
loop of line 445 looks for an opening brace strictly after `pos`, the brace at
`pos` itself is passed over, and the rest of the text, `{c}`, is handed to
`parse2` as a header: the root gets a second child of type `{c}` and no node
`c` is made. -/
theorem parse_adjacent_groups :
    parse emptyRoot 0 "a\x7bb\x7d\x7bc\x7d".toList =
      some { world :=
               { pages := [{ type := [], parent := none, child := [1, 3], maps := [], inner := none },
                           { type := "a".toList, parent := some 0, child := [2], maps := [],
                             inner := none },
                           { type := "b".toList, parent := some 1, child := [], maps := [],
                             inner := none },
                           { type := "\x7bc\x7d".toList, parent := some 0, child := [], maps := [],
                             inner := none }],
                 ids := [], proto := none, thrown := false,
                 calls := [SinkCall.insert 0 "a".toList, SinkCall.insert 1 "b".toList,
                           SinkCall.insert 0 "\x7bc\x7d".toList] },
             returned := some 0, logged := none } := by
  decide

/-- C4: the example of the grammar section builds three nodes: `div.card` under
the root with the mapping `id ↦ x`; under it `h1` with payload `Title` and no
mapping, and `button.btn` with the mapping `onclick ↦ go()`; the registry holds
one key, `okbtn`, bound to the button. -/
theorem parse_card_example :
    parse emptyRoot 0
        "div.card<id:'x'> \x7b h1(Title) button.btn<onclick:'go()'>#okbtn \x7d".toList =
      some { world :=
               { pages := [{ type := [], parent := none, child := [1], maps := [], inner := none },
                           { type := "div.card".toList, parent := some 0, child := [2, 3],
                             maps := [[("id".toList, "x".toList)]], inner := none },
                           { type := "h1".toList, parent := some 1, child := [], maps := [],
                             inner := some "Title".toList },
                           { type := "button.btn".toList, parent := some 1, child := [],
                             maps := [[("onclick".toList, "go()".toList)]], inner := none }],
                 ids := [("okbtn".toList, 3)], proto := none, thrown := false,
                 calls := [SinkCall.insert 0 "div.card".toList,
                           SinkCall.set 1 [("id".toList, "x".toList)],
                           SinkCall.insert 1 "h1".toList,
                           SinkCall.html 2 "Title".toList,
                           SinkCall.insert 1 "button.btn".toList,
                           SinkCall.set 3 [("onclick".toList, "go()".toList)],
                           SinkCall.id 3 "okbtn".toList] },
             returned := some 0, logged := none } := by
  decide

/-! ### The cursor and the scans -/

theorem cursorEnd_append (q : Option Char) (a b : Str) :
    cursorEnd q (a ++ b) = cursorEnd (cursorEnd q a) b := by
  simp [cursorEnd, List.foldl_append]

theorem quoted_none_snd (q : Option Char) (c : Char) (h : (quoted q c).1 = false) :
    (quoted q c).2 = none ∧ q = none := by
  cases q with
  | some x => simp [quoted] at h
  | none =>
    by_cases hc : c = SQ ∨ c = DQ
    · simp [quoted, hc] at h
    · simp [quoted, hc]

theorem attrStep_quote (s : AttrScan) (c : Char) :
    (attrStep s c).quote = (quoted s.quote c).2 := by
  unfold attrStep
  simp only [AttrScan.push, store]
  split_ifs <;> rfl

theorem attrFold_quote (cs : Str) (s : AttrScan) :
    (cs.foldl attrStep s).quote = cursorEnd s.quote cs := by
  induction cs generalizing s with
  | nil => rfl
  | cons c cs ih =>
    simp only [List.foldl_cons, ih, attrStep_quote]
    rfl

theorem attrScan_quote (q : Option Char) (cs : Str) :
    (attrScan q cs).quote = cursorEnd q cs := by
  simp [attrScan, store, attrFold_quote]

theorem cursorEnd_snoc (q : Option Char) (a : Str) (c : Char) :
    cursorEnd q (a ++ [c]) = (quoted (cursorEnd q a) c).2 := by
  simp [cursorEnd, List.foldl_append]

theorem cursorEnd_type_keyword (t : Str) (h : t ∈ keywords) :
    cursorEnd none (",".toList ++ ("type:".toList ++ t)) = none ∧
    cursorEnd none ("type:".toList ++ t) = none := by
  simp only [keywords, List.mem_cons, List.mem_singleton, List.not_mem_nil, or_false] at h
  rcases h with h | h | h | h | h | h <;> subst h <;> constructor <;> decide

theorem cursorEnd_elemParam (k : Content) (hp : cursorEnd none k.param = none) :
    cursorEnd none (elemParam k) = none := by
  unfold elemParam
  split_ifs with h1 h2
  · rw [List.append_assoc, cursorEnd_append, hp]
    exact (cursorEnd_type_keyword _ h1).1
  · simp only [not_not] at h2
    rw [h2]
    exact (cursorEnd_type_keyword _ h1).2
  · exact hp

theorem createElement_quote (parent : Nat) (s : Scan) (hq : s.quote = none)
    (hp : cursorEnd none s.content.param = none) :
    (createElement parent s).quote = none := by
  unfold createElement
  by_cases h0 : s.world.thrown = true
  · rw [if_pos h0]
    exact hq
  · rw [if_neg h0]
    simp only []
    split_ifs with h1
    · simp only [attrScan_quote, hq]
      exact cursorEnd_elemParam _ hp
    · exact hq

theorem createElement_paramOk (parent : Nat) (s : Scan) (hq : s.quote = none)
    (hp : cursorEnd none s.content.param = none) :
    (createElement parent s).paramOk := by
  have h := createElement_quote parent s hq hp
  unfold Scan.paramOk
  by_cases h0 : s.world.thrown = true
  · simp only [createElement, h0, if_true, hp, hq]
    split_ifs <;> rfl
  · simp [createElement, cursorEnd, h0]

theorem Content.push_param (k : Content) (m : Mode) (c : Char) :
    (k.push m c).param = if m = Mode.PARAM then k.param ++ [c] else k.param := by
  cases m <;> simp [Content.push]

theorem open3_ne_param (m : Mode) (h : m.open3 = true) : m ≠ Mode.PARAM := by
  cases m <;> simp [Mode.open3] at h ⊢

theorem scanStep_quote_paramOk (parent : Nat) (s : Scan) (c : Char) (hs : s.paramOk) :
    (scanStep parent s c).quote = (quoted s.quote c).2 ∧ (scanStep parent s c).paramOk := by
  unfold Scan.paramOk at hs
  by_cases hr : (quoted s.quote c).1 = true
  · have h1 : scanStep parent s c =
        { s with quote := (quoted s.quote c).2, content := s.content.push s.mode c } := by
      simp [scanStep, hr]
    rw [h1]
    refine ⟨rfl, ?_⟩
    unfold Scan.paramOk
    simp only [Content.push_param]
    by_cases hm : s.mode = Mode.PARAM
    · simp only [hm, if_true, cursorEnd_snoc] at hs ⊢
      rw [hs]
    · simpa only [hm, if_false] using hs
  · simp only [Bool.not_eq_true] at hr
    obtain ⟨hr2, hq⟩ := quoted_none_snd _ _ hr
    rw [hr2]
    unfold scanStep
    simp only [hr, Bool.false_eq_true, if_false, hr2]
    split_ifs with h1 h2 h3 h4 h5 h6 h7
    · have hm := open3_ne_param _ h1.2
      simp only [hm, if_false] at hs
      exact ⟨createElement_quote _ _ rfl hs, createElement_paramOk _ _ rfl hs⟩
    · have hm := open3_ne_param _ h2.2
      simp only [hm, if_false] at hs
      exact ⟨rfl, by simp [Scan.paramOk, hs]⟩
    · simp only [h3.2, if_true, hq] at hs
      exact ⟨rfl, by simp [Scan.paramOk, hs]⟩
    · have hm := open3_ne_param _ h4.2
      simp only [hm, if_false] at hs
      exact ⟨rfl, by simp [Scan.paramOk, hs]⟩
    · have hm : s.mode ≠ Mode.PARAM := by rw [h5.2]; decide
      simp only [hm, if_false] at hs
      exact ⟨rfl, by simp [Scan.paramOk, hs]⟩
    · have hm : s.mode ≠ Mode.PARAM := by rcases h6.2 with h | h <;> rw [h] <;> decide
      simp only [hm, if_false] at hs
      exact ⟨rfl, by simp [Scan.paramOk, hs]⟩
    · have hm : s.mode ≠ Mode.PARAM := by rw [h7.1]; decide
      simp only [hm, if_false] at hs
      exact ⟨rfl, by simp [Scan.paramOk, hs, Content.push]⟩
    · refine ⟨rfl, ?_⟩
      unfold Scan.paramOk
      simp only [Content.push_param]
      by_cases hm : s.mode = Mode.PARAM
      · simp only [hm, if_true, cursorEnd_snoc] at hs ⊢
        rw [hs, hr2]
      · simpa only [hm, if_false] using hs

theorem scanFold_quote_paramOk (parent : Nat) (cs : Str) (s : Scan) (hs : s.paramOk) :
    (cs.foldl (scanStep parent) s).quote = cursorEnd s.quote cs ∧
      (cs.foldl (scanStep parent) s).paramOk := by
  induction cs generalizing s with
  | nil => exact ⟨rfl, hs⟩
  | cons c cs ih =>
    obtain ⟨h1, h2⟩ := scanStep_quote_paramOk parent s c hs
    obtain ⟨h3, h4⟩ := ih _ h2
    refine ⟨?_, h4⟩
    simp only [List.foldl_cons, h3, h1]
    rfl

theorem scanHead_quote (parent : Nat) (w : World) (h : Str) :
    (scanHead parent w none h).quote = cursorEnd none h :=
  (scanFold_quote_paramOk parent h (Scan.init w none) rfl).1

theorem scanHead_snoc (parent : Nat) (w : World) (q : Option Char) (h : Str) (c : Char) :
    scanHead parent w q (h ++ [c]) = scanStep parent (scanHead parent w q h) c := by
  simp [scanHead, List.foldl_append]

/-- What `createElement()` does to the world, the cursor and `obj` does not
depend on the mode it is called in. -/
theorem createElement_mode (parent : Nat) (s : Scan) (m : Mode) :
    (createElement parent { s with mode := m }).world = (createElement parent s).world ∧
    (createElement parent { s with mode := m }).quote = (createElement parent s).quote ∧
    (createElement parent { s with mode := m }).obj = (createElement parent s).obj := by
  unfold createElement
  by_cases h0 : s.world.thrown = true
  · rw [if_pos h0, if_pos h0]
    exact ⟨rfl, rfl, rfl⟩
  · rw [if_neg h0, if_neg h0]
    exact ⟨rfl, rfl, rfl⟩

/-- An unterminated block is flushed like a terminated one. For every header
whose quotes are balanced, if its scan ends in mode PARAM then `parse2` on the
header followed by `>` leaves the same world (same calls, nodes, mappings,
payloads and registered keys, and the same exception if one is thrown), the
same cursor and the same object as on the header itself; likewise with `)` if
the scan ends in mode TEXT. -/
theorem parse2_unterminated_block (w : World) (parent : Nat) (h : Str)
    (hq : cursorEnd none h = none) :
    ((scanHead parent w none h).mode = Mode.PARAM →
      parse2 w none parent (h ++ ">".toList) = parse2 w none parent h) ∧
    ((scanHead parent w none h).mode = Mode.TEXT →
      parse2 w none parent (h ++ ")".toList) = parse2 w none parent h) := by
  have hs := scanHead_quote parent w h
  rw [hq] at hs
  constructor
  · intro hm
    have : scanHead parent w none (h ++ ">".toList) =
        { scanHead parent w none h with mode := Mode.NA } := by
      show scanHead parent w none (h ++ ['>']) = _
      rw [scanHead_snoc]
      simp [scanStep, hs, hm, quoted, SQ, DQ, Mode.open3]
    obtain ⟨e1, e2, e3⟩ := createElement_mode parent (scanHead parent w none h) Mode.NA
    simp only [parse2, this, e1, e2, e3]
  · intro hm
    have : scanHead parent w none (h ++ ")".toList) =
        { scanHead parent w none h with mode := Mode.NA } := by
      show scanHead parent w none (h ++ [')']) = _
      rw [scanHead_snoc]
      simp [scanStep, hs, hm, quoted, SQ, DQ, Mode.open3]
    obtain ⟨e1, e2, e3⟩ := createElement_mode parent (scanHead parent w none h) Mode.NA
    simp only [parse2, this, e1, e2, e3]

/-- The headers `div<a:b` and `h1(Title` are flushed like `div<a:b>` and
`h1(Title)`. -/
theorem parse2_unterminated_block_witness :
    (cursorEnd none "div<a:b".toList = none ∧
      (scanHead 0 emptyRoot none "div<a:b".toList).mode = Mode.PARAM ∧
      parse2 emptyRoot none 0 "div<a:b>".toList = parse2 emptyRoot none 0 "div<a:b".toList) ∧
    (cursorEnd none "h1(Title".toList = none ∧
      (scanHead 0 emptyRoot none "h1(Title".toList).mode = Mode.TEXT ∧
      parse2 emptyRoot none 0 "h1(Title)".toList = parse2 emptyRoot none 0 "h1(Title".toList) :=
  ⟨⟨by decide, by decide,
      (parse2_unterminated_block emptyRoot 0 "div<a:b".toList (by decide)).1 (by decide)⟩,
    ⟨by decide, by decide,
      (parse2_unterminated_block emptyRoot 0 "h1(Title".toList (by decide)).2 (by decide)⟩⟩

/-- C10, what the code does: the header `a#length<b` has balanced quotes and its
scan ends in mode PARAM, and the final flush, after `insert` and `set`, calls
`obj.id("length")`, which throws: an error is raised. -/
theorem parse2_unterminated_throws :
    cursorEnd none "a#length<b".toList = none ∧
    (scanHead 0 emptyRoot none "a#length<b".toList).mode = Mode.PARAM ∧
    (parse2 emptyRoot none 0 "a#length<b".toList).1 =
      { pages := [{ type := [], parent := none, child := [1], maps := [], inner := none },
                  { type := "a".toList, parent := some 0, child := [],
                    maps := [[("b".toList, [])]], inner := none }],
        ids := [], proto := none, thrown := true,
        calls := [SinkCall.insert 0 "a".toList, SinkCall.set 1 [("b".toList, [])],
                  SinkCall.id 1 "length".toList] } := by
  decide

/-! ### The brace matching pass -/

theorem marks_append (q : Option Char) (a b : Str) :
    marks q (a ++ b) = marks q a ++ marks (cursorEnd q a) b := by
  induction a generalizing q with
  | nil => rfl
  | cons c cs ih =>
    show _ :: marks _ (cs ++ b) = _ :: (marks _ cs ++ marks (cursorEnd _ cs) b)
    rw [ih]

theorem marks_length (q : Option Char) (a : Str) : (marks q a).length = a.length := by
  induction a generalizing q with
  | nil => rfl
  | cons c cs ih => simp [marks, ih]

theorem marks_snoc (pre : Str) (c : Char) :
    marks none (pre ++ [c]) = marks none pre ++ [markAfter pre c] := by
  rw [marks_append]
  rfl

theorem getElem?_snoc_some {α : Type} (l : List α) (x y : α) (n : Nat) (h : l[n]? = some y) :
    (l ++ [x])[n]? = some y := by
  have hn : n < l.length := by
    by_contra hc
    rw [List.getElem?_eq_none (by omega)] at h
    cases h
  rw [List.getElem?_append_left hn, h]

theorem getD_snoc_lt (l : List Nat) (x n : Nat) (h : n < l.length) :
    (l ++ [x]).getD n 0 = l.getD n 0 := by
  rw [List.getD_append _ _ _ _ h]

theorem no_extra_snoc (ms : List (Option Char)) (m : Option Char)
    (h : ∀ n, ms[n]? = some (some '}') →
      (ms.take n).count (some '{') ≠ (ms.take n).count (some '}'))
    (hm : m = some '}' → ms.count (some '{') ≠ ms.count (some '}')) :
    ∀ n, (ms ++ [m])[n]? = some (some '}') →
      ((ms ++ [m]).take n).count (some '{') ≠ ((ms ++ [m]).take n).count (some '}') := by
  intro n hn
  rcases Nat.lt_or_ge n ms.length with hlt | hge
  · rw [List.getElem?_append_left hlt] at hn
    rw [List.take_append_of_le_length (Nat.le_of_lt hlt)]
    exact h n hn
  · rcases Nat.eq_or_lt_of_le hge with heq | hgt
    · rw [← heq, List.getElem?_concat_length] at hn
      rw [← heq, List.take_left]
      exact hm (Option.some.inj hn)
    · rw [List.getElem?_eq_none (by simp; omega)] at hn
      cases hn

theorem BInv.skip {pre : Str} {b : Braces} (h : BInv pre b) (c : Char)
    (h1 : markAfter pre c ≠ some '{') (h2 : markAfter pre c ≠ some '}') :
    BInv (pre ++ [c]) b where
  pair_eq := h.pair_eq
  opens_count := by
    rw [marks_snoc, List.count_append, List.count_singleton]
    simpa [h1] using h.opens_count
  depth := by
    rw [marks_snoc, List.count_append, List.count_singleton]
    simpa [h2] using h.depth
  closes_le := h.closes_le
  nodup := h.nodup
  stack_open := h.stack_open
  closed := by
    intro id hid hns
    obtain ⟨cl, e1, e2, e3⟩ := h.closed id hid hns
    exact ⟨cl, e1, e2, getElem?_snoc_some _ _ _ _ e3⟩
  opened := fun id hid => getElem?_snoc_some _ _ _ _ (h.opened id hid)
  no_extra := by
    rw [marks_snoc]
    exact no_extra_snoc _ _ h.no_extra (fun hm => absurd hm h2)

theorem arraySet_getD_self (l : List (Option Nat)) (i v : Nat) :
    (arraySet l i v).getD i none = some v := by
  induction i generalizing l with
  | zero => cases l <;> simp [arraySet]
  | succ i ih =>
    cases l with
    | nil => simpa [arraySet] using ih []
    | cons x rest => simpa [arraySet] using ih rest

theorem arraySet_getD_ne (l : List (Option Nat)) (i j v : Nat) (h : j ≠ i) :
    (arraySet l i v).getD j none = l.getD j none := by
  induction i generalizing l j with
  | zero =>
    cases j with
    | zero => exact absurd rfl h
    | succ j => cases l <;> simp [arraySet]
  | succ i ih =>
    cases j with
    | zero => cases l <;> simp [arraySet]
    | succ j =>
      have hj : j ≠ i := fun e => h (by rw [e])
      cases l with
      | nil => simpa [arraySet] using ih [] j hj
      | cons x rest => simpa [arraySet] using ih rest j hj

theorem arraySet_length (l : List (Option Nat)) (i v : Nat) :
    (arraySet l i v).length = max l.length (i + 1) := by
  induction i generalizing l with
  | zero => cases l <;> simp [arraySet]
  | succ i ih =>
    cases l with
    | nil => simpa [arraySet] using ih []
    | cons x rest =>
      simp only [arraySet, List.length_cons, ih rest]
      omega

theorem markAfter_some {pre : Str} {c d : Char} (h : markAfter pre c = some d) : c = d := by
  unfold markAfter at h
  split_ifs at h
  exact Option.some.inj h

theorem BInv.open {pre : Str} {b : Braces} (h : BInv pre b) (c : Char)
    (hm : markAfter pre c = some '{') :
    BInv (pre ++ [c])
      { pair := b.pair + 1, opens := b.opens ++ [pre.length], stack := b.pair :: b.stack,
        closes := b.closes } where
  pair_eq := by simp [h.pair_eq]
  opens_count := by
    rw [marks_snoc, List.count_append, List.count_singleton, hm]
    simp [h.opens_count]
  depth := by
    rw [marks_snoc, List.count_append, List.count_singleton, hm]
    have := h.depth
    simp only [List.length_cons, List.length_append, List.length_singleton]
    have hne : ((some '{' : Option Char) == some '}') = false := by decide
    simp only [hne, Bool.false_eq_true, if_false, Nat.add_zero, List.length_nil]
    omega
  closes_le := by
    have := h.closes_le
    simp only [List.length_append, List.length_singleton]
    omega
  nodup := by
    refine List.nodup_cons.mpr ⟨?_, h.nodup⟩
    intro hmem
    have := (h.stack_open _ hmem).1
    rw [h.pair_eq] at this
    exact Nat.lt_irrefl _ this
  stack_open := by
    intro id hid
    simp only [List.length_append, List.length_singleton]
    rcases List.mem_cons.mp hid with e | e
    · subst e
      refine ⟨by rw [h.pair_eq]; omega, ?_⟩
      rw [List.getD_eq_getElem?_getD, List.getElem?_eq_none (by rw [h.pair_eq]; exact h.closes_le)]
      rfl
    · exact ⟨Nat.lt_succ_of_lt (h.stack_open id e).1, (h.stack_open id e).2⟩
  closed := by
    intro id hid hns
    simp only [List.length_append, List.length_singleton] at hid
    have hne : id ≠ b.pair := fun e => hns (by rw [e]; exact List.mem_cons_self _ _)
    have hlt : id < b.opens.length := by rw [h.pair_eq] at hne; omega
    obtain ⟨cl, e1, e2, e3⟩ := h.closed id hlt (fun hmem => hns (List.mem_cons_of_mem _ hmem))
    exact ⟨cl, e1, by rw [getD_snoc_lt _ _ _ hlt]; exact e2, getElem?_snoc_some _ _ _ _ e3⟩
  opened := by
    intro id hid
    simp only [List.length_append, List.length_singleton] at hid
    rcases Nat.lt_or_ge id b.opens.length with hlt | hge
    · rw [getD_snoc_lt _ _ _ hlt]
      exact getElem?_snoc_some _ _ _ _ (h.opened id hlt)
    · have e : id = b.opens.length := by omega
      rw [e, List.getD_eq_getElem?_getD, List.getElem?_concat_length]
      simp only [Option.getD_some]
      rw [List.getElem?_concat_length, markAfter_some hm]
  no_extra := by
    rw [marks_snoc]
    refine no_extra_snoc _ _ h.no_extra (fun e => ?_)
    rw [hm] at e
    exact absurd e (by decide)

theorem BInv.close {pre : Str} {b : Braces} (h : BInv pre b) (c : Char)
    (hm : markAfter pre c = some '}') (closing : Nat) (rest : List Nat)
    (hst : b.stack = closing :: rest) :
    BInv (pre ++ [c])
      { pair := b.pair, opens := b.opens, stack := rest,
        closes := arraySet b.closes closing pre.length } where
  pair_eq := h.pair_eq
  opens_count := by
    rw [marks_snoc, List.count_append, List.count_singleton, hm]
    have hne : ((some '}' : Option Char) == some '{') = false := by decide
    simp only [hne, Bool.false_eq_true, if_false, Nat.add_zero]
    exact h.opens_count
  depth := by
    rw [marks_snoc, List.count_append, List.count_singleton, hm]
    have := h.depth
    rw [hst] at this
    simp only [List.length_cons] at this
    simp only [beq_self_eq_true, if_true]
    omega
  closes_le := by
    have h1 := h.closes_le
    have h2 := (h.stack_open closing (by rw [hst]; exact List.mem_cons_self _ _)).1
    simp only [arraySet_length]
    omega
  nodup := by
    have := h.nodup
    rw [hst] at this
    exact (List.nodup_cons.mp this).2
  stack_open := by
    intro id hid
    have hn := h.nodup
    rw [hst] at hn
    have hne : id ≠ closing := fun e => (List.nodup_cons.mp hn).1 (e ▸ hid)
    have := h.stack_open id (by rw [hst]; exact List.mem_cons_of_mem _ hid)
    exact ⟨this.1, by rw [arraySet_getD_ne _ _ _ _ hne]; exact this.2⟩
  closed := by
    intro id hid hns
    by_cases e : id = closing
    · subst e
      refine ⟨pre.length, arraySet_getD_self _ _ _, ?_, ?_⟩
      · show b.opens.getD id 0 < pre.length
        have ho := h.opened id hid
        by_contra hc
        rw [List.getElem?_eq_none (by omega)] at ho
        cases ho
      · rw [List.getElem?_concat_length, markAfter_some hm]
    · have hns2 : id ∉ b.stack := by
        rw [hst]
        intro hmem
        rcases List.mem_cons.mp hmem with e2 | e2
        · exact e e2
        · exact hns e2
      obtain ⟨cl, e1, e2, e3⟩ := h.closed id hid hns2
      exact ⟨cl, by rw [arraySet_getD_ne _ _ _ _ e]; exact e1, e2, getElem?_snoc_some _ _ _ _ e3⟩
  opened := fun id hid => getElem?_snoc_some _ _ _ _ (h.opened id hid)
  no_extra := by
    rw [marks_snoc]
    refine no_extra_snoc _ _ h.no_extra (fun _ => ?_)
    have h1 := h.depth
    have h2 := h.opens_count
    rw [hst] at h1
    simp only [List.length_cons] at h1
    omega

theorem BInv.init : BInv [] Braces.init where
  pair_eq := rfl
  opens_count := rfl
  depth := rfl
  closes_le := Nat.le_refl _
  nodup := List.nodup_nil
  stack_open := fun _ hid => absurd hid (List.not_mem_nil _)
  closed := fun _ hid => absurd hid (Nat.not_lt_zero _)
  opened := fun _ hid => absurd hid (Nat.not_lt_zero _)
  no_extra := fun n hn => by simp [marks] at hn

/-- What the loop of the brace matching pass ends with, started after the
characters `pre`: either tables that satisfy the invariant for the whole text,
or an early return at a closing brace that is an extra close. -/
theorem matchLoop_spec (cs pre : Str) (b : Braces) (h : BInv pre b) :
    match matchLoop cs pre.length (cursorEnd none pre) b with
    | some r => BInv (pre ++ cs) r.1 ∧ r.2 = cursorEnd none (pre ++ cs)
    | none => extraClose (pre ++ cs) := by
  induction cs generalizing pre b with
  | nil => simpa [matchLoop] using h
  | cons c cs ih =>
    have hlen : (pre ++ [c]).length = pre.length + 1 := by simp
    have hcur : cursorEnd none (pre ++ [c]) = (quoted (cursorEnd none pre) c).2 :=
      cursorEnd_snoc _ _ _
    have happ : pre ++ c :: cs = (pre ++ [c]) ++ cs := by simp
    unfold matchLoop
    simp only []
    by_cases hq : (quoted (cursorEnd none pre) c).1 = true
    · have hm : markAfter pre c = none := by simp [markAfter, hq]
      have := ih (pre ++ [c]) b (h.skip c (by rw [hm]; decide) (by rw [hm]; decide))
      rw [hlen, hcur, ← happ] at this
      simpa only [hq, if_true] using this
    · simp only [hq, Bool.false_eq_true, if_false]
      have hm : markAfter pre c = some c := by simp [markAfter, hq]
      by_cases ho : c = '{'
      · simp only [ho, if_true]
        have := ih (pre ++ [c]) _ (h.open c (by rw [hm, ho]))
        rw [hlen, hcur, ← happ, ho] at this
        exact this
      · simp only [ho, if_false]
        by_cases hc : c = '}'
        · subst hc
          simp only [if_true]
          cases hst : b.stack with
          | nil =>
            simp only []
            refine ⟨pre.length, by simp, ?_, ?_⟩
            · rw [happ, marks_append, marks_snoc, List.append_assoc,
                List.getElem?_append_right (by rw [marks_length]), marks_length, hm]
              simp
            · unfold opensSeen closesSeen
              rw [happ, marks_append, marks_snoc, List.append_assoc]
              rw [← marks_length none pre, List.take_left]
              have h1 := h.depth
              have h2 := h.opens_count
              rw [hst] at h1
              simp only [List.length_nil] at h1
              omega
          | cons closing rest =>
            simp only []
            have := ih (pre ++ [_]) _ (h.close _ hm closing rest hst)
            rw [hlen, hcur, ← happ] at this
            exact this
        · simp only [hc, if_false]
          have := ih (pre ++ [c]) b
            (h.skip c (by rw [hm]; simpa using ho) (by rw [hm]; simpa using hc))
          rw [hlen, hcur, ← happ] at this
          exact this

/-- The brace matching pass on a whole text. -/
theorem matchBraces_cases (text : Str) :
    (extraClose text ∧ matchBraces text = BraceResult.error Logged.openExpected) ∨
    (∃ b, BInv text b ∧ b.stack ≠ [] ∧
      matchBraces text = BraceResult.error Logged.closeExpected) ∨
    (∃ b, BInv text b ∧ b.stack = [] ∧
      matchBraces text = BraceResult.ok b (cursorEnd none text)) := by
  have h := matchLoop_spec text [] Braces.init BInv.init
  simp only [List.length_nil, List.nil_append] at h
  unfold matchBraces
  have hc : cursorEnd none [] = none := rfl
  rw [hc] at h
  cases hm : matchLoop text 0 none Braces.init with
  | none =>
    rw [hm] at h
    exact Or.inl ⟨h, rfl⟩
  | some r =>
    rw [hm] at h
    obtain ⟨b, q⟩ := r
    simp only at h
    cases hst : b.stack with
    | nil => exact Or.inr (Or.inr ⟨b, h.1, hst, by simp [hst, h.2]⟩)
    | cons x rest => exact Or.inr (Or.inl ⟨b, h.1, by simp [hst], by simp [hst]⟩)

theorem getD_none_eq_some {l : List (Option Nat)} {i c : Nat} (h : l.getD i none = some c) :
    l[i]? = some (some c) := by
  rw [List.getD_eq_getElem?_getD] at h
  cases hl : l[i]? with
  | none => rw [hl] at h; cases h
  | some x => rw [hl] at h; simpa using h

theorem BInv.closes_length {text : Str} {b : Braces} (h : BInv text b) (hst : b.stack = []) :
    b.closes.length = b.opens.length := by
  refine Nat.le_antisymm h.closes_le ?_
  by_contra hc
  have hlt : b.closes.length < b.opens.length := by omega
  obtain ⟨c, e1, _, _⟩ := h.closed b.closes.length hlt (by rw [hst]; exact List.not_mem_nil _)
  have := getD_none_eq_some e1
  rw [List.getElem?_eq_none (Nat.le_refl _)] at this
  cases this

/-- C9: when the brace matching pass succeeds, `open` and `close` hold equally
many recorded entries, as many as the text has opening braces outside quotes;
every pair id below that number has both entries, the closing index is larger
than the opening index, the character at the opening index is an opening
brace and the character at the closing index is a closing brace. -/
theorem matchBraces_tables (text : Str) (b : Braces) (quote : Option Char)
    (h : matchBraces text = BraceResult.ok b quote) :
    b.opens.length = (marks none text).count (some '{') ∧
    b.closes.length = b.opens.length ∧
    (b.closes.filter Option.isSome).length = b.opens.length ∧
    ∀ id, id < b.opens.length →
      ∃ o c, b.opens[id]? = some o ∧ b.closes[id]? = some (some c) ∧ o < c ∧
        text[o]? = some '{' ∧ text[c]? = some '}' := by
  rcases matchBraces_cases text with ⟨_, e⟩ | ⟨_, _, _, e⟩ | ⟨b1, hinv, hst, e⟩
  · rw [e] at h; cases h
  · rw [e] at h; cases h
  · rw [e] at h
    injection h with hb hq
    subst hb
    have hall : ∀ id, id < b1.opens.length →
        ∃ o c, b1.opens[id]? = some o ∧ b1.closes[id]? = some (some c) ∧ o < c ∧
          text[o]? = some '{' ∧ text[c]? = some '}' := by
      intro id hid
      obtain ⟨c, e1, e2, e3⟩ := hinv.closed id hid (by rw [hst]; exact List.not_mem_nil _)
      refine ⟨b1.opens.getD id 0, c, ?_, getD_none_eq_some e1, e2, hinv.opened id hid, e3⟩
      rw [List.getD_eq_getElem?_getD, List.getElem?_eq_getElem hid]
      rfl
    refine ⟨hinv.opens_count, hinv.closes_length hst, ?_, hall⟩
    rw [List.filter_eq_self.mpr, hinv.closes_length hst]
    intro x hx
    obtain ⟨n, hn, rfl⟩ := List.getElem_of_mem hx
    obtain ⟨o, c, _, e2, _⟩ := hall n (by rw [← hinv.closes_length hst]; exact hn)
    rw [List.getElem?_eq_getElem hn] at e2
    rw [Option.some.inj e2]
    rfl

/-- C9, at the text `a{b{'}'}}c`: two pairs, the quoted brace is not one. -/
theorem matchBraces_tables_witness :
    matchBraces "a\x7bb\x7b'\x7d'\x7d\x7dc".toList =
        BraceResult.ok { pair := 2, opens := [1, 3], stack := [], closes := [some 8, some 7] }
          none ∧
      ([1, 3] : List Nat).length = (marks none "a\x7bb\x7b'\x7d'\x7d\x7dc".toList).count (some '{') ∧
      ([some 8, some 7] : List (Option Nat)).length = ([1, 3] : List Nat).length :=
  ⟨by decide,
    (matchBraces_tables "a\x7bb\x7b'\x7d'\x7d\x7dc".toList
      { pair := 2, opens := [1, 3], stack := [], closes := [some 8, some 7] } none (by decide)).1,
    (matchBraces_tables "a\x7bb\x7b'\x7d'\x7d\x7dc".toList
      { pair := 2, opens := [1, 3], stack := [], closes := [some 8, some 7] } none (by decide)).2.1⟩

/-! ### The tree builder returns -/

theorem firstAfter_spec (pos : Nat) (l : List Nat) (k : Nat) :
    k ≤ firstAfter pos l k ∧ firstAfter pos l k ≤ k + l.length ∧
      (firstAfter pos l k < k + l.length → pos < l.getD (firstAfter pos l k - k) 0) := by
  induction l generalizing k with
  | nil => simp [firstAfter]
  | cons o rest ih =>
    unfold firstAfter
    split_ifs with h
    · simp [h]
    · obtain ⟨h1, h2, h3⟩ := ih (k + 1)
      refine ⟨by omega, by simp only [List.length_cons]; omega, ?_⟩
      intro hlt
      have e : firstAfter pos rest (k + 1) - k = (firstAfter pos rest (k + 1) - (k + 1)) + 1 := by
        omega
      rw [e, List.getD_cons_succ]
      exact h3 (by simp only [List.length_cons] at hlt; omega)

theorem nextOpen_lt (opens : List Nat) (pos stop : Nat)
    (h : nextOpen opens pos stop < opens.length) :
    pos < opens.getD (nextOpen opens pos stop) 0 := by
  unfold nextOpen at h ⊢
  simp only [] at h ⊢
  split_ifs at h ⊢ with hc
  · exact absurd h (Nat.lt_irrefl _)
  · have := (firstAfter_spec pos opens 0).2.2 (by simpa using h)
    simpa using this

theorem parse1_done (text : Str) (opens : List Nat) (closes : List (Option Nat)) (fuel : Nat)
    (st : World × Option Char) (parent pos stop : Nat) (h : ¬ pos < stop) :
    parse1 text opens closes (fuel + 1) st parent pos stop = some st := by
  conv_lhs => unfold parse1
  simp only [h, if_false]

theorem parse1_tail (text : Str) (opens : List Nat) (closes : List (Option Nat)) (fuel : Nat)
    (st : World × Option Char) (parent pos stop : Nat) (h : pos < stop)
    (hi : ¬ nextOpen opens pos stop < opens.length) :
    parse1 text opens closes (fuel + 1) st parent pos stop =
      some ((headObj st parent (trim (substring text pos stop))).1,
        (headObj st parent (trim (substring text pos stop))).2.1) := by
  conv_lhs => unfold parse1
  simp only [h, if_true, hi, if_false, headAt]

theorem parse1_hole (text : Str) (opens : List Nat) (closes : List (Option Nat)) (fuel : Nat)
    (st : World × Option Char) (parent pos stop : Nat) (h : pos < stop)
    (hi : nextOpen opens pos stop < opens.length)
    (hc : closes.getD (nextOpen opens pos stop) none = none) :
    ∃ st1, parse1 text opens closes (fuel + 1) st parent pos stop = some st1 := by
  conv in parse1 _ _ _ _ _ _ _ _ => unfold parse1
  simp only [h, if_true, hi, hc]
  exact ⟨_, rfl⟩

theorem parse1_group (text : Str) (opens : List Nat) (closes : List (Option Nat)) (fuel : Nat)
    (st : World × Option Char) (parent pos stop cl : Nat) (h : pos < stop)
    (hi : nextOpen opens pos stop < opens.length)
    (hc : closes.getD (nextOpen opens pos stop) none = some cl) :
    parse1 text opens closes (fuel + 1) st parent pos stop =
      match parse1 text opens closes fuel
          ((headObj st parent
              (trim (substring text pos (opens.getD (nextOpen opens pos stop) 0)))).1,
            (headObj st parent
              (trim (substring text pos (opens.getD (nextOpen opens pos stop) 0)))).2.1)
          (headObj st parent
              (trim (substring text pos (opens.getD (nextOpen opens pos stop) 0)))).2.2
          (opens.getD (nextOpen opens pos stop) 0 + 1) cl with
      | none => none
      | some st1 => parse1 text opens closes fuel st1 parent (cl + 1) stop := by
  conv_lhs => unfold parse1
  simp only [h, if_true, hi, hc, headAt]

/-- With tables whose closing indices lie after their opening indices and inside
the text, `parse1` returns: a fuel of one more than the number of characters
from `pos` to the end of the text is enough. -/
theorem parse1_returns (text : Str) (opens : List Nat) (closes : List (Option Nat)) (L : Nat)
    (hcl : ∀ i cl, i < opens.length → closes.getD i none = some cl →
      opens.getD i 0 < cl ∧ cl < L)
    (fuel : Nat) (st : World × Option Char) (parent pos stop : Nat)
    (hstop : stop ≤ L) (hpos : pos ≤ L) (hfuel : L + 1 ≤ fuel + pos) :
    ∃ st1, parse1 text opens closes fuel st parent pos stop = some st1 := by
  induction fuel generalizing st parent pos stop with
  | zero => omega
  | succ fuel ih =>
    by_cases hlt : pos < stop
    · by_cases hi : nextOpen opens pos stop < opens.length
      · have hgt := nextOpen_lt opens pos stop hi
        cases hc : closes.getD (nextOpen opens pos stop) none with
        | none => exact parse1_hole text opens closes fuel st parent pos stop hlt hi hc
        | some cl =>
          obtain ⟨h1, h2⟩ := hcl _ cl hi hc
          rw [parse1_group text opens closes fuel st parent pos stop cl hlt hi hc]
          obtain ⟨st1, e1⟩ := ih
            ((headObj st parent
                (trim (substring text pos (opens.getD (nextOpen opens pos stop) 0)))).1,
              (headObj st parent
                (trim (substring text pos (opens.getD (nextOpen opens pos stop) 0)))).2.1)
            (headObj st parent
                (trim (substring text pos (opens.getD (nextOpen opens pos stop) 0)))).2.2
            (opens.getD (nextOpen opens pos stop) 0 + 1) cl (by omega) (by omega) (by omega)
          rw [e1]
          exact ih st1 parent (cl + 1) stop hstop (by omega) (by omega)
      · exact ⟨_, parse1_tail text opens closes fuel st parent pos stop hlt hi⟩
    · exact ⟨_, parse1_done text opens closes fuel st parent pos stop hlt⟩

/-- The early returns of `parse` are taken exactly when the braces are
unbalanced under the quote cursor. On an extra close it logs that an opening
brace was expected, on an unclosed open (without extra close) that a closing
brace was expected, in both cases leaving the world as it was and returning
`undefined`. On every other text nothing is logged and `parse1` is run: `parse`
returns `this` unless an exception was thrown on the way. -/
theorem parse_aborts_iff_unbalanced (w : World) (this : Nat) (text : Str) :
    (extraClose text →
      parse w this text =
        some { world := w, returned := none, logged := some Logged.openExpected }) ∧
    (¬ extraClose text → unclosedOpen text →
      parse w this text =
        some { world := w, returned := none, logged := some Logged.closeExpected }) ∧
    (¬ unbalanced text →
      ∃ w1, parse w this text =
        some { world := w1, returned := if w1.thrown then none else some this,
               logged := none }) := by
  rcases matchBraces_cases text with ⟨hx, e⟩ | ⟨b, hinv, hst, e⟩ | ⟨b, hinv, hst, e⟩
  · refine ⟨fun _ => by simp [parse, e], fun h => absurd hx h, fun h => absurd (Or.inl hx) h⟩
  · have hnx : ¬ extraClose text := by
      rintro ⟨n, _, h1, h2⟩
      exact hinv.no_extra n h1 h2
    have hun : unclosedOpen text := by
      unfold unclosedOpen opensSeen closesSeen
      rw [← marks_length none text, List.take_length]
      have h1 := hinv.depth
      have h2 := hinv.opens_count
      have h3 : b.stack.length ≠ 0 := fun h0 => hst (List.length_eq_zero.mp h0)
      omega
    exact ⟨fun h => absurd h hnx, fun _ _ => by simp [parse, e],
      fun h => absurd (Or.inr hun) h⟩
  · have hnx : ¬ extraClose text := by
      rintro ⟨n, _, h1, h2⟩
      exact hinv.no_extra n h1 h2
    have hnu : ¬ unclosedOpen text := by
      unfold unclosedOpen opensSeen closesSeen
      rw [← marks_length none text, List.take_length]
      have h1 := hinv.depth
      have h2 := hinv.opens_count
      rw [hst] at h1
      simp only [List.length_nil] at h1
      omega
    refine ⟨fun h => absurd h hnx, fun _ h => absurd h hnu, fun _ => ?_⟩
    obtain ⟨st1, e1⟩ := parse1_returns text b.opens b.closes text.length
      (by
        intro i cl hi hc
        obtain ⟨c, e1, e2, e3⟩ := hinv.closed i hi (by rw [hst]; exact List.not_mem_nil _)
        rw [hc] at e1
        rw [Option.some.inj e1]
        refine ⟨e2, ?_⟩
        by_contra hge
        rw [List.getElem?_eq_none (by omega)] at e3
        cases e3)
      (text.length + 1) (w, cursorEnd none text) this 0 text.length (Nat.le_refl _)
      (Nat.zero_le _) (Nat.le_refl _)
    exact ⟨st1.1, by simp [parse, e, e1]⟩

/-- Three texts: `a}` has an extra close, `div { span` an unclosed open, and
`a<'{'>#c b#c (d` (a quoted brace, a key given twice, an unterminated payload)
is balanced and is parsed to its end. -/
theorem parse_aborts_iff_unbalanced_witness :
    (extraClose "a\x7d".toList ∧
      parse emptyRoot 0 "a\x7d".toList =
        some { world := emptyRoot, returned := none, logged := some Logged.openExpected }) ∧
    (¬ extraClose "div \x7b span".toList ∧ unclosedOpen "div \x7b span".toList ∧
      parse emptyRoot 0 "div \x7b span".toList =
        some { world := emptyRoot, returned := none, logged := some Logged.closeExpected }) ∧
    (¬ unbalanced "a<'\x7b'>#c b#c (d".toList ∧
      ∃ w1, parse emptyRoot 0 "a<'\x7b'>#c b#c (d".toList =
        some { world := w1, returned := if w1.thrown then none else some 0,
               logged := none }) :=
  ⟨⟨by decide, (parse_aborts_iff_unbalanced emptyRoot 0 "a\x7d".toList).1 (by decide)⟩,
    ⟨by decide, by decide,
      (parse_aborts_iff_unbalanced emptyRoot 0 "div \x7b span".toList).2.1 (by decide)
        (by decide)⟩,
    ⟨by decide,
      (parse_aborts_iff_unbalanced emptyRoot 0 "a<'\x7b'>#c b#c (d".toList).2.2 (by decide)⟩⟩

/-- C8, what the code does: the text `a#length` has balanced braces, and `parse`
is left by the exception that `id` throws for the key `length`: the node `a`
has been inserted, nothing is registered and no value is returned. -/
theorem parse_balanced_text_throws :
    ¬ unbalanced "a#length".toList ∧
    parse emptyRoot 0 "a#length".toList =
      some { world :=
               { pages := [{ type := [], parent := none, child := [1], maps := [], inner := none },
                           { type := "a".toList, parent := some 0, child := [], maps := [],
                             inner := none }],
                 ids := [], proto := none, thrown := true,
                 calls := [SinkCall.insert 0 "a".toList, SinkCall.id 1 "length".toList] },
             returned := none, logged := none } := by
  decide

/-! ### Characters -/

theorem letter_toNat (c : Char) (h : c.isAlpha = true) :
    (65 ≤ c.toNat ∧ c.toNat ≤ 90) ∨ (97 ≤ c.toNat ∧ c.toNat ≤ 122) := by
  simp only [Char.isAlpha, Char.isUpper, Char.isLower, Bool.or_eq_true, Bool.and_eq_true,
    decide_eq_true_eq] at h
  rcases h with ⟨h1, h2⟩ | ⟨h1, h2⟩
  · exact Or.inl ⟨h1, h2⟩
  · exact Or.inr ⟨h1, h2⟩

theorem ne_of_toNat_ge (c d : Char) (n : Nat) (h : n ≤ c.toNat) (hd : d.toNat < n) : c ≠ d := by
  intro e
  subst e
  omega

theorem letter_ne (c d : Char) (h : c.isAlpha = true) (hd : d.isAlpha = false) : c ≠ d := by
  intro e
  subst e
  rw [h] at hd
  cases hd

theorem letter_plain (c : Char) (h : c.isAlpha = true) : plainChar c := by
  refine ⟨?_, letter_ne _ _ h (by decide), letter_ne _ _ h (by decide),
    letter_ne _ _ h (by decide), letter_ne _ _ h (by decide), letter_ne _ _ h (by decide)⟩
  rcases letter_toNat c h with h1 | h1 <;> omega

theorem letter_not_space (c : Char) (h : c.isAlpha = true) : isJsSpace c = false := by
  have h1 := letter_toNat c h
  unfold isJsSpace
  simp only [Bool.or_eq_false_iff, Bool.and_eq_false_iff, decide_eq_false_iff_not]
  rcases h1 with h1 | h1 <;> refine ⟨⟨⟨⟨⟨⟨⟨⟨⟨⟨⟨⟨⟨⟨?_, ?_⟩, ?_⟩, ?_⟩, ?_⟩, ?_⟩, ?_⟩, ?_⟩, ?_⟩,
    ?_⟩, ?_⟩, ?_⟩, ?_⟩, ?_⟩, ?_⟩ <;> omega

theorem quoted_plain (c : Char) (h1 : c ≠ SQ) (h2 : c ≠ DQ) : quoted none c = (false, none) := by
  simp [quoted, h1, h2]

theorem quoted_inside (q c : Char) (h : c ≠ q) : quoted (some q) c = (true, some q) := by
  simp [quoted, h]

theorem quoted_open (q : Char) (h : q = SQ ∨ q = DQ) : quoted none q = (true, some q) := by
  simp [quoted, h]

theorem quoted_close (q : Char) : quoted (some q) q = (true, none) := by
  simp [quoted]

/-! ### The header scan on runs of characters -/

theorem scanStep_tag_plain (parent : Nat) (s : Scan) (c : Char) (hm : s.mode = Mode.TAG)
    (hq : s.quote = none) (hc : plainChar c) :
    scanStep parent s c = { s with content := { s.content with tag := s.content.tag ++ [c] } } := by
  obtain ⟨w, q, k, m, o⟩ := s
  obtain ⟨h0, h1, h2, h3, h4, h5⟩ := hc
  simp only at hm hq
  subst hm hq
  have hn : ¬ c.toNat ≤ 32 := by omega
  simp [scanStep, quoted_plain c h1 h2, hn, h3, h4, h5, Content.push]

theorem scanFold_tag_plain (parent : Nat) (cs : Str) (s : Scan) (hm : s.mode = Mode.TAG)
    (hq : s.quote = none) (hc : ∀ c ∈ cs, plainChar c) :
    cs.foldl (scanStep parent) s =
      { s with content := { s.content with tag := s.content.tag ++ cs } } := by
  induction cs generalizing s with
  | nil => simp
  | cons c cs ih =>
    rw [List.foldl_cons, scanStep_tag_plain parent s c hm hq (hc c (List.mem_cons_self _ _)),
      ih]
    · simp
    · exact hm
    · exact hq
    · exact fun d hd => hc d (List.mem_cons_of_mem _ hd)

theorem scanStep_wspace_plain (parent : Nat) (s : Scan) (c : Char) (hm : s.mode = Mode.WSPACE)
    (hq : s.quote = none) (hc : plainChar c) :
    scanStep parent s c =
      { s with mode := Mode.TAG, content := { s.content with tag := s.content.tag ++ [c] } } := by
  obtain ⟨w, q, k, m, o⟩ := s
  obtain ⟨h0, h1, h2, h3, h4, h5⟩ := hc
  simp only at hm hq
  subst hm hq
  have hn : ¬ c.toNat ≤ 32 := by omega
  simp [scanStep, quoted_plain c h1 h2, hn, h3, h4, h5, Content.push, Mode.open3, h0]

theorem scanStep_param (parent : Nat) (s : Scan) (c : Char) (hm : s.mode = Mode.PARAM)
    (hc : (quoted s.quote c).1 = false → c ≠ '>') :
    scanStep parent s c =
      { s with quote := (quoted s.quote c).2,
               content := { s.content with param := s.content.param ++ [c] } } := by
  obtain ⟨w, q, k, m, o⟩ := s
  simp only at hm hc
  subst hm
  by_cases hr : (quoted q c).1 = true
  · simp [scanStep, hr, Content.push]
  · simp only [Bool.not_eq_true] at hr
    have := hc hr
    simp [scanStep, hr, Content.push, Mode.open3, this]

theorem scanFold_param (parent : Nat) (cs : Str) (s : Scan) (hm : s.mode = Mode.PARAM)
    (hc : some '>' ∉ marks s.quote cs) :
    cs.foldl (scanStep parent) s =
      { s with quote := cursorEnd s.quote cs,
               content := { s.content with param := s.content.param ++ cs } } := by
  induction cs generalizing s with
  | nil => simp [cursorEnd]
  | cons c cs ih =>
    have h1 : (quoted s.quote c).1 = false → c ≠ '>' := by
      intro hr e
      apply hc
      subst e
      simp [marks, hr]
    have h2 : some '>' ∉ marks (quoted s.quote c).2 cs := by
      intro hmem
      apply hc
      simp only [marks, List.mem_cons]
      exact Or.inr hmem
    rw [List.foldl_cons, scanStep_param parent s c hm h1, ih]
    · simp [cursorEnd]
    · exact hm
    · exact h2

/-! ### The attribute scan on a list of pairs -/

theorem attrFold_key (k : Str) (s : AttrScan) (hm : s.m = false) (hq : s.quote = none)
    (hk : keyText k) : k.foldl attrStep s = { s with key := s.key ++ k } := by
  induction k generalizing s with
  | nil => simp
  | cons c cs ih =>
    obtain ⟨h1, h2, h3⟩ := hk c (List.mem_cons_self _ _)
    have hstep : attrStep s c = { s with key := s.key ++ [c] } := by
      obtain ⟨q, key, value, m, map⟩ := s
      simp only at hm hq
      subst hm hq
      simp [attrStep, quoted_plain c h1 h2, h3, AttrScan.push]
    rw [List.foldl_cons, hstep, ih]
    · simp
    · exact hm
    · exact hq
    · exact fun d hd => hk d (List.mem_cons_of_mem _ hd)

theorem attrFold_value (v : Str) (s : AttrScan) (hm : s.m = true)
    (hv : some ',' ∉ marks s.quote v) :
    v.foldl attrStep s = { s with quote := cursorEnd s.quote v, value := s.value ++ v } := by
  induction v generalizing s with
  | nil => simp [cursorEnd]
  | cons c cs ih =>
    have h2 : some ',' ∉ marks (quoted s.quote c).2 cs := by
      intro hmem
      apply hv
      simp only [marks, List.mem_cons]
      exact Or.inr hmem
    have hstep : attrStep s c =
        { s with quote := (quoted s.quote c).2, value := s.value ++ [c] } := by
      obtain ⟨q, key, value, m, map⟩ := s
      simp only at hm hv
      subst hm
      by_cases hr : (quoted q c).1 = true
      · simp [attrStep, hr, AttrScan.push]
      · simp only [Bool.not_eq_true] at hr
        have hc : c ≠ ',' := by
          intro e
          apply hv
          subst e
          simp [marks, hr]
        simp [attrStep, hr, AttrScan.push, hc]
    rw [List.foldl_cons, hstep, ih]
    · simp [cursorEnd]
    · exact hm
    · exact h2

theorem attrFold_pair (map : AttrMap) (p : Str × Str) (hk : keyText p.1) (hv : valueText p.2) :
    (pairText p).foldl attrStep (AttrScan.fresh map) =
      { quote := none, key := p.1, value := p.2, m := true, map := map } := by
  unfold pairText
  rw [List.foldl_append, attrFold_key p.1 _ rfl rfl hk]
  show (':' :: p.2).foldl attrStep _ = _
  have hcolon : attrStep { AttrScan.fresh map with key := (AttrScan.fresh map).key ++ p.1 } ':' =
      { quote := none, key := p.1, value := [], m := true, map := map } := by
    simp [attrStep, AttrScan.fresh, quoted, SQ, DQ]
  rw [List.foldl_cons, hcolon, attrFold_value p.2 _ rfl hv.2]
  simp [hv.1]

theorem store_pair (map : AttrMap) (p : Str × Str) :
    store { quote := none, key := p.1, value := p.2, m := true, map := map } =
      AttrScan.fresh (storePair map p) := by
  simp only [store, storePair, AttrScan.fresh]

theorem attrFold_pairs (ps : List (Str × Str)) (map : AttrMap)
    (h : ∀ p ∈ ps, keyText p.1 ∧ valueText p.2) :
    store ((pairsText ps).foldl attrStep (AttrScan.fresh map)) =
      AttrScan.fresh (ps.foldl storePair map) := by
  induction ps generalizing map with
  | nil => simp [pairsText, join, store, AttrScan.fresh, trim, unquote]
  | cons p rest ih =>
    obtain ⟨hk, hv⟩ := h p (List.mem_cons_self _ _)
    cases rest with
    | nil =>
      simp only [pairsText, List.map, join, List.foldl_cons, List.foldl_nil]
      rw [attrFold_pair map p hk hv, store_pair]
    | cons p2 rest2 =>
      have e : pairsText (p :: p2 :: rest2) = pairText p ++ (',' :: pairsText (p2 :: rest2)) := by
        simp [pairsText, join]
      rw [e, List.foldl_append, attrFold_pair map p hk hv, List.foldl_cons]
      have hcomma : attrStep { quote := none, key := p.1, value := p.2, m := true, map := map }
          ',' = AttrScan.fresh (storePair map p) := by
        rw [← store_pair]
        simp [attrStep, quoted, SQ, DQ]
      rw [hcomma, ih _ (fun q hq => h q (List.mem_cons_of_mem _ hq))]
      rfl

theorem attrScan_pairs (ps : List (Str × Str)) (h : ∀ p ∈ ps, keyText p.1 ∧ valueText p.2) :
    attrScan none (pairsText ps) = AttrScan.fresh (ps.foldl storePair []) :=
  attrFold_pairs ps [] h

/-! ### `trim`, `unquote` and the finite map -/

theorem dropWhile_head_false {p : Char → Bool} (l : Str)
    (h : ∀ x, l.head? = some x → p x = false) : l.dropWhile p = l := by
  cases l with
  | nil => rfl
  | cons a t => simp [List.dropWhile, h a rfl]

theorem trim_eq_self (s : Str) (h1 : ∀ x, s.head? = some x → isJsSpace x = false)
    (h2 : ∀ x, s.getLast? = some x → isJsSpace x = false) : trim s = s := by
  unfold trim
  rw [dropWhile_head_false s h1, dropWhile_head_false s.reverse (by simpa using h2),
    List.reverse_reverse]

theorem unquote_of_head (s : Str) (h : ∀ x, s.head? = some x → x ≠ SQ ∧ x ≠ DQ) :
    unquote s = s := by
  unfold unquote
  cases hh : s.head? with
  | none => rfl
  | some c =>
    cases hl : s.getLast? with
    | none => rfl
    | some cc =>
      simp only
      have := h c hh
      simp [this.1, this.2]

theorem unquote_quoted (q : Char) (v : Str) (hq : q = SQ ∨ q = DQ) :
    unquote (q :: (v ++ [q])) = v := by
  have hl : (q :: (v ++ [q])).getLast? = some q := by
    rw [← List.cons_append, List.getLast?_append]
    rfl
  unfold unquote
  rw [hl]
  simp only [List.head?_cons, hq, if_true]
  unfold substring
  have hlen : (q :: (v ++ [q])).length - 1 = v.length + 1 := by simp
  have h1 : min 1 (v.length + 1) = 1 := by omega
  have h2 : max 1 (v.length + 1) = v.length + 1 := by omega
  rw [hlen, h1, h2]
  simp

theorem trim_quoted (q : Char) (v : Str) (hq : q = SQ ∨ q = DQ) :
    trim (q :: (v ++ [q])) = q :: (v ++ [q]) := by
  have hs : isJsSpace q = false := by
    rcases hq with e | e <;> rw [e] <;> decide
  apply trim_eq_self
  · intro x hx
    simp only [List.head?_cons, Option.some.injEq] at hx
    rw [← hx]; exact hs
  · intro x hx
    rw [← List.cons_append, List.getLast?_append] at hx
    simp only [List.getLast?_singleton, Option.or, Option.some.injEq] at hx
    rw [← hx]; exact hs

theorem lookup_assign {β : Type} (map : List (Str × β)) (k key : Str) (v : β) :
    lookup (assign map k v) key = if k = key then some v else lookup map key := by
  induction map with
  | nil => simp [assign, lookup]
  | cons p rest ih =>
    obtain ⟨k1, v1⟩ := p
    unfold assign
    by_cases h1 : k1 = k
    · subst h1
      by_cases h2 : k1 = key <;> simp [lookup, h2]
    · simp only [h1, if_false, lookup, ih]
      by_cases h2 : k1 = key
      · subst h2
        simp [Ne.symm h1]
      · simp [h2]

theorem lookup_append {β : Type} (a b : List (Str × β)) (key : Str) :
    lookup (a ++ b) key = (lookup a key).or (lookup b key) := by
  induction a with
  | nil => simp [lookup]
  | cons p rest ih =>
    obtain ⟨k1, v1⟩ := p
    by_cases h : k1 = key <;> simp [lookup, h, ih]

theorem lookup_foldl_assign (ps : List (Str × Str)) (map : AttrMap) (key : Str) :
    lookup (ps.foldl (fun m p => assign m p.1 p.2) map) key =
      (lookup ps.reverse key).or (lookup map key) := by
  induction ps generalizing map with
  | nil => simp [lookup]
  | cons p rest ih =>
    rw [List.foldl_cons, ih, List.reverse_cons, lookup_append, lookup_assign]
    obtain ⟨k1, v1⟩ := p
    by_cases h : k1 = key <;> cases lookup rest.reverse key <;> simp [lookup, h]

theorem keys_assign (map : AttrMap) (k : Str) (v : Str) :
    (assign map k v).map Prod.fst =
      if k ∈ map.map Prod.fst then map.map Prod.fst else map.map Prod.fst ++ [k] := by
  induction map with
  | nil => simp [assign]
  | cons p rest ih =>
    obtain ⟨k1, v1⟩ := p
    unfold assign
    by_cases h1 : k1 = k
    · subst h1
      simp
    · simp only [h1, if_false, List.map_cons, ih, List.mem_cons, Ne.symm h1, false_or]
      split_ifs <;> simp

theorem nodup_keys_assign (map : AttrMap) (k : Str) (v : Str)
    (h : (map.map Prod.fst).Nodup) : ((assign map k v).map Prod.fst).Nodup := by
  rw [keys_assign]
  split_ifs with hk
  · exact h
  · exact List.Nodup.append h (List.nodup_singleton k) (by simpa using hk)

theorem lookup_objSet (map : AttrMap) (k key v : Str) :
    lookup (objSet map k v) key =
      if k = protoKey then lookup map key
      else if k = key then some v else lookup map key := by
  unfold objSet
  split_ifs <;> simp_all [lookup_assign]

theorem lookup_foldl_objSet (ps : List (Str × Str)) (map : AttrMap) (key : Str) :
    lookup (ps.foldl (fun m p => objSet m p.1 p.2) map) key =
      if key = protoKey then lookup map key
      else (lookup ps.reverse key).or (lookup map key) := by
  induction ps generalizing map with
  | nil => simp [lookup]
  | cons p rest ih =>
    obtain ⟨k1, v1⟩ := p
    rw [List.foldl_cons, ih, List.reverse_cons, lookup_append, lookup_objSet]
    by_cases hk : key = protoKey
    · subst hk
      simp only [if_true]
      split_ifs <;> rfl
    · simp only [hk, if_false]
      by_cases hp : k1 = protoKey
      · have hne : ¬ protoKey = key := fun e => hk e.symm
        subst hp
        cases lookup rest.reverse key <;> simp [lookup, hne]
      · simp only [hp, if_false]
        by_cases h : k1 = key <;> cases lookup rest.reverse key <;> simp [lookup, h]

theorem nodup_keys_foldl_storePair (ps : List (Str × Str)) (map : AttrMap)
    (h : (map.map Prod.fst).Nodup) : ((ps.foldl storePair map).map Prod.fst).Nodup := by
  induction ps generalizing map with
  | nil => exact h
  | cons p rest ih =>
    rw [List.foldl_cons]
    apply ih
    unfold storePair objSet
    split_ifs
    · exact h
    · exact nodup_keys_assign _ _ _ h
    · exact h

/-! ### Quoted runs -/

theorem cursorEnd_inside (q : Char) (v : Str) (hv : q ∉ v) :
    cursorEnd (some q) v = some q := by
  induction v with
  | nil => rfl
  | cons c cs ih =>
    have hc : c ≠ q := fun e => hv (by rw [e]; exact List.mem_cons_self _ _)
    show cursorEnd (quoted (some q) c).2 cs = some q
    rw [quoted_inside q c hc]
    exact ih (fun hmem => hv (List.mem_cons_of_mem _ hmem))

theorem marks_inside (q : Char) (v : Str) (hv : q ∉ v) :
    ∀ m ∈ marks (some q) v, m = none := by
  induction v with
  | nil => intro m hm; cases hm
  | cons c cs ih =>
    have hc : c ≠ q := fun e => hv (by rw [e]; exact List.mem_cons_self _ _)
    intro m hm
    simp only [marks, quoted_inside q c hc, if_true, List.mem_cons] at hm
    rcases hm with e | hm
    · exact e
    · exact ih (fun hmem => hv (List.mem_cons_of_mem _ hmem)) m hm

theorem cursorEnd_quoted (q : Char) (v : Str) (hq : q = SQ ∨ q = DQ) (hv : q ∉ v) :
    cursorEnd none (q :: (v ++ [q])) = none := by
  show cursorEnd (quoted none q).2 (v ++ [q]) = none
  rw [quoted_open q hq, cursorEnd_snoc, cursorEnd_inside q v hv, quoted_close]

theorem marks_quoted (q : Char) (v : Str) (hq : q = SQ ∨ q = DQ) (hv : q ∉ v) :
    ∀ m ∈ marks none (q :: (v ++ [q])), m = none := by
  intro m hm
  simp only [marks, quoted_open q hq, if_true, List.mem_cons, marks_append,
    cursorEnd_inside q v hv, List.mem_append, quoted_close, List.not_mem_nil, or_false] at hm
  rcases hm with e | hm | e
  · exact e
  · exact marks_inside q v hv m hm
  · exact e

theorem valueText_quoted (q : Char) (v : Str) (hq : q = SQ ∨ q = DQ) (hv : q ∉ v) :
    valueText (q :: (v ++ [q])) :=
  ⟨cursorEnd_quoted q v hq hv, fun hm => by cases marks_quoted q v hq hv _ hm⟩

theorem storePair_clean (map : AttrMap) (k v : Str) (q : Char) (hq : q = SQ ∨ q = DQ)
    (hk : k ≠ []) (ht : trim k = k) (hc : ∀ c ∈ k, c ≠ SQ ∧ c ≠ DQ) :
    storePair map (k, q :: (v ++ [q])) = objSet map k v := by
  have hu : unquote k = k := by
    apply unquote_of_head
    intro x hx
    exact hc x (List.mem_of_mem_head? hx)
  simp only [storePair, ht, hu, trim_quoted q v hq, unquote_quoted q v hq]
  simp [hk]

/-- The attribute scan of `k1:'v1',...,kn:'vn'`, started outside a quote,
yields a mapping (no key twice) in which a key is bound exactly when it is one
of the `ki` and is not `__proto__`, to the value of its last occurrence in the
list. The keys are not empty, are not changed by `trim` and hold no colon,
comma or quote character; the values hold no single quote. -/
theorem attrScan_round_trip (ps : List (Str × Str))
    (hk : ∀ p ∈ ps, p.1 ≠ [] ∧ trim p.1 = p.1 ∧
      ∀ c ∈ p.1, c ≠ ':' ∧ c ≠ ',' ∧ c ≠ SQ ∧ c ≠ DQ)
    (hv : ∀ p ∈ ps, SQ ∉ p.2) :
    (∀ key, lookup (attrScan none (pairsText (ps.map fun p => (p.1, SQ :: (p.2 ++ [SQ]))))).map
        key = if key = protoKey then none else lookup ps.reverse key) ∧
    ((attrScan none (pairsText (ps.map fun p => (p.1, SQ :: (p.2 ++ [SQ]))))).map.map
      Prod.fst).Nodup := by
  have hscan := attrScan_pairs (ps.map fun p => (p.1, SQ :: (p.2 ++ [SQ]))) (by
    intro p hp
    obtain ⟨p0, hp0, rfl⟩ := List.mem_map.mp hp
    obtain ⟨_, _, h3⟩ := hk p0 hp0
    exact ⟨fun c hc => ⟨(h3 c hc).2.2.1, (h3 c hc).2.2.2, (h3 c hc).1⟩,
      valueText_quoted SQ p0.2 (Or.inl rfl) (hv p0 hp0)⟩)
  have hfold : ∀ (l : List (Str × Str)) (map : AttrMap),
      (∀ p ∈ l, p.1 ≠ [] ∧ trim p.1 = p.1 ∧ ∀ c ∈ p.1, c ≠ ':' ∧ c ≠ ',' ∧ c ≠ SQ ∧ c ≠ DQ) →
      (l.map fun p => (p.1, SQ :: (p.2 ++ [SQ]))).foldl storePair map =
        l.foldl (fun m p => objSet m p.1 p.2) map := by
    intro l
    induction l with
    | nil => intro map _; rfl
    | cons p rest ih =>
      intro map h
      obtain ⟨h1, h2, h3⟩ := h p (List.mem_cons_self _ _)
      simp only [List.map_cons, List.foldl_cons]
      rw [storePair_clean map p.1 p.2 SQ (Or.inl rfl) h1 h2
        (fun c hc => ⟨(h3 c hc).2.2.1, (h3 c hc).2.2.2⟩)]
      exact ih _ (fun q hq => h q (List.mem_cons_of_mem _ hq))
  constructor
  · intro key
    rw [hscan]
    show lookup (List.foldl storePair [] _) key = _
    rw [hfold ps [] hk, lookup_foldl_objSet]
    split_ifs
    · rfl
    · cases lookup ps.reverse key <;> rfl
  · rw [hscan]
    exact nodup_keys_foldl_storePair _ [] List.nodup_nil

/-- The pairs `(k1, v1)`, `(k2, v,2)`, and the example of the specification
itself, `k1:v1,k2:'v,2'`, whose first value is not quoted. -/
theorem attrScan_round_trip_witness :
    ((∀ key, lookup (attrScan none "k1:'v1',k2:'v,2'".toList).map key =
        if key = protoKey then none
        else lookup [("k2".toList, "v,2".toList), ("k1".toList, "v1".toList)] key) ∧
      ((attrScan none "k1:'v1',k2:'v,2'".toList).map.map Prod.fst).Nodup) ∧
    (attrScan none "k1:v1,k2:'v,2'".toList).map =
      [("k1".toList, "v1".toList), ("k2".toList, "v,2".toList)] :=
  ⟨attrScan_round_trip [("k1".toList, "v1".toList), ("k2".toList, "v,2".toList)]
      (by decide) (by decide), by decide⟩

/-- C6, what the code does: in `__proto__:'v1',k2:'v,2'` the first key is not
empty, has no white space, colon, comma or quote character, and the mapping
that the attribute scan yields does not hold it: its only key is `k2`. -/
theorem attrScan_proto_key_dropped :
    (attrScan none "__proto__:'v1',k2:'v,2'".toList).map = [("k2".toList, "v,2".toList)] ∧
    lookup (attrScan none "__proto__:'v1',k2:'v,2'".toList).map "__proto__".toList = none := by
  decide

/-! ### Texts without braces outside quotes -/

theorem matchLoop_no_brace (cs : Str) (i : Nat) (q : Option Char) (b : Braces)
    (h1 : some '{' ∉ marks q cs) (h2 : some '}' ∉ marks q cs) :
    matchLoop cs i q b = some (b, cursorEnd q cs) := by
  induction cs generalizing i q with
  | nil => rfl
  | cons c cs ih =>
    have t1 : some '{' ∉ marks (quoted q c).2 cs := fun hm => h1 (by
      simp only [marks, List.mem_cons]; exact Or.inr hm)
    have t2 : some '}' ∉ marks (quoted q c).2 cs := fun hm => h2 (by
      simp only [marks, List.mem_cons]; exact Or.inr hm)
    unfold matchLoop
    simp only []
    by_cases hr : (quoted q c).1 = true
    · simp only [hr, if_true]
      exact ih _ _ t1 t2
    · simp only [Bool.not_eq_true] at hr
      have c1 : c ≠ '{' := by
        intro e; apply h1; subst e; simp [marks, hr]
      have c2 : c ≠ '}' := by
        intro e; apply h2; subst e; simp [marks, hr]
      simp only [hr, Bool.false_eq_true, if_false, c1, c2]
      exact ih _ _ t1 t2

theorem matchBraces_no_brace (text : Str)
    (h1 : some '{' ∉ marks none text) (h2 : some '}' ∉ marks none text) :
    matchBraces text = BraceResult.ok Braces.init (cursorEnd none text) := by
  unfold matchBraces
  rw [matchLoop_no_brace text 0 none Braces.init h1 h2]
  rfl

theorem substring_all (text : Str) : substring text 0 text.length = text := by
  simp [substring]

/-- Without braces outside quotes the tree builder hands the whole trimmed text
to `parse2`, once. -/
theorem parse_no_brace (w : World) (this : Nat) (text : Str)
    (h1 : some '{' ∉ marks none text) (h2 : some '}' ∉ marks none text)
    (ht : trim text ≠ []) :
    parse w this text =
      some { world := (parse2 w (cursorEnd none text) this (trim text)).1,
             returned :=
               if (parse2 w (cursorEnd none text) this (trim text)).1.thrown then none
               else some this,
             logged := none } := by
  have hlen : 0 < text.length := by
    cases text with
    | nil => exact absurd rfl ht
    | cons c cs => simp
  unfold parse
  rw [matchBraces_no_brace text h1 h2]
  simp only [Braces.init]
  rw [parse1_tail text [] [] text.length _ this 0 text.length hlen (by simp [nextOpen, firstAfter])]
  simp [headObj, substring_all, ht]

theorem marks_plain (a : Str) (h : ∀ c ∈ a, c ≠ SQ ∧ c ≠ DQ) :
    marks none a = a.map some ∧ cursorEnd none a = none := by
  induction a with
  | nil => exact ⟨rfl, rfl⟩
  | cons c cs ih =>
    obtain ⟨h1, h2⟩ := h c (List.mem_cons_self _ _)
    obtain ⟨i1, i2⟩ := ih (fun d hd => h d (List.mem_cons_of_mem _ hd))
    constructor
    · simp only [marks, quoted_plain c h1 h2, List.map_cons, i1]
      rfl
    · show cursorEnd (quoted none c).2 cs = none
      rw [quoted_plain c h1 h2]
      exact i2

theorem splitAux_no_sep (sep : Char) (cs cur : Str) (h : sep ∉ cs) :
    splitAux sep cs cur = [cur ++ cs] := by
  induction cs generalizing cur with
  | nil => simp [splitAux]
  | cons c rest ih =>
    have hc : c ≠ sep := fun e => h (by rw [e]; exact List.mem_cons_self _ _)
    unfold splitAux
    simp only [hc, if_false]
    rw [ih _ (fun hm => h (List.mem_cons_of_mem _ hm))]
    simp

theorem tag0_no_dot (k : Content) (h : '.' ∉ k.tag) : tag0 k = toLowerCase k.tag := by
  simp [tag0, split, splitAux_no_sep '.' k.tag [] h]

theorem letters_no_dot (t : Str) (h : lettersOnly t) : '.' ∉ t :=
  fun hm => by have := h _ hm; revert this; decide

theorem mem_marks (q : Option Char) (a : Str) (d : Char) (h : some d ∈ marks q a) : d ∈ a := by
  induction a generalizing q with
  | nil => cases h
  | cons c cs ih =>
    simp only [marks, List.mem_cons] at h
    rcases h with e | hm
    · split_ifs at e
      rw [Option.some.inj e]
      exact List.mem_cons_self _ _
    · exact List.mem_cons_of_mem _ (ih _ hm)

theorem mem_marks_append (q : Option Char) (a b : Str) (m : Option Char) :
    m ∈ marks q (a ++ b) ↔ m ∈ marks q a ∨ m ∈ marks (cursorEnd q a) b := by
  rw [marks_append, List.mem_append]

/-! ### Headers made of a tag and an attribute block -/

theorem scanStep_lt (parent : Nat) (s : Scan) (hm : s.mode.open3 = true) (hq : s.quote = none) :
    scanStep parent s '<' = { s with mode := Mode.PARAM } := by
  obtain ⟨w, q, k, m, o⟩ := s
  simp only at hm hq
  subst hq
  simp [scanStep, quoted, SQ, DQ, hm]

theorem scanStep_gt (parent : Nat) (s : Scan) (hm : s.mode = Mode.PARAM) (hq : s.quote = none) :
    scanStep parent s '>' = { s with mode := Mode.NA } := by
  obtain ⟨w, q, k, m, o⟩ := s
  simp only at hm hq
  subst hq hm
  simp [scanStep, quoted, SQ, DQ, Mode.open3]

theorem scanHead_tag (parent : Nat) (w : World) (T : Str) (hT : ∀ c ∈ T, plainChar c) :
    scanHead parent w none T =
      { world := w, quote := none, content := { tag := T, param := [], text := [], id := [] },
        mode := Mode.TAG, obj := none } := by
  unfold scanHead
  rw [scanFold_tag_plain parent T _ rfl rfl hT]
  simp [Scan.init]

theorem scanHead_tag_block (parent : Nat) (w : World) (T P : Str) (hT : ∀ c ∈ T, plainChar c)
    (hP : some '>' ∉ marks none P) (hq : cursorEnd none P = none) :
    scanHead parent w none (T ++ ('<' :: (P ++ ['>']))) =
      { world := w, quote := none, content := { tag := T, param := P, text := [], id := [] },
        mode := Mode.NA, obj := none } := by
  have h0 := scanHead_tag parent w T hT
  unfold scanHead at h0 ⊢
  rw [List.foldl_append, h0, List.foldl_cons]
  rw [scanStep_lt parent
    { world := w, quote := none, content := { tag := T, param := [], text := [], id := [] },
      mode := Mode.TAG, obj := none } rfl rfl]
  rw [List.foldl_append]
  rw [scanFold_param parent P
    { world := w, quote := none, content := { tag := T, param := [], text := [], id := [] },
      mode := Mode.PARAM, obj := none } rfl hP]
  simp only [hq, List.nil_append, List.foldl_cons, List.foldl_nil]
  rw [scanStep_gt parent
    { world := w, quote := none, content := { tag := T, param := P, text := [], id := [] },
      mode := Mode.PARAM, obj := none } rfl rfl]

theorem createElement_tag_param (parent : Nat) (w : World) (k : Content) (m : Mode)
    (o : Option Nat) (hw : w.thrown = false) (ht : k.text = []) (hi : k.id = []) :
    createElement parent { world := w, quote := none, content := k, mode := m, obj := o } =
      { world :=
          if elemParam k ≠ [] then
            set (insert w parent (elemType k)).1 w.pages.length (attrScan none (elemParam k)).map
          else (insert w parent (elemType k)).1,
        quote := if elemParam k ≠ [] then (attrScan none (elemParam k)).quote else none,
        content := { tag := [], param := [], text := [], id := [] },
        mode := Mode.WSPACE, obj := some w.pages.length } := by
  unfold createElement
  simp only [hw, Bool.false_eq_true, ht, hi, ne_eq, not_true_eq_false, if_false]
  split_ifs <;> rfl

theorem letters_no_quote (t : Str) (h : lettersOnly t) : ∀ c ∈ t, c ≠ SQ ∧ c ≠ DQ :=
  fun c hc => ⟨letter_ne _ _ (h c hc) (by decide), letter_ne _ _ (h c hc) (by decide)⟩

theorem letters_keyText (k : Str) (h : lettersOnly k) : keyText k :=
  fun c hc => ⟨letter_ne _ _ (h c hc) (by decide), letter_ne _ _ (h c hc) (by decide),
    letter_ne _ _ (h c hc) (by decide)⟩

theorem letters_trim (k : Str) (h : lettersOnly k) : trim k = k := by
  apply trim_eq_self
  · exact fun x hx => letter_not_space x (h x (List.mem_of_mem_head? hx))
  · exact fun x hx => letter_not_space x (h x (List.mem_of_mem_getLast? hx))

/-- The marks of the text of one pair whose value is a quoted run. -/
theorem mem_marks_pair_quoted (k V : Str) (q d : Char) (hk : lettersOnly k)
    (hq : q = SQ ∨ q = DQ) (hV : q ∉ V)
    (h : some d ∈ marks none (pairText (k, q :: (V ++ [q])))) : d ∈ k ∨ d = ':' := by
  unfold pairText at h
  rw [mem_marks_append, (marks_plain k (letters_no_quote k hk)).2] at h
  rcases h with h | h
  · exact Or.inl (mem_marks _ _ _ h)
  · have e : (":".toList ++ (q :: (V ++ [q]))) = ':' :: (q :: (V ++ [q])) := rfl
    simp only [e, marks, quoted, List.mem_cons] at h
    rcases h with h | h
    · right
      have : (':' : Char) ≠ SQ ∧ (':' : Char) ≠ DQ := by decide
      simp only [this.1, this.2, or_self, if_false, Bool.false_eq_true] at h
      exact (Option.some.inj h)
    · have : (':' : Char) ≠ SQ ∧ (':' : Char) ≠ DQ := by decide
      simp only [this.1, this.2, or_self, if_false] at h
      have := marks_quoted q V hq hV (some d) (by simpa [marks, quoted] using h)
      cases this

theorem cursorEnd_pair_quoted (k V : Str) (q : Char) (hk : lettersOnly k)
    (hq : q = SQ ∨ q = DQ) (hV : q ∉ V) :
    cursorEnd none (pairText (k, q :: (V ++ [q]))) = none := by
  unfold pairText
  rw [cursorEnd_append, (marks_plain k (letters_no_quote k hk)).2]
  show cursorEnd (quoted none ':').2 (q :: (V ++ [q])) = none
  rw [quoted_plain ':' (by decide) (by decide)]
  exact cursorEnd_quoted q V hq hV

theorem mem_marks_block (T P : Str) (d : Char) (hT : ∀ c ∈ T, c ≠ SQ ∧ c ≠ DQ)
    (hq : cursorEnd none P = none)
    (h : some d ∈ marks none (T ++ ('<' :: (P ++ ['>'])))) :
    d ∈ T ∨ d = '<' ∨ some d ∈ marks none P ∨ d = '>' := by
  rw [mem_marks_append, (marks_plain T hT).2] at h
  rcases h with h | h
  · exact Or.inl (mem_marks _ _ _ h)
  · simp only [marks, quoted_plain '<' (by decide) (by decide), List.mem_cons, if_false,
      Bool.false_eq_true, mem_marks_append, hq, quoted_plain '>' (by decide) (by decide),
      List.not_mem_nil, or_false] at h
    rcases h with h | h | h
    · exact Or.inr (Or.inl (Option.some.inj h))
    · exact Or.inr (Or.inr (Or.inl h))
    · exact Or.inr (Or.inr (Or.inr (Option.some.inj h)))

theorem cursorEnd_block (T P : Str) (hT : ∀ c ∈ T, c ≠ SQ ∧ c ≠ DQ)
    (hq : cursorEnd none P = none) : cursorEnd none (T ++ ('<' :: (P ++ ['>']))) = none := by
  rw [cursorEnd_append, (marks_plain T hT).2]
  show cursorEnd (quoted none '<').2 (P ++ ['>']) = none
  rw [quoted_plain '<' (by decide) (by decide), cursorEnd_snoc, hq,
    quoted_plain '>' (by decide) (by decide)]

theorem trim_block (T P : Str) (hT : ∀ c ∈ T, isJsSpace c = false) :
    trim (T ++ ('<' :: (P ++ ['>']))) = T ++ ('<' :: (P ++ ['>'])) := by
  apply trim_eq_self
  · intro x hx
    cases T with
    | nil =>
      simp only [List.nil_append, List.head?_cons, Option.some.injEq] at hx
      rw [← hx]; decide
    | cons c cs =>
      simp only [List.cons_append, List.head?_cons, Option.some.injEq] at hx
      rw [← hx]; exact hT c (List.mem_cons_self _ _)
  · intro x hx
    have e : T ++ ('<' :: (P ++ ['>'])) = (T ++ ('<' :: P)) ++ ['>'] := by simp
    rw [e, List.getLast?_append] at hx
    simp only [List.getLast?_singleton, Option.or, Option.some.injEq] at hx
    rw [← hx]; decide

theorem letters_ne_proto (k : Str) (h : lettersOnly k) : k ≠ protoKey := by
  intro e
  have := h '_' (by rw [e]; decide)
  revert this
  decide

theorem parse2_quoted_attr (w : World) (parent : Nat) (t k V : Str) (q : Char)
    (hw : w.thrown = false) (ht : lettersOnly t) (hnk : toLowerCase t ∉ keywords) (hk : k ≠ []) (hkl : lettersOnly k)
    (hq : q = SQ ∨ q = DQ) (hV : q ∉ V) :
    parse2 w none parent (quotedAttrHeader t k V q) =
      (set (insert w parent t).1 w.pages.length [(k, V)], none, w.pages.length) := by
  have hP := cursorEnd_pair_quoted k V q hkl hq hV
  have hgt : some '>' ∉ marks none (pairText (k, q :: (V ++ [q]))) := by
    intro hm
    rcases mem_marks_pair_quoted k V q '>' hkl hq hV hm with h | h
    · have := hkl _ h; revert this; decide
    · revert h; decide
  have hscan := attrScan_pairs [(k, q :: (V ++ [q]))] (by
    intro p hp
    rw [List.mem_singleton.mp hp]
    exact ⟨letters_keyText k hkl, valueText_quoted q V hq hV⟩)
  have hpt : pairsText [(k, q :: (V ++ [q]))] = pairText (k, q :: (V ++ [q])) := rfl
  rw [hpt] at hscan
  have hne : pairText (k, q :: (V ++ [q])) ≠ [] := by
    unfold pairText
    cases k with
    | nil => exact absurd rfl hk
    | cons c cs => simp
  have hkw : tag0 { tag := t, param := pairText (k, q :: (V ++ [q])), text := [], id := [] } ∉
      keywords := by
    rw [tag0_no_dot _ (letters_no_dot t ht)]
    exact hnk
  unfold parse2 quotedAttrHeader
  rw [scanHead_tag_block parent w t _ (fun c hc => letter_plain c (ht c hc)) hgt hP,
    createElement_tag_param parent w _ _ _ hw rfl rfl]
  simp only [elemParam, elemType, hkw, if_false, hne, ne_eq, not_false_eq_true, if_true, hscan,
    AttrScan.fresh, List.foldl_cons, List.foldl_nil, Option.getD_some]
  rw [storePair_clean [] k V q hq hk (letters_trim k hkl) (letters_no_quote k hkl)]
  simp only [objSet, letters_ne_proto k hkl, if_false]
  rfl

/-- C5: for a tag `t` and a key `k` of letters only (`t` not a shorthand keyword
in any letter case, `k` not empty), a quote character `q` and any string `V`
that does not hold `q`, `parse` of `t<k:qVq>` on an empty root makes exactly
two calls: it inserts one node of type `t` under the root and applies to it
the mapping that binds `k` to `V` and nothing else. -/
theorem parse_quoted_attr (t k V : Str) (q : Char)
    (ht : lettersOnly t) (hnk : toLowerCase t ∉ keywords) (hk : k ≠ []) (hkl : lettersOnly k)
    (hq : q = SQ ∨ q = DQ) (hV : q ∉ V) :
    parse emptyRoot 0 (quotedAttrHeader t k V q) =
      some { world :=
               { pages := [{ type := [], parent := none, child := [1], maps := [], inner := none },
                           { type := t, parent := some 0, child := [], maps := [[(k, V)]],
                             inner := none }],
                 ids := [], proto := none, thrown := false,
                 calls := [SinkCall.insert 0 t, SinkCall.set 1 [(k, V)]] },
             returned := some 0, logged := none } := by
  have hP := cursorEnd_pair_quoted k V q hkl hq hV
  have hTq := letters_no_quote t ht
  have hbrace : ∀ d : Char, d.isAlpha = false → d ≠ '<' → d ≠ '>' → d ≠ ':' →
      some d ∉ marks none (quotedAttrHeader t k V q) := by
    intro d hd h1 h2 h3 hm
    rcases mem_marks_block t _ d hTq hP hm with h | h | h | h
    · have := ht _ h; rw [hd] at this; cases this
    · exact h1 h
    · rcases mem_marks_pair_quoted k V q d hkl hq hV h with h | h
      · have := hkl _ h; rw [hd] at this; cases this
      · exact h3 h
    · exact h2 h
  have htrim : trim (quotedAttrHeader t k V q) = quotedAttrHeader t k V q :=
    trim_block t _ (fun c hc => letter_not_space c (ht c hc))
  have hne : trim (quotedAttrHeader t k V q) ≠ [] := by
    rw [htrim]
    unfold quotedAttrHeader
    simp
  rw [parse_no_brace emptyRoot 0 _ (hbrace '{' (by decide) (by decide) (by decide) (by decide))
    (hbrace '}' (by decide) (by decide) (by decide) (by decide)) hne, htrim]
  have hc : cursorEnd none (quotedAttrHeader t k V q) = none := cursorEnd_block t _ hTq hP
  rw [hc, parse2_quoted_attr emptyRoot 0 t k V q rfl ht hnk hk hkl hq hV]
  rfl

/-- C5, at the text `a<k:'x{<,(#: >)}y'>`. -/
theorem parse_quoted_attr_witness :
    quotedAttrHeader "a".toList "k".toList "x\x7b<,(#: >)\x7dy".toList SQ =
        "a<k:'x\x7b<,(#: >)\x7dy'>".toList ∧
    parse emptyRoot 0 "a<k:'x\x7b<,(#: >)\x7dy'>".toList =
      some { world :=
               { pages := [{ type := [], parent := none, child := [1], maps := [], inner := none },
                           { type := "a".toList, parent := some 0, child := [],
                             maps := [[("k".toList, "x\x7b<,(#: >)\x7dy".toList)]],
                             inner := none }],
                 ids := [], proto := none, thrown := false,
                 calls := [SinkCall.insert 0 "a".toList,
                           SinkCall.set 1 [("k".toList, "x\x7b<,(#: >)\x7dy".toList)]] },
             returned := some 0, logged := none } :=
  ⟨by decide,
    parse_quoted_attr "a".toList "k".toList "x\x7b<,(#: >)\x7dy".toList SQ (by decide)
      (by decide) (by decide) (by decide) (by decide) (by decide)⟩

/-! ### The shorthand keywords -/

theorem keyword_lower (kw : Str) (h : kw ∈ keywords) :
    ∀ d ∈ kw, 97 ≤ d.toNat ∧ d.toNat ≤ 122 := by
  simp only [keywords, List.mem_cons, List.mem_singleton, List.not_mem_nil, or_false] at h
  rcases h with h | h | h | h | h | h <;> subst h <;> decide

theorem toLower_letter (c : Char) (h : 97 ≤ c.toLower.toNat ∧ c.toLower.toNat ≤ 122) :
    c.isAlpha = true ∧ lowerChar c = c.toLower := by
  have hn : (65 ≤ c.toNat ∧ c.toNat ≤ 90) ∨ (97 ≤ c.toNat ∧ c.toNat ≤ 122) := by
    by_cases hc : c.toNat ≥ 65 ∧ c.toNat ≤ 90
    · exact Or.inl hc
    · right
      have e : c.toLower = c := by
        unfold Char.toLower
        simp only [hc, if_false]
      rw [e] at h
      exact h
  constructor
  · simp only [Char.isAlpha, Char.isUpper, Char.isLower, Bool.or_eq_true, Bool.and_eq_true,
      decide_eq_true_eq]
    rcases hn with ⟨h1, h2⟩ | ⟨h1, h2⟩
    · exact Or.inl ⟨h1, h2⟩
    · exact Or.inr ⟨h1, h2⟩
  · unfold lowerChar
    have : c.toNat ≠ 8490 := by rcases hn with h1 | h1 <;> omega
    simp only [this, if_false]

theorem keyword_case (K kw : Str) (hkw : kw ∈ keywords) (hK : K.map Char.toLower = kw) :
    lettersOnly K ∧ toLowerCase K = kw := by
  have hl := keyword_lower kw hkw
  subst hK
  have hall : ∀ c ∈ K, c.isAlpha = true ∧ lowerChar c = c.toLower :=
    fun c hc => toLower_letter c (hl _ (List.mem_map_of_mem _ hc))
  refine ⟨fun c hc => (hall c hc).1, ?_⟩
  unfold toLowerCase
  exact List.map_congr_left (fun c hc => (hall c hc).2)

theorem splitAux_append (sep : Char) (a rest cur : Str) (h : sep ∉ a) :
    splitAux sep (a ++ sep :: rest) cur = (cur ++ a) :: splitAux sep rest [] := by
  induction a generalizing cur with
  | nil => simp [splitAux]
  | cons c cs ih =>
    have hc : c ≠ sep := fun e => h (by rw [e]; exact List.mem_cons_self _ _)
    have e : splitAux sep (c :: (cs ++ sep :: rest)) cur =
        splitAux sep (cs ++ sep :: rest) (cur ++ [c]) := by
      simp [splitAux, hc]
    rw [List.cons_append, e, ih _ (fun hm => h (List.mem_cons_of_mem _ hm))]
    simp

theorem split_join (x : Str) (xs : List Str) (h : ∀ t ∈ x :: xs, '.' ∉ t) :
    split '.' (join ".".toList (x :: xs)) = x :: xs := by
  unfold split
  induction xs generalizing x with
  | nil =>
    simp only [join]
    rw [splitAux_no_sep '.' x [] (h x (List.mem_cons_self _ _))]
    simp
  | cons y ys ih =>
    have e : join ".".toList (x :: y :: ys) = x ++ '.' :: join ".".toList (y :: ys) := by
      simp [join]
    rw [e, splitAux_append '.' x _ [] (h x (List.mem_cons_self _ _)),
      ih y (fun t ht => h t (List.mem_cons_of_mem _ ht))]
    simp

theorem mem_join (sep : Str) (xs : List Str) (c : Char) (h : c ∈ join sep xs) :
    c ∈ sep ∨ ∃ t ∈ xs, c ∈ t := by
  induction xs with
  | nil => cases h
  | cons x rest ih =>
    cases rest with
    | nil => exact Or.inr ⟨x, List.mem_cons_self _ _, h⟩
    | cons y ys =>
      simp only [join, List.mem_append] at h
      rcases h with (h | h) | h
      · exact Or.inr ⟨x, List.mem_cons_self _ _, h⟩
      · exact Or.inl h
      · rcases ih h with h1 | ⟨t, ht, hc⟩
        · exact Or.inl h1
        · exact Or.inr ⟨t, List.mem_cons_of_mem _ ht, hc⟩

theorem pairsText_cons (p : Str × Str) (ps : List (Str × Str)) (h : ps ≠ []) :
    pairsText (p :: ps) = pairText p ++ (',' :: pairsText ps) := by
  cases ps with
  | nil => exact absurd rfl h
  | cons q rest => simp [pairsText, join]

theorem pairsText_snoc (ps : List (Str × Str)) (p : Str × Str) (h : ps ≠ []) :
    pairsText (ps ++ [p]) = pairsText ps ++ (',' :: pairText p) := by
  induction ps with
  | nil => exact absurd rfl h
  | cons q rest ih =>
    cases rest with
    | nil => simp [pairsText, join]
    | cons r rest2 =>
      rw [List.cons_append, pairsText_cons q _ (by simp), ih (by simp),
        pairsText_cons q _ (by simp)]
      simp

theorem pairText_ne_nil (p : Str × Str) : pairText p ≠ [] := by
  unfold pairText
  simp

theorem pairsText_ne_nil (ps : List (Str × Str)) (h : ps ≠ []) : pairsText ps ≠ [] := by
  cases ps with
  | nil => exact absurd rfl h
  | cons p rest =>
    cases rest with
    | nil => exact pairText_ne_nil p
    | cons q rest2 =>
      rw [pairsText_cons p _ (by simp)]
      intro e
      exact pairText_ne_nil p (List.append_eq_nil.mp e).1

theorem cleanKey_no_quote (k : Str) (h : cleanKey k) : ∀ c ∈ k, c ≠ SQ ∧ c ≠ DQ :=
  fun c hc => ⟨(h.2.2 c hc).1, (h.2.2 c hc).2.1⟩

theorem cleanKey_keyText (k : Str) (h : cleanKey k) : keyText k :=
  fun c hc => ⟨(h.2.2 c hc).1, (h.2.2 c hc).2.1, (h.2.2 c hc).2.2.1⟩

theorem pair_block (p : Str × Str) (hk : cleanKey p.1) (hv : blockValue p.2) :
    cursorEnd none (pairText p) = none ∧ some '>' ∉ marks none (pairText p) := by
  have hk0 := (marks_plain p.1 (cleanKey_no_quote _ hk)).2
  have e : (":".toList ++ p.2) = ':' :: p.2 := rfl
  unfold pairText
  constructor
  · rw [cursorEnd_append, hk0, e]
    show cursorEnd (quoted none ':').2 p.2 = none
    rw [quoted_plain ':' (by decide) (by decide)]
    exact hv.1.1
  · rw [mem_marks_append, hk0, e]
    rintro (h | h)
    · exact (hk.2.2 _ (mem_marks _ _ _ h)).2.2.2 rfl
    · simp only [marks, quoted_plain ':' (by decide) (by decide), List.mem_cons, if_false,
        Bool.false_eq_true] at h
      rcases h with h | h
      · revert h; decide
      · exact hv.2 h

theorem pairs_block (ps : List (Str × Str)) (h : ∀ p ∈ ps, cleanKey p.1 ∧ blockValue p.2) :
    cursorEnd none (pairsText ps) = none ∧ some '>' ∉ marks none (pairsText ps) := by
  induction ps with
  | nil => exact ⟨rfl, fun hm => by cases hm⟩
  | cons p rest ih =>
    obtain ⟨hk, hv⟩ := h p (List.mem_cons_self _ _)
    obtain ⟨h1, h2⟩ := pair_block p hk hv
    cases rest with
    | nil => exact ⟨h1, h2⟩
    | cons q rest2 =>
      obtain ⟨i1, i2⟩ := ih (fun r hr => h r (List.mem_cons_of_mem _ hr))
      rw [pairsText_cons p _ (by simp)]
      constructor
      · rw [cursorEnd_append, h1]
        show cursorEnd (quoted none ',').2 _ = none
        rw [quoted_plain ',' (by decide) (by decide)]
        exact i1
      · rw [mem_marks_append, h1]
        rintro (hm | hm)
        · exact h2 hm
        · simp only [marks, quoted_plain ',' (by decide) (by decide), List.mem_cons, if_false,
            Bool.false_eq_true] at hm
          rcases hm with hm | hm
          · revert hm; decide
          · exact i2 hm

theorem storePair_cleanKey (map : AttrMap) (p : Str × Str) (hk : cleanKey p.1) :
    storePair map p = objSet map p.1 (unquote (trim p.2)) := by
  have hu : unquote p.1 = p.1 :=
    unquote_of_head _ (fun x hx => cleanKey_no_quote _ hk x (List.mem_of_mem_head? hx))
  simp only [storePair, hk.2.1, hu]
  simp [hk.1]

theorem foldl_storePair_clean (ps : List (Str × Str)) (map : AttrMap)
    (h : ∀ p ∈ ps, cleanKey p.1) :
    ps.foldl storePair map =
      (ps.map fun p => (p.1, unquote (trim p.2))).foldl (fun m p => objSet m p.1 p.2) map := by
  induction ps generalizing map with
  | nil => rfl
  | cons p rest ih =>
    simp only [List.foldl_cons, List.map_cons]
    rw [storePair_cleanKey map p (h p (List.mem_cons_self _ _))]
    exact ih _ (fun q hq => h q (List.mem_cons_of_mem _ hq))

theorem storePair_type (map : AttrMap) (kw : Str) (hkw : kw ∈ keywords) :
    storePair map ("type".toList, kw) = assign map "type".toList kw ∧
      keyText "type".toList ∧ valueText kw := by
  simp only [keywords, List.mem_cons, List.mem_singleton, List.not_mem_nil, or_false] at hkw
  have h1 : unquote (trim "type".toList) = "type".toList := by decide
  have h2 : unquote (trim kw) = kw ∧ keyText "type".toList ∧ valueText kw := by
    rcases hkw with h | h | h | h | h | h <;> subst h <;> decide
  refine ⟨?_, h2.2⟩
  have h3 : "type".toList ≠ protoKey := by decide
  simp only [storePair, h1, h2.1, objSet, h3, if_false]
  simp

theorem elemParam_shorthand (k : Content) (kw : Str) (ps : List (Str × Str))
    (hkw : kw ∈ keywords) (ht : tag0 k = kw) (hp : k.param = pairsText ps) :
    elemParam k = pairsText (ps ++ [("type".toList, kw)]) := by
  unfold elemParam
  rw [ht, hp]
  simp only [hkw, if_true]
  cases ps with
  | nil => simp [pairsText, join, pairText]
  | cons p rest =>
    have hne : pairsText (p :: rest) ≠ [] := pairsText_ne_nil _ (by simp)
    simp only [hne, ne_eq, not_false_eq_true, if_true]
    rw [pairsText_snoc _ _ (by simp)]
    simp [pairText]

/-- The flush of a shorthand tag whose PARAM buffer holds the text of the pairs
`ps`. -/
theorem createElement_shorthand (parent : Nat) (w : World) (K kw : Str) (cls : List Str)
    (ps : List (Str × Str)) (m : Mode) (o : Option Nat) (hw : w.thrown = false)
    (hkw : kw ∈ keywords) (hK : K.map Char.toLower = kw)
    (hcls : ∀ t ∈ cls, ∀ c ∈ t, plainChar c ∧ c ≠ '.')
    (hps : ∀ p ∈ ps, cleanKey p.1 ∧ blockValue p.2) :
    createElement parent
        { world := w, quote := none,
          content := { tag := join ".".toList (K :: cls), param := pairsText ps, text := [],
                       id := [] },
          mode := m, obj := o } =
      { world := set (insert w parent (join ".".toList ("input".toList :: cls))).1 w.pages.length
          (assign ((ps.map fun p => (p.1, unquote (trim p.2))).foldl
            (fun m p => objSet m p.1 p.2) []) "type".toList kw),
        quote := none, content := { tag := [], param := [], text := [], id := [] },
        mode := Mode.WSPACE, obj := some w.pages.length } := by
  obtain ⟨hKl, hKlow⟩ := keyword_case K kw hkw hK
  have hsplit : split '.' (join ".".toList (K :: cls)) = K :: cls := by
    apply split_join
    intro t ht
    rcases List.mem_cons.mp ht with e | e
    · rw [e]; exact letters_no_dot K hKl
    · exact fun hm => (hcls t e _ hm).2 rfl
  have ht0 : tag0 (Content.mk (join ".".toList (K :: cls)) (pairsText ps) [] []) = kw := by
    show toLowerCase ((split '.' (join ".".toList (K :: cls))).headD []) = kw
    rw [hsplit]
    exact hKlow
  have hparam := elemParam_shorthand
    (Content.mk (join ".".toList (K :: cls)) (pairsText ps) [] []) kw ps hkw ht0 rfl
  have htype : elemType (Content.mk (join ".".toList (K :: cls)) (pairsText ps) [] []) =
      join ".".toList ("input".toList :: cls) := by
    unfold elemType
    rw [ht0]
    simp only [hkw, if_true]
    rw [hsplit]
    rfl
  obtain ⟨hst, hkt, hvt⟩ := storePair_type (ps.foldl storePair []) kw hkw
  have hscan := attrScan_pairs (ps ++ [("type".toList, kw)]) (by
    intro p hp
    rcases List.mem_append.mp hp with h | h
    · exact ⟨cleanKey_keyText _ (hps p h).1, (hps p h).2.1⟩
    · rw [List.mem_singleton.mp h]
      exact ⟨hkt, hvt⟩)
  have hne : pairsText (ps ++ [("type".toList, kw)]) ≠ [] := pairsText_ne_nil _ (by simp)
  rw [createElement_tag_param parent w _ m o hw rfl rfl, hparam, htype]
  simp only [hne, ne_eq, not_false_eq_true, if_true, hscan, AttrScan.fresh, List.foldl_append,
    List.foldl_cons, List.foldl_nil, hst]
  rw [foldl_storePair_clean ps [] (fun p hp => (hps p hp).1)]

/-- A shorthand keyword in any letter case, with or without class tokens and
with or without an attribute block of pairs whose keys are written plainly, is
inserted as `input` with the class tokens unchanged and in order; one mapping
is applied to the node, which binds `type` to the keyword in lower case and
every other key of the block, `__proto__` apart, to its value, unquoted (the
value of its last occurrence). -/
theorem parse2_shorthand (w : World) (parent : Nat) (K kw : Str) (cls : List Str)
    (block : Option (List (Str × Str))) (hw : w.thrown = false)
    (hkw : kw ∈ keywords) (hK : K.map Char.toLower = kw)
    (hcls : ∀ t ∈ cls, ∀ c ∈ t, plainChar c ∧ c ≠ '.')
    (hps : ∀ p ∈ block.getD [], cleanKey p.1 ∧ blockValue p.2) :
    ∃ map : AttrMap,
      parse2 w none parent (shorthandHeader K cls block) =
        (set (insert w parent (join ".".toList ("input".toList :: cls))).1 w.pages.length map,
          none, w.pages.length) ∧
      lookup map "type".toList = some kw ∧
      ∀ key, key ≠ "type".toList →
        lookup map key =
          if key = protoKey then none
          else lookup ((block.getD []).map fun p => (p.1, unquote (trim p.2))).reverse key := by
  obtain ⟨hKl, _⟩ := keyword_case K kw hkw hK
  have hT : ∀ c ∈ join ".".toList (K :: cls), plainChar c := by
    intro c hc
    rcases mem_join _ _ c hc with h | ⟨t, ht, hct⟩
    · rw [List.mem_singleton.mp h]; decide
    · rcases List.mem_cons.mp ht with e | e
      · rw [e] at hct; exact letter_plain c (hKl c hct)
      · exact (hcls t e c hct).1
  refine ⟨assign (((block.getD []).map fun p => (p.1, unquote (trim p.2))).foldl
      (fun m p => objSet m p.1 p.2) []) "type".toList kw, ?_, ?_, ?_⟩
  · unfold parse2 shorthandHeader
    cases block with
    | none =>
      simp only [List.append_nil]
      rw [scanHead_tag parent w _ hT]
      have := createElement_shorthand parent w K kw cls [] Mode.TAG none hw hkw hK hcls
        (fun p hp => absurd hp (List.not_mem_nil _))
      simp only [pairsText, List.map_nil, join] at this
      rw [this]
      rfl
    | some ps =>
      simp only [Option.getD_some] at hps ⊢
      obtain ⟨h1, h2⟩ := pairs_block ps hps
      rw [scanHead_tag_block parent w _ _ hT h2 h1,
        createElement_shorthand parent w K kw cls ps Mode.NA none hw hkw hK hcls hps]
      rfl
  · rw [lookup_assign]
    simp
  · intro key hkey
    rw [lookup_assign, lookup_foldl_objSet]
    simp only [Ne.symm hkey, if_false]
    split_ifs
    · rfl
    · cases lookup ((block.getD []).map fun p => (p.1, unquote (trim p.2))).reverse key <;> rfl

/-- The header `checkbox<name:'x'>`, handed to `parse` on an empty root, and
`RADIO.big.wide` without block. -/
theorem parse2_shorthand_witness :
    (shorthandHeader "checkbox".toList [] (some [("name".toList, "'x'".toList)]) =
        "checkbox<name:'x'>".toList ∧
      ∃ map : AttrMap,
        parse2 emptyRoot none 0 "checkbox<name:'x'>".toList =
          (set (insert emptyRoot 0 "input".toList).1 1 map, none, 1) ∧
        lookup map "type".toList = some "checkbox".toList ∧
        ∀ key, key ≠ "type".toList →
          lookup map key =
            if key = protoKey then none else lookup [("name".toList, "x".toList)] key) ∧
    parse emptyRoot 0 "checkbox<name:'x'>".toList =
      some { world :=
               { pages := [{ type := [], parent := none, child := [1], maps := [], inner := none },
                           { type := "input".toList, parent := some 0, child := [],
                             maps := [[("name".toList, "x".toList),
                                       ("type".toList, "checkbox".toList)]],
                             inner := none }],
                 ids := [], proto := none, thrown := false,
                 calls := [SinkCall.insert 0 "input".toList,
                           SinkCall.set 1 [("name".toList, "x".toList),
                                           ("type".toList, "checkbox".toList)]] },
             returned := some 0, logged := none } ∧
    (shorthandHeader "RADIO".toList ["big".toList, "wide".toList] none =
        "RADIO.big.wide".toList ∧
      ∃ map : AttrMap,
        parse2 emptyRoot none 0 "RADIO.big.wide".toList =
          (set (insert emptyRoot 0 "input.big.wide".toList).1 1 map, none, 1) ∧
        lookup map "type".toList = some "radio".toList ∧
        ∀ key, key ≠ "type".toList →
          lookup map key = if key = protoKey then none else none) :=
  ⟨⟨by decide,
      parse2_shorthand emptyRoot 0 "checkbox".toList "checkbox".toList []
        (some [("name".toList, "'x'".toList)]) rfl (by decide) (by decide) (by decide)
        (by decide)⟩,
    by decide,
    ⟨by decide,
      parse2_shorthand emptyRoot 0 "RADIO".toList "radio".toList ["big".toList, "wide".toList]
        none rfl (by decide) (by decide) (by decide) (by decide)⟩⟩

/-- C7, what the code does: for `checkbox<__proto__:'x'>` the node is inserted
as `input` and the mapping applied to it binds `type` to `checkbox` and holds
nothing else: the key `__proto__` that the block supplies is not in it. -/
theorem parse_shorthand_proto_key :
    parse emptyRoot 0 "checkbox<__proto__:'x'>".toList =
      some { world :=
               { pages := [{ type := [], parent := none, child := [1], maps := [], inner := none },
                           { type := "input".toList, parent := some 0, child := [],
                             maps := [[("type".toList, "checkbox".toList)]],
                             inner := none }],
                 ids := [], proto := none, thrown := false,
                 calls := [SinkCall.insert 0 "input".toList,
                           SinkCall.set 1 [("type".toList, "checkbox".toList)]] },
             returned := some 0, logged := none } := by
  decide

/-! ### Headers made of simple tag names -/

theorem scanFold_name (parent : Nat) (t : Str) (s : Scan) (ht : t ≠ [])
    (hp : ∀ c ∈ t, plainChar c) (hm : s.mode = Mode.TAG ∨ s.mode = Mode.WSPACE)
    (hq : s.quote = none) (hc : s.content = Content.empty) :
    t.foldl (scanStep parent) s =
      { world := s.world, quote := none,
        content := { tag := t, param := [], text := [], id := [] },
        mode := Mode.TAG, obj := s.obj } := by
  obtain ⟨w, q, k, m, o⟩ := s
  simp only at hm hq hc
  subst hq hc
  rcases hm with hm | hm
  · subst hm
    rw [scanFold_tag_plain parent t _ rfl rfl hp]
    simp [Content.empty]
  · subst hm
    cases t with
    | nil => exact absurd rfl ht
    | cons c cs =>
      rw [List.foldl_cons, scanStep_wspace_plain parent _ c rfl rfl (hp c (List.mem_cons_self _ _)),
        scanFold_tag_plain parent cs _ rfl rfl (fun d hd => hp d (List.mem_cons_of_mem _ hd))]
      simp [Content.empty]

theorem createElement_simple (parent : Nat) (w : World) (t : Str) (m : Mode) (o : Option Nat)
    (hw : w.thrown = false) (ht : simpleTag t) :
    createElement parent
        { world := w, quote := none, content := { tag := t, param := [], text := [], id := [] },
          mode := m, obj := o } =
      { world := (insert w parent t).1, quote := none, content := Content.empty,
        mode := Mode.WSPACE, obj := some w.pages.length } := by
  have hkw : tag0 (Content.mk t [] [] []) ∉ keywords := by
    rw [tag0_no_dot _ (letters_no_dot t ht.2.1)]
    exact ht.2.2
  rw [createElement_tag_param parent w _ m o hw rfl rfl]
  simp [elemParam, elemType, hkw, Content.empty]

theorem scanStep_space (parent : Nat) (w : World) (k : Content) (m : Mode) (o : Option Nat)
    (hm : m.open3 = true) :
    scanStep parent { world := w, quote := none, content := k, mode := m, obj := o } ' ' =
      createElement parent { world := w, quote := none, content := k, mode := m, obj := o } := by
  simp [scanStep, quoted, SQ, DQ, hm]

theorem modifyAt_length (f : PageObj → PageObj) (l : List PageObj) (i : Nat) :
    (modifyAt f l i).length = l.length := by
  induction l generalizing i with
  | nil => rfl
  | cons a l ih =>
    cases i with
    | zero => rfl
    | succ i => simp [modifyAt, ih]

theorem join_cons_cons (sep x y : Str) (rest : List Str) :
    join sep (x :: y :: rest) = x ++ (sep ++ join sep (y :: rest)) := by
  simp [join]

/-- The header scan of simple tag names separated by single spaces, with the
final flush: the names are inserted in order under `parent`, and the object
returned is the last one. -/
theorem scanNames (parent : Nat) (names : List Str) (s : Scan) (hn : names ≠ [])
    (hw : s.world.thrown = false)
    (hs : ∀ t ∈ names, simpleTag t) (hm : s.mode = Mode.TAG ∨ s.mode = Mode.WSPACE)
    (hq : s.quote = none) (hc : s.content = Content.empty) :
    createElement parent ((join " ".toList names).foldl (scanStep parent) s) =
      { world := insertAll s.world parent names, quote := none, content := Content.empty,
        mode := Mode.WSPACE, obj := some (s.world.pages.length + names.length - 1) } := by
  induction names generalizing s with
  | nil => exact absurd rfl hn
  | cons t rest ih =>
    have ht := hs t (List.mem_cons_self _ _)
    have hp : ∀ c ∈ t, plainChar c := fun c hc => letter_plain c (ht.2.1 c hc)
    cases rest with
    | nil =>
      simp only [join]
      rw [scanFold_name parent t s ht.1 hp hm hq hc, createElement_simple parent _ t _ _ hw ht]
      simp [insertAll]
    | cons u rest2 =>
      rw [join_cons_cons, List.foldl_append, scanFold_name parent t s ht.1 hp hm hq hc]
      show createElement parent (List.foldl (scanStep parent) _ (' ' :: join " ".toList (u :: rest2)))
        = _
      rw [List.foldl_cons, scanStep_space parent _ _ Mode.TAG _ rfl,
        createElement_simple parent _ t _ _ hw ht,
        ih (Scan.mk (insert s.world parent t).1 none Content.empty Mode.WSPACE
            (some s.world.pages.length)) (by simp) hw
          (fun x hx => hs x (List.mem_cons_of_mem _ hx)) (Or.inr rfl) rfl rfl]
      simp only [insertAll, List.foldl_cons, insert, List.length_append, List.length_cons,
        List.length_nil]
      rw [modifyAt_length]
      congr 2
      omega

theorem parse2_names (w : World) (parent : Nat) (names : List Str) (hn : names ≠ [])
    (hw : w.thrown = false) (hs : ∀ t ∈ names, simpleTag t) :
    parse2 w none parent (join " ".toList names) =
      (insertAll w parent names, none, w.pages.length + names.length - 1) := by
  unfold parse2 scanHead
  rw [scanNames parent names (Scan.init w none) hn hw hs (Or.inl rfl) rfl rfl]
  rfl

theorem insertAll_thrown (w : World) (parent : Nat) (names : List Str) :
    (insertAll w parent names).thrown = w.thrown := by
  induction names generalizing w with
  | nil => rfl
  | cons t rest ih => exact ih (insert w parent t).1

/-! ### One brace group -/

theorem matchLoop_append_no_brace (a rest : Str) (i : Nat) (q : Option Char) (b : Braces)
    (h1 : some '{' ∉ marks q a) (h2 : some '}' ∉ marks q a) :
    matchLoop (a ++ rest) i q b = matchLoop rest (i + a.length) (cursorEnd q a) b := by
  induction a generalizing i q with
  | nil => rfl
  | cons c cs ih =>
    have t1 : some '{' ∉ marks (quoted q c).2 cs := fun hm => h1 (by
      simp only [marks, List.mem_cons]; exact Or.inr hm)
    have t2 : some '}' ∉ marks (quoted q c).2 cs := fun hm => h2 (by
      simp only [marks, List.mem_cons]; exact Or.inr hm)
    have hi : i + (c :: cs).length = (i + 1) + cs.length := by
      simp only [List.length_cons]; omega
    have hcur : cursorEnd q (c :: cs) = cursorEnd (quoted q c).2 cs := rfl
    rw [List.cons_append, hi, hcur, ← ih (i + 1) _ t1 t2]
    conv_lhs => unfold matchLoop
    simp only []
    by_cases hr : (quoted q c).1 = true
    · simp only [hr, if_true]
    · simp only [Bool.not_eq_true] at hr
      have c1 : c ≠ '{' := by
        intro e; apply h1; subst e; simp [marks, hr]
      have c2 : c ≠ '}' := by
        intro e; apply h2; subst e; simp [marks, hr]
      simp only [hr, Bool.false_eq_true, if_false, c1, c2]

theorem plain_no_brace_marks (a : Str) (d : Char) (hd : d ∉ a) : some d ∉ marks none a :=
  fun hm => hd (mem_marks _ _ _ hm)

/-- The tables of a text with one brace pair and no quote character. -/
theorem matchBraces_group (A B : Str) (hA : ∀ c ∈ A, c ≠ SQ ∧ c ≠ DQ ∧ c ≠ '{' ∧ c ≠ '}')
    (hB : ∀ c ∈ B, c ≠ SQ ∧ c ≠ DQ ∧ c ≠ '{' ∧ c ≠ '}') :
    matchBraces (A ++ ('{' :: (B ++ ['}']))) =
      BraceResult.ok
        { pair := 1, opens := [A.length], stack := [],
          closes := [some (A.length + 1 + B.length)] } none := by
  have qA : ∀ c ∈ A, c ≠ SQ ∧ c ≠ DQ := fun c hc => ⟨(hA c hc).1, (hA c hc).2.1⟩
  have qB : ∀ c ∈ B, c ≠ SQ ∧ c ≠ DQ := fun c hc => ⟨(hB c hc).1, (hB c hc).2.1⟩
  unfold matchBraces
  rw [matchLoop_append_no_brace A _ 0 none _
    (plain_no_brace_marks A _ (fun hm => (hA _ hm).2.2.1 rfl))
    (plain_no_brace_marks A _ (fun hm => (hA _ hm).2.2.2 rfl)), (marks_plain A qA).2]
  conv_lhs => unfold matchLoop
  simp only [quoted_plain '{' (by decide) (by decide), Bool.false_eq_true, if_false, if_true,
    Braces.init, List.nil_append, Nat.zero_add]
  rw [matchLoop_append_no_brace B _ _ none _
    (plain_no_brace_marks B _ (fun hm => (hB _ hm).2.2.1 rfl))
    (plain_no_brace_marks B _ (fun hm => (hB _ hm).2.2.2 rfl)), (marks_plain B qB).2]
  have hne : ('}' : Char) ≠ '{' := by decide
  simp [matchLoop, quoted_plain '}' (by decide) (by decide), hne, arraySet]

theorem substring_prefix (A rest : Str) : substring (A ++ rest) 0 A.length = A := by
  simp [substring]

theorem substring_inner (A B : Str) (c d : Char) :
    substring (A ++ (c :: (B ++ [d]))) (A.length + 1) (A.length + 1 + B.length) = B := by
  unfold substring
  have h1 : min (A.length + 1) (A.length + 1 + B.length) = A.length + 1 := by omega
  have h2 : max (A.length + 1) (A.length + 1 + B.length) = A.length + 1 + B.length := by omega
  rw [h1, h2]
  have e : A ++ (c :: (B ++ [d])) = (A ++ [c]) ++ (B ++ [d]) := by simp
  have hl : A.length + 1 = (A ++ [c]).length := by simp
  rw [e, hl, List.drop_left]
  simp

theorem trim_right_space (J : Str) (h1 : ∀ x, J.head? = some x → isJsSpace x = false)
    (h2 : ∀ x, J.getLast? = some x → isJsSpace x = false) (hne : J ≠ []) :
    trim (J ++ [' ']) = J := by
  unfold trim
  have e1 : (J ++ [' ']).dropWhile isJsSpace = J ++ [' '] := by
    apply dropWhile_head_false
    intro x hx
    cases J with
    | nil => exact absurd rfl hne
    | cons c cs =>
      simp only [List.cons_append, List.head?_cons, Option.some.injEq] at hx
      exact hx ▸ h1 c rfl
  rw [e1, List.reverse_append]
  have e2 : ([' '].reverse ++ J.reverse).dropWhile isJsSpace = J.reverse.dropWhile isJsSpace := by
    simp only [List.reverse_singleton, List.singleton_append, List.dropWhile]
    have : isJsSpace ' ' = true := by decide
    simp [this]
  rw [e2, dropWhile_head_false J.reverse (by simpa using h2), List.reverse_reverse]

theorem trim_both_space (J : Str) (h1 : ∀ x, J.head? = some x → isJsSpace x = false)
    (h2 : ∀ x, J.getLast? = some x → isJsSpace x = false) (hne : J ≠ []) :
    trim (' ' :: (J ++ [' '])) = J := by
  have e : trim (' ' :: (J ++ [' '])) = trim (J ++ [' ']) := by
    unfold trim
    have : isJsSpace ' ' = true := by decide
    simp [List.dropWhile, this]
  rw [e, trim_right_space J h1 h2 hne]

theorem join_names_ends (names : List Str) (hn : names ≠ []) (hs : ∀ t ∈ names, simpleTag t) :
    join " ".toList names ≠ [] ∧
    (∀ x, (join " ".toList names).head? = some x → isJsSpace x = false) ∧
    (∀ x, (join " ".toList names).getLast? = some x → isJsSpace x = false) := by
  induction names with
  | nil => exact absurd rfl hn
  | cons t rest ih =>
    have ht := hs t (List.mem_cons_self _ _)
    cases rest with
    | nil =>
      simp only [join]
      exact ⟨ht.1, fun x hx => letter_not_space x (ht.2.1 x (List.mem_of_mem_head? hx)),
        fun x hx => letter_not_space x (ht.2.1 x (List.mem_of_mem_getLast? hx))⟩
    | cons u rest2 =>
      obtain ⟨i1, i2, i3⟩ := ih (by simp) (fun x hx => hs x (List.mem_cons_of_mem _ hx))
      rw [join_cons_cons]
      refine ⟨?_, ?_, ?_⟩
      · intro e
        exact ht.1 (List.append_eq_nil.mp e).1
      · intro x hx
        cases t with
        | nil => exact absurd rfl ht.1
        | cons c cs =>
          simp only [List.cons_append, List.head?_cons, Option.some.injEq] at hx
          exact hx ▸ letter_not_space c (ht.2.1 c (List.mem_cons_self _ _))
      · intro x hx
        rw [← List.append_assoc, List.getLast?_append] at hx
        cases hl : (join " ".toList (u :: rest2)).getLast? with
        | none =>
          have := List.getLast?_eq_none_iff.mp hl
          exact absurd this i1
        | some y =>
          rw [hl] at hx
          simp only [Option.or, Option.some.injEq] at hx
          exact hx ▸ i3 y hl

theorem letter_no_brace (c : Char) (h : c.isAlpha = true) :
    c ≠ SQ ∧ c ≠ DQ ∧ c ≠ '{' ∧ c ≠ '}' :=
  ⟨letter_ne _ _ h (by decide), letter_ne _ _ h (by decide), letter_ne _ _ h (by decide),
    letter_ne _ _ h (by decide)⟩

theorem join_names_no_brace (names : List Str) (hs : ∀ t ∈ names, simpleTag t) :
    ∀ c ∈ join " ".toList names, c ≠ SQ ∧ c ≠ DQ ∧ c ≠ '{' ∧ c ≠ '}' := by
  intro c hc
  rcases mem_join _ _ c hc with h | ⟨t, ht, hct⟩
  · rw [List.mem_singleton.mp h]; decide
  · exact letter_no_brace c ((hs t ht).2.1 c hct)

/-- The tree builder on `t1 ... tn { u1 ... um }`: the header names are inserted
under the receiver, the names of the group under the last header node. -/
theorem group_parse_world (w : World) (this : Nat) (ts us : List Str) (hw : w.thrown = false)
    (hts : ts ≠ []) (hus : us ≠ []) (ht : ∀ t ∈ ts, simpleTag t) (hu : ∀ t ∈ us, simpleTag t) :
    parse w this (groupText ts us) =
      some { world := insertAll (insertAll w this ts) (w.pages.length + ts.length - 1) us,
             returned := some this, logged := none } := by
  obtain ⟨a1, a2, a3⟩ := join_names_ends ts hts ht
  obtain ⟨b1, b2, b3⟩ := join_names_ends us hus hu
  have hA : ∀ c ∈ join " ".toList ts ++ [' '], c ≠ SQ ∧ c ≠ DQ ∧ c ≠ '{' ∧ c ≠ '}' := by
    intro c hc
    rcases List.mem_append.mp hc with h | h
    · exact join_names_no_brace ts ht c h
    · rw [List.mem_singleton.mp h]; decide
  have hB : ∀ c ∈ ' ' :: (join " ".toList us ++ [' ']), c ≠ SQ ∧ c ≠ DQ ∧ c ≠ '{' ∧ c ≠ '}' := by
    intro c hc
    rcases List.mem_cons.mp hc with h | h
    · rw [h]; decide
    · rcases List.mem_append.mp h with h | h
      · exact join_names_no_brace us hu c h
      · rw [List.mem_singleton.mp h]; decide
  generalize hAd : join " ".toList ts ++ [' '] = A at hA
  generalize hBd : ' ' :: (join " ".toList us ++ [' ']) = B at hB
  have hAtrim : trim A = join " ".toList ts := by
    rw [← hAd]; exact trim_right_space _ a2 a3 a1
  have hBtrim : trim B = join " ".toList us := by
    rw [← hBd]; exact trim_both_space _ b2 b3 b1
  have hAlen : 0 < A.length := by rw [← hAd]; simp
  have hBlen : 0 < B.length := by rw [← hBd]; simp
  have htext : groupText ts us = A ++ ('{' :: (B ++ ['}'])) := by
    unfold groupText
    rw [hAd, hBd]
  have hlen : (A ++ ('{' :: (B ++ ['}']))).length = A.length + 1 + B.length + 1 := by
    simp only [List.length_append, List.length_cons, List.length_nil]
    omega
  have hn0 : nextOpen [A.length] 0 (A.length + 1 + B.length + 1) = 0 := by
    have : ¬ A.length > A.length + 1 + B.length + 1 := by omega
    simp [nextOpen, firstAfter, hAlen, this]
  have hn1 : nextOpen [A.length] (A.length + 1) (A.length + 1 + B.length) = 1 := by
    simp [nextOpen, firstAfter]
  unfold parse
  rw [htext, matchBraces_group A B hA hB]
  simp only [hlen]
  rw [parse1_group _ _ _ _ _ _ _ _ (A.length + 1 + B.length) (by omega)
    (by rw [hn0]; exact Nat.zero_lt_one) (by rw [hn0]; rfl)]
  have hw1 : (insertAll w this ts).thrown = false := by rw [insertAll_thrown]; exact hw
  simp only [hn0, List.getD_cons_zero, substring_prefix, hAtrim, headObj, a1, ne_eq,
    not_false_eq_true, if_true, parse2_names w this ts hts hw ht]
  rw [parse1_tail _ _ _ _ _ _ _ _ (by omega) (by rw [hn1]; exact Nat.lt_irrefl _)]
  simp only [substring_inner, hBtrim, headObj, b1, ne_eq, not_false_eq_true, if_true,
    parse2_names _ _ us hus hw1 hu]
  rw [parse1_done _ _ _ _ _ _ _ _ (Nat.lt_irrefl _)]
  simp only [insertAll_thrown, hw, Bool.false_eq_true, if_false]

/-! ### The heap after a run of inserts -/

theorem modifyAt_id (f : PageObj → PageObj) (l : List PageObj) (i : Nat) (h : ∀ p, f p = p) :
    modifyAt f l i = l := by
  induction l generalizing i with
  | nil => rfl
  | cons a l ih =>
    cases i with
    | zero => simp [modifyAt, h]
    | succ i => simp [modifyAt, ih]

theorem modifyAt_append_left (f : PageObj → PageObj) (l r : List PageObj) (i : Nat)
    (h : i < l.length) : modifyAt f (l ++ r) i = modifyAt f l i ++ r := by
  induction l generalizing i with
  | nil => exact absurd h (Nat.not_lt_zero _)
  | cons a l ih =>
    cases i with
    | zero => rfl
    | succ i =>
      show a :: modifyAt f (l ++ r) i = a :: (modifyAt f l i ++ r)
      rw [ih i (by simpa using h)]

theorem modifyAt_modifyAt (f g : PageObj → PageObj) (l : List PageObj) (i : Nat) :
    modifyAt g (modifyAt f l i) i = modifyAt (fun p => g (f p)) l i := by
  induction l generalizing i with
  | nil => rfl
  | cons a l ih =>
    cases i with
    | zero => rfl
    | succ i => simp [modifyAt, ih]

theorem modifyAt_getElem? (f : PageObj → PageObj) (l : List PageObj) (i k : Nat) :
    (modifyAt f l i)[k]? = if k = i then (l[k]?).map f else l[k]? := by
  induction l generalizing i k with
  | nil => simp [modifyAt]
  | cons a l ih =>
    cases i with
    | zero =>
      cases k with
      | zero => simp [modifyAt]
      | succ k => simp [modifyAt]
    | succ i =>
      cases k with
      | zero => simp [modifyAt]
      | succ k => simp [modifyAt, ih]

theorem insertAll_ids_calls (w : World) (parent : Nat) (names : List Str) :
    (insertAll w parent names).ids = w.ids ∧
    (insertAll w parent names).calls = w.calls ++ names.map (SinkCall.insert parent) := by
  induction names generalizing w with
  | nil => simp [insertAll]
  | cons t rest ih =>
    obtain ⟨h1, h2⟩ := ih (insert w parent t).1
    unfold insertAll at h1 h2 ⊢
    rw [List.foldl_cons, h1, h2]
    simp [insert]

theorem insertAll_pages (w : World) (parent : Nat) (names : List Str)
    (hp : parent < w.pages.length) :
    (insertAll w parent names).pages =
      modifyAt (fun p => { p with child := p.child ++ List.range' w.pages.length names.length })
        w.pages parent ++ names.map (leaf parent) := by
  induction names generalizing w with
  | nil =>
    simp only [insertAll, List.foldl_nil, List.length_nil, List.range'_zero, List.append_nil,
      List.map_nil]
    rw [modifyAt_id]
    intro p
    rfl
  | cons t rest ih =>
    have hlen : (insert w parent t).1.pages.length = w.pages.length + 1 := by
      simp [insert, modifyAt_length]
    have := ih (insert w parent t).1 (by rw [hlen]; omega)
    unfold insertAll at this ⊢
    rw [List.foldl_cons, this, hlen]
    have e : (insert w parent t).1.pages =
        modifyAt (fun p => { p with child := p.child ++ [w.pages.length] }) w.pages parent ++
          [leaf parent t] := rfl
    rw [e, modifyAt_append_left _ _ _ _ (by rw [modifyAt_length]; exact hp), modifyAt_modifyAt]
    simp only [List.append_assoc, List.singleton_append, List.map_cons, List.length_cons,
      List.range'_succ]

theorem map_range' {α β : Type} (l : List α) (f : Nat → β) (g : α → β) (s : Nat)
    (h : ∀ i, ∀ hi : i < l.length, f (s + i) = g (l.get ⟨i, hi⟩)) :
    (List.range' s l.length).map f = l.map g := by
  induction l generalizing s with
  | nil => rfl
  | cons a l ih =>
    have h0 : f s = g a := by simpa using h 0 (by simp)
    have hs : ∀ i, ∀ hi : i < l.length, f (s + 1 + i) = g (l.get ⟨i, hi⟩) := by
      intro i hi
      have := h (i + 1) (by simpa using hi)
      rw [show s + 1 + i = s + (i + 1) by omega]
      simpa using this
    simp only [List.length_cons, List.range'_succ, List.map_cons]
    rw [h0, ih (s + 1) hs]

/-- The heap after `t1 ... tn { u1 ... um }` has been parsed on an empty root. -/
theorem group_pages (ts us : List Str) :
    (insertAll (insertAll emptyRoot 0 ts) (emptyRoot.pages.length + ts.length - 1) us).pages =
      modifyAt (fun p => { p with child := p.child ++ List.range' (ts.length + 1) us.length })
        ({ type := [], parent := none, child := List.range' 1 ts.length, maps := [],
           inner := none } :: ts.map (leaf 0)) ts.length ++ us.map (leaf ts.length) := by
  have h1 : (insertAll emptyRoot 0 ts).pages =
      { type := [], parent := none, child := List.range' 1 ts.length, maps := [],
        inner := none } :: ts.map (leaf 0) := by
    rw [insertAll_pages emptyRoot 0 ts (by decide)]
    rfl
  have hn : emptyRoot.pages.length + ts.length - 1 = ts.length := by
    show 1 + ts.length - 1 = ts.length
    omega
  have hlen : (insertAll emptyRoot 0 ts).pages.length = ts.length + 1 := by
    rw [h1]; simp
  rw [hn, insertAll_pages _ ts.length us (by rw [hlen]; omega), hlen, h1]

theorem group_page_at (ts us : List Str) (hts : ts ≠ []) (k : Nat) :
    (insertAll (insertAll emptyRoot 0 ts) (emptyRoot.pages.length + ts.length - 1) us).pages[k]? =
      if k = 0 then
        some { type := [], parent := none, child := List.range' 1 ts.length, maps := [],
               inner := none }
      else if k < ts.length then (ts[k - 1]?).map (leaf 0)
      else if k = ts.length then
        (ts[k - 1]?).map fun t =>
          { type := t, parent := some 0, child := List.range' (ts.length + 1) us.length,
            maps := [], inner := none }
      else (us[k - (ts.length + 1)]?).map (leaf ts.length) := by
  have hpos : 0 < ts.length := List.length_pos.mpr hts
  rw [group_pages ts us]
  rcases Nat.lt_or_ge k (ts.length + 1) with hk | hk
  · rw [List.getElem?_append_left (by rw [modifyAt_length]; simpa using hk), modifyAt_getElem?]
    cases k with
    | zero =>
      have : 0 ≠ ts.length := by omega
      simp [this]
    | succ j =>
      by_cases hj : j + 1 = ts.length
      · have h2 : ¬ j + 1 < ts.length := by omega
        rw [if_pos hj, if_neg (Nat.succ_ne_zero j), if_neg h2, if_pos hj,
          List.getElem?_cons_succ, List.getElem?_map, Nat.add_sub_cancel]
        cases ts[j]? <;> simp [leaf]
      · have h2 : j + 1 < ts.length := by omega
        rw [if_neg hj, if_neg (Nat.succ_ne_zero j), if_pos h2,
          List.getElem?_cons_succ, List.getElem?_map, Nat.add_sub_cancel]
  · rw [List.getElem?_append_right (by rw [modifyAt_length]; simpa using hk), modifyAt_length]
    have h0 : k ≠ 0 := by omega
    have h1 : ¬ k < ts.length := by omega
    have h2 : k ≠ ts.length := by omega
    simp [h0, h1, h2]

/-- C3: `parse` of `t1 ... tn { u1 ... um }` (simple tag names, single spaces) on
an empty root returns after exactly `n + m` calls, all of them inserts. The
root gets the children `1..n`, of types `t1..tn` in that order; the last of
them, node `n`, gets the children `n+1..n+m`, of types `u1..um` in that order;
no other node has children. -/
theorem parse_group (ts us : List Str) (hts : ts ≠ []) (hus : us ≠ [])
    (ht : ∀ t ∈ ts, simpleTag t) (hu : ∀ t ∈ us, simpleTag t) :
    ∃ o, parse emptyRoot 0 (groupText ts us) = some o ∧
      o.returned = some 0 ∧ o.logged = none ∧
      o.world.calls = ts.map (SinkCall.insert 0) ++ us.map (SinkCall.insert ts.length) ∧
      children o.world 0 = List.range' 1 ts.length ∧
      childTypes o.world 0 = ts.map some ∧
      children o.world ts.length = List.range' (ts.length + 1) us.length ∧
      childTypes o.world ts.length = us.map some ∧
      ∀ k, k ≠ 0 → k ≠ ts.length → children o.world k = [] := by
  have hpos : 0 < ts.length := List.length_pos.mpr hts
  have hp := group_page_at ts us hts
  have hn : emptyRoot.pages.length + ts.length - 1 = ts.length := by
    show 1 + ts.length - 1 = ts.length
    omega
  have hcalls := insertAll_ids_calls (insertAll emptyRoot 0 ts)
    (emptyRoot.pages.length + ts.length - 1) us
  have hcalls0 := insertAll_ids_calls emptyRoot 0 ts
  have htype1 : ∀ i, ∀ hi : i < ts.length,
      typeOf (insertAll (insertAll emptyRoot 0 ts) (emptyRoot.pages.length + ts.length - 1) us)
        (1 + i) = some (ts.get ⟨i, hi⟩) := by
    intro i hi
    unfold typeOf
    rw [List.get?_eq_getElem?, hp (1 + i)]
    have e : ts[1 + i - 1]? = some (ts.get ⟨i, hi⟩) := by
      rw [Nat.add_sub_cancel_left, List.getElem?_eq_getElem hi]
      rfl
    rw [if_neg (by omega), e]
    by_cases h1 : 1 + i < ts.length
    · rw [if_pos h1]; rfl
    · rw [if_neg h1, if_pos (by omega)]; rfl
  have htype2 : ∀ j, ∀ hj : j < us.length,
      typeOf (insertAll (insertAll emptyRoot 0 ts) (emptyRoot.pages.length + ts.length - 1) us)
        (ts.length + 1 + j) = some (us.get ⟨j, hj⟩) := by
    intro j hj
    unfold typeOf
    rw [List.get?_eq_getElem?, hp (ts.length + 1 + j)]
    have e : us[ts.length + 1 + j - (ts.length + 1)]? = some (us.get ⟨j, hj⟩) := by
      rw [Nat.add_sub_cancel_left, List.getElem?_eq_getElem hj]
      rfl
    rw [if_neg (by omega), if_neg (by omega), if_neg (by omega), e]
    rfl
  have hch0 : children (insertAll (insertAll emptyRoot 0 ts)
      (emptyRoot.pages.length + ts.length - 1) us) 0 = List.range' 1 ts.length := by
    unfold children
    rw [List.get?_eq_getElem?, hp 0]
    rfl
  have hchn : children (insertAll (insertAll emptyRoot 0 ts)
      (emptyRoot.pages.length + ts.length - 1) us) ts.length =
      List.range' (ts.length + 1) us.length := by
    unfold children
    rw [List.get?_eq_getElem?, hp ts.length, if_neg (by omega), if_neg (by omega), if_pos rfl,
      List.getElem?_eq_getElem (by omega : ts.length - 1 < ts.length)]
    rfl
  refine ⟨_, group_parse_world emptyRoot 0 ts us rfl hts hus ht hu, rfl, rfl, ?_, hch0, ?_, hchn,
    ?_,
    ?_⟩
  · show (insertAll (insertAll emptyRoot 0 ts) (emptyRoot.pages.length + ts.length - 1) us).calls
      = _
    rw [hcalls.2, hcalls0.2, hn]
    rfl
  · unfold childTypes
    rw [hch0]
    exact map_range' ts _ some 1 htype1
  · unfold childTypes
    rw [hchn]
    exact map_range' us _ some (ts.length + 1) htype2
  · intro k hk0 hkn
    show children (insertAll (insertAll emptyRoot 0 ts)
      (emptyRoot.pages.length + ts.length - 1) us) k = []
    unfold children
    rw [List.get?_eq_getElem?, hp k, if_neg hk0]
    by_cases h1 : k < ts.length
    · rw [if_pos h1]
      cases ts[k - 1]? <;> rfl
    · rw [if_neg h1, if_neg hkn]
      cases us[k - (ts.length + 1)]? <;> rfl

/-- C3, at `div { span }`: the root has the one child `div`, which has the one
child `span`. -/
theorem parse_group_witness :
    groupText ["div".toList] ["span".toList] = "div \x7b span \x7d".toList ∧
    (∃ o, parse emptyRoot 0 "div \x7b span \x7d".toList = some o ∧
      o.returned = some 0 ∧ o.logged = none ∧
      o.world.calls = [SinkCall.insert 0 "div".toList, SinkCall.insert 1 "span".toList] ∧
      children o.world 0 = [1] ∧
      childTypes o.world 0 = [some "div".toList] ∧
      children o.world 1 = [2] ∧
      childTypes o.world 1 = [some "span".toList] ∧
      ∀ k, k ≠ 0 → k ≠ 1 → children o.world k = []) ∧
    parse emptyRoot 0 "div \x7b span \x7d".toList =
      some { world :=
               { pages := [{ type := [], parent := none, child := [1], maps := [], inner := none },
                           { type := "div".toList, parent := some 0, child := [2], maps := [],
                             inner := none },
                           { type := "span".toList, parent := some 1, child := [], maps := [],
                             inner := none }],
                 ids := [], proto := none, thrown := false,
                 calls := [SinkCall.insert 0 "div".toList, SinkCall.insert 1 "span".toList] },
             returned := some 0, logged := none } :=
  ⟨by decide,
    parse_group ["div".toList] ["span".toList] (by decide) (by decide) (by decide) (by decide),
    by decide⟩

/-! ### The value returned and the style branch of `set` -/

/-- C11, what the code does: on both early returns of the brace matching pass
`parse` returns `undefined`, not the object it was called on (extra close in
`a}`, unclosed open in `div { span`). -/
theorem parse_returns_undefined :
    (parse emptyRoot 0 "a\x7d".toList).map Outcome.returned = some none ∧
    (parse emptyRoot 0 "div \x7b span".toList).map Outcome.returned = some none := by
  decide

/-- C12, what the code does: the clause `background:url(http://x)` is split at
every colon and only the piece after the first colon is assigned, so
`background` gets `url(http`, where the specification's reading assigns
`url(http://x)`. -/
theorem styleOps_url_clause :
    setOps [("style".toList, "background:url(http://x)".toList)] =
      [ElemOp.setStyle "background".toList "url(http".toList] ∧
    clauseOpsSpec "background:url(http://x)".toList =
      [ElemOp.setStyle "background".toList "url(http://x)".toList] ∧
    setOps [("style".toList, "color:red;nothing;width:1px".toList)] =
      [ElemOp.setStyle "color".toList "red".toList, ElemOp.setStyle "width".toList "1px".toList] := by
  decide

/-! ### The keyword rewrite, `unquote` and the first colon -/

/-- C16, as stated, fails: for the tag `checkbox` and the PARAM buffer
`name:'x'` the rewritten buffer is not `type:checkbox,name:'x'`. -/
theorem elemParam_not_prepended :
    tag0 { tag := "checkbox".toList, param := "name:'x'".toList, text := [], id := [] } ∈
        keywords ∧
    elemParam { tag := "checkbox".toList, param := "name:'x'".toList, text := [], id := [] } ≠
      "type:checkbox,name:'x'".toList := by
  decide

/-- C16, amended: when the flushed tag is a shorthand keyword and the PARAM
buffer holds a non-empty text `P`, the buffer becomes `P,type:<keyword>`: the
synthetic pair comes last. -/
theorem elemParam_appended (k : Content) (hkw : tag0 k ∈ keywords) (hp : k.param ≠ []) :
    elemParam k = k.param ++ (",".toList ++ ("type:".toList ++ tag0 k)) := by
  unfold elemParam
  simp only [hkw, if_true, hp, ne_eq, not_false_eq_true, List.append_assoc]

/-- C16 amended, at the tag `checkbox` and the buffer `name:'x'`. -/
theorem elemParam_appended_witness :
    elemParam { tag := "checkbox".toList, param := "name:'x'".toList, text := [], id := [] } =
      "name:'x',type:checkbox".toList :=
  elemParam_appended { tag := "checkbox".toList, param := "name:'x'".toList, text := [], id := [] }
    (by decide) (by decide)

/-- C17: `unquote` strips one layer, and only between two equal quote
characters: if `s` has at least two characters, starts with a quote character
and ends with the same character, the result is `s` without its first and last
character; in every other case the result is `s`. -/
theorem unquote_spec (s : Str) :
    ((2 ≤ s.length ∧ ∃ c, s.head? = some c ∧ (c = SQ ∨ c = DQ) ∧ s.getLast? = some c) →
      unquote s = (s.drop 1).dropLast) ∧
    (¬ (2 ≤ s.length ∧ ∃ c, s.head? = some c ∧ (c = SQ ∨ c = DQ) ∧ s.getLast? = some c) →
      unquote s = s) := by
  constructor
  · rintro ⟨hlen, c, hh, hc, hl⟩
    cases s with
    | nil => cases hh
    | cons a t =>
      have ha : a = c := Option.some.inj hh
      subst ha
      have ht : t ≠ [] := by
        intro e
        rw [e] at hlen
        simp at hlen
      have hlast : t.getLast? = some a := by
        cases t with
        | nil => exact absurd rfl ht
        | cons b u => rw [List.getLast?_cons_cons] at hl; exact hl
      have hsplit : t = t.dropLast ++ [a] := by
        have h1 := List.dropLast_append_getLast? a hlast
        exact h1.symm
      rw [hsplit, unquote_quoted a t.dropLast hc]
      simp
  · intro hn
    cases s with
    | nil => rfl
    | cons a t =>
      cases t with
      | nil =>
        unfold unquote
        simp only [List.head?_cons, List.getLast?_singleton]
        split_ifs <;> simp [substring]
      | cons b u =>
        unfold unquote
        cases hl : (a :: b :: u).getLast? with
        | none => rfl
        | some cc =>
          simp only [List.head?_cons]
          split_ifs with h1 h2
          · exfalso
            apply hn
            refine ⟨by simp, a, rfl, h1, ?_⟩
            rw [hl, h2]
          · rfl
          · rfl

/-- C17, at `'ab'` (stripped), and at the strings that are left as they are:
the empty string, `ab'`, `'ab"`, and the two one-character quotes. -/
theorem unquote_spec_witness :
    unquote "'ab'".toList = "ab".toList ∧
    unquote [] = [] ∧ unquote "ab'".toList = "ab'".toList ∧
    unquote [SQ, 'a', 'b', DQ] = [SQ, 'a', 'b', DQ] ∧
    unquote [SQ] = [SQ] ∧ unquote [DQ] = [DQ] :=
  ⟨(unquote_spec "'ab'".toList).1 (by decide),
    (unquote_spec []).2 (by decide), (unquote_spec "ab'".toList).2 (by decide),
    (unquote_spec [SQ, 'a', 'b', DQ]).2 (by decide),
    (unquote_spec [SQ]).2 (by decide), (unquote_spec [DQ]).2 (by decide)⟩

theorem mem_trim (s : Str) (c : Char) (h : c ∈ trim s) : c ∈ s := by
  unfold trim at h
  rw [List.mem_reverse] at h
  have h1 := (List.dropWhile_sublist isJsSpace).subset h
  rw [List.mem_reverse] at h1
  exact (List.dropWhile_sublist isJsSpace).subset h1

/-- Only the first colon of a pair separates key from value. For a key `k` (not
empty, unchanged by `trim`, without colon, comma or quote character) and a
value text `v` without comma and quote character, whatever colons it holds,
the attribute scan of `k:v` yields the mapping that binds `k` to `trim(v)` and
nothing else, unless `k` is `__proto__`: then the mapping is empty. -/
theorem attrScan_first_colon (k v : Str)
    (hk : k ≠ [] ∧ trim k = k ∧ ∀ c ∈ k, c ≠ ':' ∧ c ≠ ',' ∧ c ≠ SQ ∧ c ≠ DQ)
    (hv : ∀ c ∈ v, c ≠ ',' ∧ c ≠ SQ ∧ c ≠ DQ) :
    (attrScan none (k ++ (':' :: v))).map = if k = protoKey then [] else [(k, trim v)] := by
  have hvq : ∀ c ∈ v, c ≠ SQ ∧ c ≠ DQ := fun c hc => ⟨(hv c hc).2.1, (hv c hc).2.2⟩
  have hvt : valueText v :=
    ⟨(marks_plain v hvq).2, fun hm => (hv _ (mem_marks _ _ _ hm)).1 rfl⟩
  have hkt : keyText k := fun c hc => ⟨(hk.2.2 c hc).2.2.1, (hk.2.2 c hc).2.2.2, (hk.2.2 c hc).1⟩
  have hscan := attrScan_pairs [(k, v)] (by
    intro p hp
    rw [List.mem_singleton.mp hp]
    exact ⟨hkt, hvt⟩)
  have hpt : pairsText [(k, v)] = k ++ (':' :: v) := rfl
  rw [hpt] at hscan
  rw [hscan]
  have hku : unquote k = k :=
    unquote_of_head k (fun x hx => ⟨(hk.2.2 x (List.mem_of_mem_head? hx)).2.2.1,
      (hk.2.2 x (List.mem_of_mem_head? hx)).2.2.2⟩)
  have hvu : unquote (trim v) = trim v :=
    unquote_of_head _ (fun x hx => hvq x (mem_trim v x (List.mem_of_mem_head? hx)))
  simp only [AttrScan.fresh, List.foldl_cons, List.foldl_nil, storePair, hk.2.1, hku, hvu]
  simp [hk.1, assign, objSet]

/-- The text `href:http://x`, and a value with spaces around it. -/
theorem attrScan_first_colon_witness :
    (attrScan none "href:http://x".toList).map = [("href".toList, "http://x".toList)] ∧
    (attrScan none "a: b:c:d ".toList).map = [("a".toList, "b:c:d".toList)] :=
  ⟨(attrScan_first_colon "href".toList "http://x".toList (by decide) (by decide)).trans
      (if_neg (by decide)),
    (attrScan_first_colon "a".toList " b:c:d ".toList (by decide) (by decide)).trans
      (if_neg (by decide))⟩

/-- C18, what the code does: for the key `__proto__` and the value text
`http://x` the attribute scan of `__proto__:http://x` yields the empty mapping,
not the mapping that binds `__proto__` to `http://x`. -/
theorem attrScan_colon_proto_key :
    (attrScan none "__proto__:http://x".toList).map = [] ∧
    (attrScan none "__proto__:http://x".toList).map ≠
      [("__proto__".toList, trim "http://x".toList)] := by
  decide

/-! ### Order and nesting of the spans -/

theorem marks_snoc_some (pre : Str) (c : Char) (n : Nat) (x : Option Char)
    (h : (marks none pre)[n]? = some x) : (marks none (pre ++ [c]))[n]? = some x := by
  rw [marks_snoc]
  have hn : n < (marks none pre).length := by
    by_contra hc
    rw [List.getElem?_eq_none (by omega)] at h
    cases h
  rw [List.getElem?_append_left hn, h]

theorem marks_snoc_last (pre : Str) (c : Char) :
    (marks none (pre ++ [c]))[pre.length]? = some (markAfter pre c) := by
  rw [marks_snoc, ← marks_length none pre, List.getElem?_concat_length]

theorem getD_snoc_last (l : List Nat) (x : Nat) : (l ++ [x]).getD l.length 0 = x := by
  rw [List.getD_eq_getElem?_getD, List.getElem?_concat_length]
  rfl

theorem BInv.opens_lt {pre : Str} {b : Braces} (h : BInv pre b) (id : Nat)
    (hid : id < b.opens.length) : b.opens.getD id 0 < pre.length := by
  have ho := h.opened id hid
  by_contra hc
  rw [List.getElem?_eq_none (by omega)] at ho
  cases ho

theorem BInv.closed_lt {pre : Str} {b : Braces} (h : BInv pre b) (id c : Nat)
    (hid : id < b.opens.length) (hc : b.closes.getD id none = some c) : c < pre.length := by
  have hns : id ∉ b.stack := by
    intro hm
    have := (h.stack_open id hm).2
    rw [hc] at this
    cases this
  obtain ⟨c1, e1, _, e3⟩ := h.closed id hid hns
  rw [hc] at e1
  rw [Option.some.inj e1]
  by_contra hge
  rw [List.getElem?_eq_none (by omega)] at e3
  cases e3

theorem BInv.closes_none {b : Braces} {pre : Str} (h : BInv pre b) (id : Nat)
    (hid : b.opens.length ≤ id) : b.closes.getD id none = none := by
  rw [List.getD_eq_getElem?_getD, List.getElem?_eq_none (Nat.le_trans h.closes_le hid)]
  rfl

theorem NInv.nest_skip {pre : Str} {b : Braces} (n : NInv pre b) (c : Char) : NInv (pre ++ [c]) b where
  opens_mono := n.opens_mono
  stack_desc := n.stack_desc
  nested := n.nested
  before := n.before
  open_mark := fun id hid => marks_snoc_some _ _ _ _ (n.open_mark id hid)
  close_mark := fun id cl hc => marks_snoc_some _ _ _ _ (n.close_mark id cl hc)

theorem NInv.nest_open {pre : Str} {b : Braces} (h : BInv pre b) (n : NInv pre b) (c : Char)
    (hm : markAfter pre c = some '{') :
    NInv (pre ++ [c])
      { pair := b.pair + 1, opens := b.opens ++ [pre.length], stack := b.pair :: b.stack,
        closes := b.closes } where
  opens_mono := by
    intro i j hij hj
    simp only [List.length_append, List.length_singleton] at hj
    have hi : i < b.opens.length := by omega
    show (b.opens ++ [pre.length]).getD i 0 < (b.opens ++ [pre.length]).getD j 0
    rw [getD_snoc_lt _ _ _ hi]
    rcases Nat.lt_or_ge j b.opens.length with hlt | hge
    · rw [getD_snoc_lt _ _ _ hlt]
      exact n.opens_mono i j hij hlt
    · have e : j = b.opens.length := by omega
      rw [e, getD_snoc_last]
      exact h.opens_lt i hi
  stack_desc := by
    refine List.pairwise_cons.mpr ⟨?_, n.stack_desc⟩
    intro y hy
    rw [h.pair_eq]
    exact (h.stack_open y hy).1
  nested := by
    intro i j cj hij hj hc
    simp only [List.length_append, List.length_singleton] at hj
    have hjl : j < b.opens.length := by
      by_contra hge
      have := h.closes_none j (by omega)
      rw [this] at hc
      cases hc
    show i ∈ b.pair :: b.stack ∨ ∃ ci, b.closes.getD i none = some ci ∧
      (ci < (b.opens ++ [pre.length]).getD j 0 ∨ cj < ci)
    rw [getD_snoc_lt _ _ _ hjl]
    rcases n.nested i j cj hij hjl hc with hs | hx
    · exact Or.inl (List.mem_cons_of_mem _ hs)
    · exact Or.inr hx
  before := by
    intro i j hij hj hi
    have hi1 : i ≠ b.pair := fun e => hi (by rw [e]; exact List.mem_cons_self _ _)
    have hi2 : i ∉ b.stack := fun hm2 => hi (List.mem_cons_of_mem _ hm2)
    show ∃ ci, b.closes.getD i none = some ci ∧ ci < (b.opens ++ [pre.length]).getD j 0
    rcases List.mem_cons.mp hj with e | hjs
    · have hil : i < b.opens.length := by rw [← h.pair_eq]; omega
      obtain ⟨ci, e1, _, e3⟩ := h.closed i hil hi2
      refine ⟨ci, e1, ?_⟩
      rw [e, h.pair_eq, getD_snoc_last]
      exact h.closed_lt i ci hil e1
    · rw [getD_snoc_lt _ _ _ (h.stack_open j hjs).1]
      exact n.before i j hij hjs hi2
  open_mark := by
    intro id hid
    simp only [List.length_append, List.length_singleton] at hid
    show (marks none (pre ++ [c]))[(b.opens ++ [pre.length]).getD id 0]? = _
    rcases Nat.lt_or_ge id b.opens.length with hlt | hge
    · rw [getD_snoc_lt _ _ _ hlt]
      exact marks_snoc_some _ _ _ _ (n.open_mark id hlt)
    · have e : id = b.opens.length := by omega
      rw [e, getD_snoc_last, marks_snoc_last, hm]
  close_mark := fun id cl hc => marks_snoc_some _ _ _ _ (n.close_mark id cl hc)

theorem NInv.nest_close {pre : Str} {b : Braces} (h : BInv pre b) (n : NInv pre b) (c : Char)
    (hm : markAfter pre c = some '}') (closing : Nat) (rest : List Nat)
    (hst : b.stack = closing :: rest) :
    NInv (pre ++ [c])
      { pair := b.pair, opens := b.opens, stack := rest,
        closes := arraySet b.closes closing pre.length } where
  opens_mono := n.opens_mono
  stack_desc := by
    have := n.stack_desc
    rw [hst] at this
    exact (List.pairwise_cons.mp this).2
  nested := by
    intro i j cj hij hj hc
    have hcm : closing ∈ b.stack := by rw [hst]; exact List.mem_cons_self _ _
    show i ∈ rest ∨ ∃ ci, (arraySet b.closes closing pre.length).getD i none = some ci ∧
      (ci < b.opens.getD j 0 ∨ cj < ci)
    change (arraySet b.closes closing pre.length).getD j none = some cj at hc
    by_cases ej : j = closing
    · have hic : i ≠ closing := by omega
      rw [arraySet_getD_ne _ _ _ _ hic]
      by_cases his : i ∈ b.stack
      · rw [hst] at his
        rcases List.mem_cons.mp his with e | e
        · exact absurd e hic
        · exact Or.inl e
      · obtain ⟨ci, e1, e2⟩ := n.before i closing (by omega) hcm his
        exact Or.inr ⟨ci, e1, Or.inl (by rw [ej]; exact e2)⟩
    · rw [arraySet_getD_ne _ _ _ _ ej] at hc
      rcases n.nested i j cj hij hj hc with hs | ⟨ci, e1, e2⟩
      · rw [hst] at hs
        rcases List.mem_cons.mp hs with e | e
        · right
          refine ⟨pre.length, by rw [e]; exact arraySet_getD_self _ _ _, Or.inr ?_⟩
          exact h.closed_lt j cj hj hc
        · exact Or.inl e
      · have hic : i ≠ closing := by
          intro e
          have := (h.stack_open closing hcm).2
          rw [← e, e1] at this
          cases this
        exact Or.inr ⟨ci, by rw [arraySet_getD_ne _ _ _ _ hic]; exact e1, e2⟩
  before := by
    intro i j hij hj hi
    have hd := n.stack_desc
    rw [hst] at hd
    have hjc : j < closing := (List.pairwise_cons.mp hd).1 j hj
    have hic : i ≠ closing := by omega
    have his : i ∉ b.stack := by
      rw [hst]
      intro hm2
      rcases List.mem_cons.mp hm2 with e | e
      · exact hic e
      · exact hi e
    obtain ⟨ci, e1, e2⟩ := n.before i j hij (by rw [hst]; exact List.mem_cons_of_mem _ hj) his
    exact ⟨ci, by
      show (arraySet b.closes closing pre.length).getD i none = some ci
      rw [arraySet_getD_ne _ _ _ _ hic]; exact e1, e2⟩
  open_mark := fun id hid => marks_snoc_some _ _ _ _ (n.open_mark id hid)
  close_mark := by
    intro id cl hc
    change (arraySet b.closes closing pre.length).getD id none = some cl at hc
    by_cases e : id = closing
    · rw [e, arraySet_getD_self] at hc
      rw [← Option.some.inj hc, marks_snoc_last, hm]
    · rw [arraySet_getD_ne _ _ _ _ e] at hc
      exact marks_snoc_some _ _ _ _ (n.close_mark id cl hc)

theorem NInv.nest_init : NInv [] Braces.init where
  opens_mono := fun _ _ _ hj => absurd hj (Nat.not_lt_zero _)
  stack_desc := List.Pairwise.nil
  nested := fun _ _ _ _ hj => absurd hj (Nat.not_lt_zero _)
  before := fun _ _ _ hj => absurd hj (List.not_mem_nil _)
  open_mark := fun _ hid => absurd hid (Nat.not_lt_zero _)
  close_mark := fun id c hc => by
    simp [Braces.init] at hc

/-- The nesting invariant is carried by the loop of the brace matching pass. -/
theorem matchLoop_nest (cs pre : Str) (b : Braces) (h : BInv pre b) (n : NInv pre b) :
    match matchLoop cs pre.length (cursorEnd none pre) b with
    | some r => NInv (pre ++ cs) r.1
    | none => True := by
  induction cs generalizing pre b with
  | nil => simpa [matchLoop] using n
  | cons c cs ih =>
    have hlen : (pre ++ [c]).length = pre.length + 1 := by simp
    have hcur : cursorEnd none (pre ++ [c]) = (quoted (cursorEnd none pre) c).2 :=
      cursorEnd_snoc _ _ _
    have happ : pre ++ c :: cs = (pre ++ [c]) ++ cs := by simp
    unfold matchLoop
    simp only []
    by_cases hq : (quoted (cursorEnd none pre) c).1 = true
    · have hm : markAfter pre c = none := by simp [markAfter, hq]
      have := ih (pre ++ [c]) b (h.skip c (by rw [hm]; decide) (by rw [hm]; decide)) (n.nest_skip c)
      rw [hlen, hcur, ← happ] at this
      simpa only [hq, if_true] using this
    · simp only [hq, Bool.false_eq_true, if_false]
      have hm : markAfter pre c = some c := by simp [markAfter, hq]
      by_cases ho : c = '{'
      · simp only [ho, if_true]
        have := ih (pre ++ [c]) _ (h.open c (by rw [hm, ho])) (n.nest_open h c (by rw [hm, ho]))
        rw [hlen, hcur, ← happ, ho] at this
        exact this
      · simp only [ho, if_false]
        by_cases hc : c = '}'
        · subst hc
          simp only [if_true]
          cases hst : b.stack with
          | nil => simp only []
          | cons closing rest =>
            simp only []
            have := ih (pre ++ [_]) _ (h.close _ hm closing rest hst)
              (n.nest_close h _ hm closing rest hst)
            rw [hlen, hcur, ← happ] at this
            exact this
        · simp only [hc, if_false]
          have := ih (pre ++ [c]) b
            (h.skip c (by rw [hm]; simpa using ho) (by rw [hm]; simpa using hc)) (n.nest_skip c)
          rw [hlen, hcur, ← happ] at this
          exact this

/-- What a successful brace matching pass leaves: both invariants for the whole
text, an empty stack, and the cursor after the whole text. -/
theorem matchBraces_ok (text : Str) (b : Braces) (quote : Option Char)
    (h : matchBraces text = BraceResult.ok b quote) :
    BInv text b ∧ NInv text b ∧ b.stack = [] ∧ quote = cursorEnd none text := by
  have h1 := matchLoop_spec text [] Braces.init BInv.init
  have h2 := matchLoop_nest text [] Braces.init BInv.init NInv.nest_init
  simp only [List.length_nil, List.nil_append] at h1 h2
  have hc : cursorEnd none [] = none := rfl
  rw [hc] at h1 h2
  unfold matchBraces at h
  cases hm : matchLoop text 0 none Braces.init with
  | none => rw [hm] at h; cases h
  | some r =>
    rw [hm] at h h1 h2
    obtain ⟨b1, q1⟩ := r
    simp only at h h1 h2
    cases hst : b1.stack with
    | nil =>
      rw [hst] at h
      injection h with hb hq
      subst hb hq
      exact ⟨h1.1, h2, hst, h1.2⟩
    | cons x rest =>
      rw [hst] at h
      cases h

theorem getD_of_getElem? {l : List Nat} {i o : Nat} (h : l[i]? = some o) :
    i < l.length ∧ l.getD i 0 = o := by
  have hi : i < l.length := by
    by_contra hc
    rw [List.getElem?_eq_none (by omega)] at h
    cases h
  refine ⟨hi, ?_⟩
  rw [List.getD_eq_getElem?_getD, h]
  rfl

theorem getD_of_getElem?_some {l : List (Option Nat)} {i c : Nat} (h : l[i]? = some (some c)) :
    l.getD i none = some c := by
  rw [List.getD_eq_getElem?_getD, h]
  rfl

/-- C14: when the brace matching pass succeeds, `open` is strictly increasing in
the pair id, and of two pairs `i < j` the later one lies either after the
earlier one (`close[i] < open[j]`) or strictly inside it
(`open[i] < open[j] < close[j] < close[i]`): two spans never overlap partly. -/
theorem matchBraces_nesting (text : Str) (b : Braces) (quote : Option Char)
    (h : matchBraces text = BraceResult.ok b quote) :
    (∀ i j oi oj : Nat, i < j → b.opens[i]? = some oi → b.opens[j]? = some oj → oi < oj) ∧
    (∀ i j oi oj ci cj : Nat, i < j → b.opens[i]? = some oi → b.opens[j]? = some oj →
      b.closes[i]? = some (some ci) → b.closes[j]? = some (some cj) →
      ci < oj ∨ (oi < oj ∧ oj < cj ∧ cj < ci)) := by
  obtain ⟨hb, hn, hst, _⟩ := matchBraces_ok text b quote h
  have hmono : ∀ i j oi oj : Nat, i < j → b.opens[i]? = some oi → b.opens[j]? = some oj → oi < oj := by
    intro i j oi oj hij hi hj
    obtain ⟨_, e1⟩ := getD_of_getElem? hi
    obtain ⟨hjl, e2⟩ := getD_of_getElem? hj
    rw [← e1, ← e2]
    exact hn.opens_mono i j hij hjl
  refine ⟨hmono, ?_⟩
  intro i j oi oj ci cj hij hi hj hci hcj
  obtain ⟨hjl, e2⟩ := getD_of_getElem? hj
  have hcj' := getD_of_getElem?_some hcj
  have hci' := getD_of_getElem?_some hci
  rcases hn.nested i j cj hij hjl hcj' with hs | ⟨c1, e1, hx⟩
  · rw [hst] at hs
    cases hs
  · rw [hci'] at e1
    have ec : ci = c1 := Option.some.inj e1
    rw [← ec, e2] at hx
    rcases hx with hx | hx
    · exact Or.inl hx
    · right
      refine ⟨hmono i j oi oj hij hi hj, ?_, hx⟩
      obtain ⟨c2, f1, f2, _⟩ := hb.closed j hjl (by rw [hst]; exact List.not_mem_nil _)
      rw [hcj'] at f1
      rw [Option.some.inj f1, ← e2]
      exact f2

/-- C14, at the text `a{b{c}}{d}`: pair 1 lies inside pair 0, pair 2 after
both. -/
theorem matchBraces_nesting_witness :
    matchBraces "a\x7bb\x7bc\x7d\x7d\x7bd\x7d".toList =
        BraceResult.ok
          { pair := 3, opens := [1, 3, 7], stack := [], closes := [some 6, some 5, some 9] }
          none ∧
    ((∀ i j oi oj : Nat, i < j → ([1, 3, 7] : List Nat)[i]? = some oi →
        ([1, 3, 7] : List Nat)[j]? = some oj → oi < oj) ∧
      (∀ i j oi oj ci cj : Nat, i < j → ([1, 3, 7] : List Nat)[i]? = some oi →
        ([1, 3, 7] : List Nat)[j]? = some oj →
        ([some 6, some 5, some 9] : List (Option Nat))[i]? = some (some ci) →
        ([some 6, some 5, some 9] : List (Option Nat))[j]? = some (some cj) →
        ci < oj ∨ (oi < oj ∧ oj < cj ∧ cj < ci))) :=
  ⟨by decide,
    matchBraces_nesting "a\x7bb\x7bc\x7d\x7d\x7bd\x7d".toList
      { pair := 3, opens := [1, 3, 7], stack := [], closes := [some 6, some 5, some 9] } none
      (by decide)⟩

/-! ### Progress of the tree builder -/

theorem nextOpen_le (opens : List Nat) (pos stop : Nat)
    (h : nextOpen opens pos stop < opens.length) :
    opens.getD (nextOpen opens pos stop) 0 ≤ stop := by
  unfold nextOpen at h ⊢
  simp only [] at h ⊢
  split_ifs at h ⊢ with hc
  · exact absurd h (Nat.lt_irrefl _)
  · by_contra hgt
    exact hc ⟨h, by omega⟩

/-- A round of the loop that finds a brace pair: the pair is closed, it lies
after `pos` and ends before `stop`. -/
theorem round_pair {text : Str} {b : Braces} (hb : BInv text b) (hn : NInv text b)
    (hst : b.stack = []) {start pos stop : Nat} (hr : RangeOk b text.length start pos stop)
    (hi : nextOpen b.opens pos stop < b.opens.length) :
    ∃ cl, b.closes.getD (nextOpen b.opens pos stop) none = some cl ∧
      pos < b.opens.getD (nextOpen b.opens pos stop) 0 ∧
      b.opens.getD (nextOpen b.opens pos stop) 0 < cl ∧ cl < stop := by
  obtain ⟨h1, h2, h3, h4⟩ := hr
  have hgt := nextOpen_lt b.opens pos stop hi
  have hle := nextOpen_le b.opens pos stop hi
  obtain ⟨cl, e1, e2, _⟩ := hb.closed _ hi (by rw [hst]; exact List.not_mem_nil _)
  refine ⟨cl, e1, hgt, e2, ?_⟩
  rcases h4 with e | ⟨k, hk, hck, hok⟩
  · rw [e]
    exact hb.closed_lt _ cl hi e1
  · have hki : k < nextOpen b.opens pos stop := by
      by_contra hge
      rcases Nat.lt_or_ge (nextOpen b.opens pos stop) k with hlt | hge2
      · have := hn.opens_mono _ k hlt hk
        omega
      · have e : k = nextOpen b.opens pos stop := by omega
        rw [e] at hok
        omega
    rcases hn.nested k _ cl hki hi e1 with hs | ⟨ck, f1, f2⟩
    · rw [hst] at hs
      cases hs
    · rw [hck] at f1
      have e : stop = ck := Option.some.inj f1
      rw [← e] at f2
      rcases f2 with f2 | f2
      · omega
      · exact f2

theorem visits_range {text : Str} {b : Braces} (hb : BInv text b) (hn : NInv text b)
    (hst : b.stack = []) (w0 : World) (q0 : Option Char) (this : Nat)
    {st : World × Option Char} {parent start pos stop : Nat}
    (hv : Visits text b.opens b.closes w0 q0 this st parent start pos stop) :
    RangeOk b text.length start pos stop := by
  induction hv with
  | root => exact ⟨Nat.le_refl _, Nat.zero_le _, Nat.le_refl _, Or.inl rfl⟩
  | nested _ hlt hi hc ih =>
    obtain ⟨cl, e1, e2, e3, e4⟩ := round_pair hb hn hst ih hi
    rw [hc] at e1
    have e : _ = cl := Option.some.inj e1
    subst e
    exact ⟨Nat.le_refl _, by omega, by have := ih.2.2.1; omega, Or.inr ⟨_, hi, hc, by omega⟩⟩
  | next _ hlt hi hc _ ih =>
    obtain ⟨cl, e1, e2, e3, e4⟩ := round_pair hb hn hst ih hi
    rw [hc] at e1
    have e : _ = cl := Option.some.inj e1
    subst e
    exact ⟨by have := ih.1; omega, by omega, ih.2.2.1, ih.2.2.2⟩
  | last _ hlt hi ih =>
    exact ⟨by have := ih.1; omega, Nat.le_refl _, ih.2.2.1, ih.2.2.2⟩

/-- C13: the tree builder terminates. When the brace matching pass succeeds,
`parse1(this, 0, text.length)` returns. At every loop state reached from it,
`start ≤ pos ≤ end ≤ text.length`; a round (`pos < end`) that finds no pair
sets `pos` to `end`, and a round that finds the pair `i` has `close[i]`
recorded, sets `pos` to `close[i] + 1`, which is larger than `pos` and at most
`end`, and makes its nested call on `[open[i] + 1, close[i])`, a range that
lies inside `[start, end)` and is strictly shorter. -/
theorem parse1_progress (w : World) (this : Nat) (text : Str) (b : Braces)
    (quote : Option Char) (h : matchBraces text = BraceResult.ok b quote) :
    (∃ st1, parse1 text b.opens b.closes (text.length + 1) (w, quote) this 0 text.length =
      some st1) ∧
    ∀ (st : World × Option Char) (parent start pos stop : Nat),
      Visits text b.opens b.closes w quote this st parent start pos stop →
      start ≤ pos ∧ pos ≤ stop ∧ stop ≤ text.length ∧
      (pos < stop → nextOpen b.opens pos stop < b.opens.length →
        ∃ cl, b.closes.getD (nextOpen b.opens pos stop) none = some cl ∧
          pos < cl + 1 ∧ cl + 1 ≤ stop ∧
          start ≤ b.opens.getD (nextOpen b.opens pos stop) 0 + 1 ∧
          b.opens.getD (nextOpen b.opens pos stop) 0 + 1 ≤ cl ∧ cl ≤ stop ∧
          cl - (b.opens.getD (nextOpen b.opens pos stop) 0 + 1) < stop - start) := by
  obtain ⟨hb, hn, hst, _⟩ := matchBraces_ok text b quote h
  constructor
  · exact parse1_returns text b.opens b.closes text.length
      (by
        intro i cl hi hc
        obtain ⟨c, e1, e2, _⟩ := hb.closed i hi (by rw [hst]; exact List.not_mem_nil _)
        rw [hc] at e1
        rw [Option.some.inj e1]
        exact ⟨e2, hb.closed_lt i c hi (by rw [hc, Option.some.inj e1])⟩)
      (text.length + 1) (w, quote) this 0 text.length (Nat.le_refl _)
      (Nat.zero_le _) (Nat.le_refl _)
  · intro st parent start pos stop hv
    have hr := visits_range hb hn hst w quote this hv
    refine ⟨hr.1, hr.2.1, hr.2.2.1, ?_⟩
    intro hlt hi
    obtain ⟨cl, e1, e2, e3, e4⟩ := round_pair hb hn hst hr hi
    have := hr.1
    exact ⟨cl, e1, by omega, by omega, by omega, by omega, by omega, by omega⟩

/-- C13, at the text `a{b{c}}d`: the call returns, and the first round of the
outer loop (a reached state) finds pair 0, recurses on `[2, 7)` and goes on at
position 8. -/
theorem parse1_progress_witness :
    matchBraces "a\x7bb\x7bc\x7d\x7dd".toList =
        BraceResult.ok { pair := 2, opens := [1, 3], stack := [], closes := [some 6, some 5] }
          none ∧
    (∃ st1, parse1 "a\x7bb\x7bc\x7d\x7dd".toList [1, 3] [some 6, some 5] (8 + 1) (emptyRoot, none)
      0 0 8 = some st1) ∧
    (0 ≤ 0 ∧ 0 ≤ 8 ∧ 8 ≤ 8 ∧
      (0 < 8 → nextOpen [1, 3] 0 8 < 2 →
        ∃ cl, ([some 6, some 5] : List (Option Nat)).getD (nextOpen [1, 3] 0 8) none = some cl ∧
          0 < cl + 1 ∧ cl + 1 ≤ 8 ∧
          0 ≤ ([1, 3] : List Nat).getD (nextOpen [1, 3] 0 8) 0 + 1 ∧
          ([1, 3] : List Nat).getD (nextOpen [1, 3] 0 8) 0 + 1 ≤ cl ∧ cl ≤ 8 ∧
          cl - (([1, 3] : List Nat).getD (nextOpen [1, 3] 0 8) 0 + 1) < 8 - 0)) :=
  ⟨by decide,
    (parse1_progress emptyRoot 0 "a\x7bb\x7bc\x7d\x7dd".toList
      { pair := 2, opens := [1, 3], stack := [], closes := [some 6, some 5] } none
      (by decide)).1,
    (parse1_progress emptyRoot 0 "a\x7bb\x7bc\x7d\x7dd".toList
      { pair := 2, opens := [1, 3], stack := [], closes := [some 6, some 5] } none
      (by decide)).2 (emptyRoot, none) 0 0 0 8 Visits.root⟩

/-! ### Headers that hold a recorded brace -/

/-- C15, what the code does: a brace that stands exactly at `pos` is not found
by the loop of line 445 and becomes part of the header. On `{a}` the first
round of the outer loop hands the whole text to `parse2`, with the braces
recorded at the positions 0 and 2. On `a{b}{c}` the outer loop reaches
position 4, the recorded opening brace of pair 1, and hands `{c}` to
`parse2`. -/
theorem header_with_recorded_brace :
    (matchBraces "\x7ba\x7d".toList =
        BraceResult.ok { pair := 1, opens := [0], stack := [], closes := [some 2] } none ∧
      Visits "\x7ba\x7d".toList [0] [some 2] emptyRoot none 0 (emptyRoot, none) 0 0 0 3 ∧
      headAt "\x7ba\x7d".toList [0] (nextOpen [0] 0 3) 0 3 = "\x7ba\x7d".toList) ∧
    (matchBraces "a\x7bb\x7d\x7bc\x7d".toList =
        BraceResult.ok { pair := 2, opens := [1, 4], stack := [], closes := [some 3, some 6] }
          none ∧
      (∃ st, Visits "a\x7bb\x7d\x7bc\x7d".toList [1, 4] [some 3, some 6] emptyRoot none 0 st 0 0 4
        7) ∧
      headAt "a\x7bb\x7d\x7bc\x7d".toList [1, 4] (nextOpen [1, 4] 4 7) 4 7 =
        "\x7bc\x7d".toList) := by
  refine ⟨⟨by decide, Visits.root, by decide⟩, by decide, ?_, by decide⟩
  have hv : Visits "a\x7bb\x7d\x7bc\x7d".toList [1, 4] [some 3, some 6] emptyRoot none 0
      (emptyRoot, none) 0 0 0 7 := Visits.root
  have hp : ∃ st1, parse1 "a\x7bb\x7d\x7bc\x7d".toList [1, 4] [some 3, some 6] 7
      ((nextHead "a\x7bb\x7d\x7bc\x7d".toList [1, 4] (emptyRoot, none) 0 0 7).1,
        (nextHead "a\x7bb\x7d\x7bc\x7d".toList [1, 4] (emptyRoot, none) 0 0 7).2.1)
      (nextHead "a\x7bb\x7d\x7bc\x7d".toList [1, 4] (emptyRoot, none) 0 0 7).2.2
      (([1, 4] : List Nat).getD (nextOpen [1, 4] 0 7) 0 + 1) 3 = some st1 :=
    Option.isSome_iff_exists.mp (by decide)
  obtain ⟨st1, e1⟩ := hp
  exact ⟨st1, Visits.next hv (by decide) (by decide) (by decide) e1⟩

/-! ### Characters after a closed block -/

theorem scanStep_text (parent : Nat) (s : Scan) (c : Char) (hm : s.mode = Mode.TEXT)
    (hc : (quoted s.quote c).1 = false → c ≠ ')') :
    scanStep parent s c =
      { s with quote := (quoted s.quote c).2,
               content := { s.content with text := s.content.text ++ [c] } } := by
  obtain ⟨w, q, k, m, o⟩ := s
  simp only at hm hc
  subst hm
  by_cases hr : (quoted q c).1 = true
  · simp [scanStep, hr, Content.push]
  · simp only [Bool.not_eq_true] at hr
    have := hc hr
    simp [scanStep, hr, Content.push, Mode.open3, this]

theorem scanFold_text (parent : Nat) (cs : Str) (s : Scan) (hm : s.mode = Mode.TEXT)
    (hc : some ')' ∉ marks s.quote cs) :
    cs.foldl (scanStep parent) s =
      { s with quote := cursorEnd s.quote cs,
               content := { s.content with text := s.content.text ++ cs } } := by
  induction cs generalizing s with
  | nil => simp [cursorEnd]
  | cons c cs ih =>
    have h1 : (quoted s.quote c).1 = false → c ≠ ')' := by
      intro hr e
      apply hc
      subst e
      simp [marks, hr]
    have h2 : some ')' ∉ marks (quoted s.quote c).2 cs := by
      intro hmem
      apply hc
      simp only [marks, List.mem_cons]
      exact Or.inr hmem
    rw [List.foldl_cons, scanStep_text parent s c hm h1, ih]
    · simp [cursorEnd]
    · exact hm
    · exact h2

theorem scanStep_paren (parent : Nat) (w : World) (k : Content) (m : Mode) (o : Option Nat)
    (hm : m.open3 = true) :
    scanStep parent { world := w, quote := none, content := k, mode := m, obj := o } '(' =
      { world := w, quote := none, content := k, mode := Mode.TEXT, obj := o } := by
  simp [scanStep, quoted, SQ, DQ, hm]

theorem scanStep_paren_close (parent : Nat) (w : World) (k : Content) (o : Option Nat) :
    scanStep parent { world := w, quote := none, content := k, mode := Mode.TEXT, obj := o } ')' =
      { world := w, quote := none, content := k, mode := Mode.NA, obj := o } := by
  simp [scanStep, quoted, SQ, DQ, Mode.open3]

/-- A character read in mode NA either is, outside quotes, one of the
characters that leave the mode (white space, `<`, `(`, `#`), or leaves the four
buffers and the mode as they are. -/
theorem scanStep_na (parent : Nat) (s : Scan) (c : Char) (hm : s.mode = Mode.NA)
    (hc : ¬ ((quoted s.quote c).1 = false ∧ (c.toNat ≤ 32 ∨ c = '<' ∨ c = '(' ∨ c = '#'))) :
    scanStep parent s c = { s with quote := (quoted s.quote c).2 } := by
  obtain ⟨w, q, k, m, o⟩ := s
  simp only at hm hc
  subst hm
  by_cases hr : (quoted q c).1 = true
  · simp [scanStep, hr, Content.push]
  · simp only [Bool.not_eq_true] at hr
    simp only [hr, true_and, not_or] at hc
    obtain ⟨h1, h2, h3, h4⟩ := hc
    simp [scanStep, hr, Content.push, Mode.open3, h1, h2, h3, h4]

theorem alnum_toNat (c : Char) (h : c.isAlphanum = true) :
    (48 ≤ c.toNat ∧ c.toNat ≤ 57) ∨ (65 ≤ c.toNat ∧ c.toNat ≤ 90) ∨
      (97 ≤ c.toNat ∧ c.toNat ≤ 122) := by
  simp only [Char.isAlphanum, Char.isAlpha, Char.isUpper, Char.isLower, Char.isDigit,
    Bool.or_eq_true, Bool.and_eq_true, decide_eq_true_eq] at h
  rcases h with (⟨h1, h2⟩ | ⟨h1, h2⟩) | ⟨h1, h2⟩
  · exact Or.inr (Or.inl ⟨h1, h2⟩)
  · exact Or.inr (Or.inr ⟨h1, h2⟩)
  · exact Or.inl ⟨h1, h2⟩

theorem scanFold_na (parent : Nat) (x : Str) (s : Scan) (hm : s.mode = Mode.NA)
    (hq : s.quote = none) (hx : ∀ c ∈ x, c.isAlphanum = true) :
    x.foldl (scanStep parent) s = s := by
  induction x generalizing s with
  | nil => rfl
  | cons c cs ih =>
    have hn := alnum_toNat c (hx c (List.mem_cons_self _ _))
    have hne : ∀ d : Char, d.toNat < 48 ∨ (57 < d.toNat ∧ d.toNat < 65) → c ≠ d := by
      intro d hd e
      subst e
      omega
    have hqc : quoted s.quote c = (false, none) := by
      rw [hq]
      exact quoted_plain c (hne _ (by decide)) (hne _ (by decide))
    have hstep : scanStep parent s c = s := by
      rw [scanStep_na parent s c hm]
      · rw [hqc]
        obtain ⟨w, q, k, m, o⟩ := s
        simp only at hq
        rw [hq]
      · rintro ⟨_, h | h | h | h⟩
        · omega
        · exact hne _ (by decide) h
        · exact hne _ (by decide) h
        · exact hne _ (by decide) h
    rw [List.foldl_cons, hstep]
    exact ih s hm hq (fun d hd => hx d (List.mem_cons_of_mem _ hd))

theorem scanHead_tag_text (parent : Nat) (w : World) (T P : Str) (hT : ∀ c ∈ T, plainChar c)
    (hP : some ')' ∉ marks none P) (hq : cursorEnd none P = none) :
    scanHead parent w none (T ++ ('(' :: (P ++ [')']))) =
      { world := w, quote := none, content := { tag := T, param := [], text := P, id := [] },
        mode := Mode.NA, obj := none } := by
  have h0 := scanHead_tag parent w T hT
  unfold scanHead at h0 ⊢
  rw [List.foldl_append, h0, List.foldl_cons, scanStep_paren parent _ _ Mode.TAG _ rfl,
    List.foldl_append]
  rw [scanFold_text parent P
    { world := w, quote := none, content := { tag := T, param := [], text := [], id := [] },
      mode := Mode.TEXT, obj := none } rfl hP]
  simp only [hq, List.nil_append, List.foldl_cons, List.foldl_nil]
  rw [scanStep_paren_close]

/-- C20, as stated, fails for a payload that holds a quote character: in
`b(don't)x` the apostrophe opens a quote, the `)` is quoted and the block is
not closed, so `x` is appended to the TEXT buffer and the payload handed to
`html` differs from the one of `b(don't)`. -/
theorem after_block_counterexample :
    parse2 emptyRoot none 0 "b(don't)x".toList ≠ parse2 emptyRoot none 0 "b(don't)".toList ∧
    (parse2 emptyRoot none 0 "b(don't)x".toList).1.calls =
      [SinkCall.insert 0 "b".toList, SinkCall.html 1 "don't)x".toList] ∧
    (parse2 emptyRoot none 0 "b(don't)".toList).1.calls =
      [SinkCall.insert 0 "b".toList, SinkCall.html 1 "don't)".toList] := by
  decide

/-- C20, amended: when the block is closed, the characters after it are
dropped. For a tag `t`, a payload `p` with balanced quotes and no `)` outside
quotes, an attribute text `a` with balanced quotes and no `>` outside quotes,
and a run `x` of letters or digits, `parse2` on `t(p)x` leaves the same world
(same calls), cursor and object as on `t(p)`, and on `t<a>x` the same as on
`t<a>`. In mode NA a character that is not, outside quotes, white space, `<`,
`(` or `#` changes neither the four buffers nor the mode. -/
theorem parse2_after_block (w : World) (parent : Nat) (t p a x : Str)
    (ht : ∀ c ∈ t, plainChar c)
    (hp : cursorEnd none p = none ∧ some ')' ∉ marks none p)
    (ha : cursorEnd none a = none ∧ some '>' ∉ marks none a)
    (hx : ∀ c ∈ x, c.isAlphanum = true) :
    parse2 w none parent ((t ++ ('(' :: (p ++ [')']))) ++ x) =
      parse2 w none parent (t ++ ('(' :: (p ++ [')']))) ∧
    parse2 w none parent ((t ++ ('<' :: (a ++ ['>']))) ++ x) =
      parse2 w none parent (t ++ ('<' :: (a ++ ['>']))) ∧
    ∀ (s : Scan) (c : Char), s.mode = Mode.NA →
      ¬ ((quoted s.quote c).1 = false ∧ (c.toNat ≤ 32 ∨ c = '<' ∨ c = '(' ∨ c = '#')) →
      (scanStep parent s c).content = s.content ∧ (scanStep parent s c).mode = Mode.NA := by
  refine ⟨?_, ?_, ?_⟩
  · have h1 := scanHead_tag_text parent w t p ht hp.2 hp.1
    have h2 : scanHead parent w none ((t ++ ('(' :: (p ++ [')']))) ++ x) =
        scanHead parent w none (t ++ ('(' :: (p ++ [')']))) := by
      unfold scanHead at h1 ⊢
      rw [List.foldl_append, h1]
      exact scanFold_na parent x _ rfl rfl hx
    unfold parse2
    rw [h2]
  · have h1 := scanHead_tag_block parent w t a ht ha.2 ha.1
    have h2 : scanHead parent w none ((t ++ ('<' :: (a ++ ['>']))) ++ x) =
        scanHead parent w none (t ++ ('<' :: (a ++ ['>']))) := by
      unfold scanHead at h1 ⊢
      rw [List.foldl_append, h1]
      exact scanFold_na parent x _ rfl rfl hx
    unfold parse2
    rw [h2]
  · intro s c hm hc
    rw [scanStep_na parent s c hm hc]
    exact ⟨rfl, hm⟩

/-- C20 amended, at `h1(Title)x9` and `div<a:'b'>x9`, and at the character `y`
read in mode NA. -/
theorem parse2_after_block_witness :
    parse2 emptyRoot none 0 "h1(Title)x9".toList = parse2 emptyRoot none 0 "h1(Title)".toList ∧
    parse2 emptyRoot none 0 "div<a:'b'>x9".toList =
      parse2 emptyRoot none 0 "div<a:'b'>".toList ∧
    (scanStep 0 (scanHead 0 emptyRoot none "h1(Title)".toList) 'y').content =
      (scanHead 0 emptyRoot none "h1(Title)".toList).content :=
  ⟨(parse2_after_block emptyRoot 0 "h1".toList "Title".toList "a:'b'".toList "x9".toList
      (by decide) (by decide) (by decide) (by decide)).1,
    (parse2_after_block emptyRoot 0 "div".toList "Title".toList "a:'b'".toList "x9".toList
      (by decide) (by decide) (by decide) (by decide)).2.1,
    ((parse2_after_block emptyRoot 0 "div".toList "Title".toList "a:'b'".toList "x9".toList
      (by decide) (by decide) (by decide) (by decide)).2.2
      (scanHead 0 emptyRoot none "h1(Title)".toList) 'y' (by decide) (by decide)).1⟩

/-! ### The shared cursor stays consistent -/

theorem cursor_is_quote (a : Str) (q : Option Char)
    (hq : ∀ x, q = some x → x = SQ ∨ x = DQ) :
    ∀ x, cursorEnd q a = some x → x = SQ ∨ x = DQ := by
  induction a generalizing q with
  | nil => exact hq
  | cons c cs ih =>
    intro x hx
    apply ih (quoted q c).2 _ x hx
    intro y hy
    cases q with
    | none =>
      by_cases hc : c = SQ ∨ c = DQ
      · simp only [quoted, hc, if_true, Option.some.injEq] at hy
        rw [← hy]; exact hc
      · simp [quoted, hc] at hy
    | some z =>
      simp only [quoted] at hy
      split_ifs at hy
      exact hq y hy

theorem space_not_quote (c : Char) (h : isJsSpace c = true) : c ≠ SQ ∧ c ≠ DQ := by
  constructor <;> intro e <;> rw [e] at h <;> revert h <;> decide

theorem cursorEnd_spaces (r : Str) (q : Option Char) (hq : ∀ x, q = some x → x = SQ ∨ x = DQ)
    (hr : ∀ c ∈ r, isJsSpace c = true) : cursorEnd q r = q := by
  cases q with
  | none => exact (marks_plain r (fun c hc => space_not_quote c (hr c hc))).2
  | some x =>
    apply cursorEnd_inside
    intro hm
    have h1 := space_not_quote x (hr x hm)
    rcases hq x rfl with e | e
    · exact h1.1 e
    · exact h1.2 e

theorem mark_cursor (text : Str) (p : Nat) (c : Char)
    (h : (marks none text)[p]? = some (some c)) : CursorAt text p ∧ CursorAt text (p + 1) := by
  have hp : p < text.length := by
    by_contra hc
    rw [List.getElem?_eq_none (by rw [marks_length]; omega)] at h
    cases h
  have hsplit : text = text.take p ++ (text[p] :: text.drop (p + 1)) := by
    rw [← List.drop_eq_getElem_cons hp, List.take_append_drop]
  have hlen : (text.take p).length = p := by
    rw [List.length_take]; omega
  have hm : (marks none text)[p]? =
      some (if (quoted (cursorEnd none (text.take p)) text[p]).1 then none else some text[p]) := by
    conv_lhs => rw [hsplit, marks_append]
    rw [List.getElem?_append_right (by rw [marks_length, hlen]), marks_length, hlen,
      Nat.sub_self]
    simp only [marks, List.getElem?_cons_zero]
  rw [hm] at h
  have hr : (quoted (cursorEnd none (text.take p)) text[p]).1 = false := by
    by_contra hc
    simp only [Bool.not_eq_false] at hc
    rw [hc] at h
    simp at h
  obtain ⟨h1, h2⟩ := quoted_none_snd _ _ hr
  refine ⟨h2, ?_⟩
  unfold CursorAt
  have e : text.take (p + 1) = text.take p ++ [text[p]] := by
    rw [List.take_succ, List.getElem?_eq_getElem hp]
    rfl
  rw [e, cursorEnd_snoc, h1]

theorem trim_decomp (s : Str) :
    ∃ l r, s = l ++ (trim s ++ r) ∧ (∀ c ∈ l, isJsSpace c = true) ∧
      (∀ c ∈ r, isJsSpace c = true) := by
  refine ⟨s.takeWhile isJsSpace,
    (((s.dropWhile isJsSpace).reverse).takeWhile isJsSpace).reverse, ?_, ?_, ?_⟩
  · unfold trim
    have h1 := List.takeWhile_append_dropWhile isJsSpace ((s.dropWhile isJsSpace).reverse)
    have h2 : (s.dropWhile isJsSpace) =
        (((s.dropWhile isJsSpace).reverse).dropWhile isJsSpace).reverse ++
          (((s.dropWhile isJsSpace).reverse).takeWhile isJsSpace).reverse := by
      rw [← List.reverse_append, h1, List.reverse_reverse]
    rw [← h2, List.takeWhile_append_dropWhile]
  · exact fun c hc => (List.mem_takeWhile_imp hc)
  · intro c hc
    rw [List.mem_reverse] at hc
    exact List.mem_takeWhile_imp hc

theorem substring_le (text : Str) (pos e : Nat) (h : pos ≤ e) :
    substring text pos e = (text.drop pos).take (e - pos) := by
  unfold substring
  rw [Nat.min_eq_left h, Nat.max_eq_right h]

/-- A header cut out between two positions at which the brace matching pass is
outside a quote: the trimmed header stands in the text at an offset at which
the pass is outside a quote, and its quotes are balanced. -/
theorem header_cursor (text : Str) (pos e : Nat) (hpe : pos ≤ e)
    (h1 : CursorAt text pos) (h2 : CursorAt text e) :
    ∃ off, (text.drop off).take (trim (substring text pos e)).length =
        trim (substring text pos e) ∧
      CursorAt text off ∧ cursorEnd none (trim (substring text pos e)) = none := by
  rw [substring_le text pos e hpe]
  obtain ⟨l, r, hs, hl, hr⟩ := trim_decomp ((text.drop pos).take (e - pos))
  generalize hh : trim ((text.drop pos).take (e - pos)) = head at hs
  have htake : text.take e = text.take pos ++ (text.drop pos).take (e - pos) := by
    have := List.take_add text pos (e - pos)
    rw [show pos + (e - pos) = e by omega] at this
    exact this
  have hsub : cursorEnd none ((text.drop pos).take (e - pos)) = none := by
    unfold CursorAt at h1 h2
    rw [htake, cursorEnd_append, h1] at h2
    exact h2
  have hlq : cursorEnd none l = none :=
    (marks_plain l (fun c hc => space_not_quote c (hl c hc))).2
  have hhead : cursorEnd none head = none := by
    rw [hs, cursorEnd_append, hlq, cursorEnd_append] at hsub
    have hq := cursor_is_quote head none (fun x hx => by cases hx)
    rw [cursorEnd_spaces r _ hq hr] at hsub
    exact hsub
  have hdrop : text.drop pos = l ++ (head ++ (r ++ text.drop e)) := by
    have h3 := List.take_append_drop (e - pos) (text.drop pos)
    rw [List.drop_drop, show pos + (e - pos) = e by omega] at h3
    rw [← h3, hs]
    simp
  have hll : l.length ≤ (text.drop pos).length := by
    rw [hdrop]; simp
  refine ⟨pos + l.length, ?_, ?_, hhead⟩
  · have : text.drop (pos + l.length) = head ++ (r ++ text.drop e) := by
      rw [← List.drop_drop, hdrop, List.drop_left]
    rw [this, List.take_left]
  · unfold CursorAt at h1 ⊢
    have : text.take (pos + l.length) = text.take pos ++ l := by
      rw [List.take_add, hdrop, List.take_left]
    rw [this, cursorEnd_append, h1, hlq]

theorem flush_cursor (parent : Nat) (cs : Str) (s : Scan) (hs : s.paramOk)
    (hend : cursorEnd s.quote cs = none) :
    ∀ f ∈ flushStates parent s cs,
      f.quote = none ∧ (attrScan f.quote (elemParam f.content)).quote = none := by
  have key : ∀ f : Scan, f.quote = none → cursorEnd none f.content.param = none →
      f.quote = none ∧ (attrScan f.quote (elemParam f.content)).quote = none := by
    intro f h1 h2
    refine ⟨h1, ?_⟩
    rw [attrScan_quote, h1]
    exact cursorEnd_elemParam _ h2
  induction cs generalizing s with
  | nil =>
    intro f hf
    rw [List.mem_singleton.mp hf]
    have hq : s.quote = none := hend
    unfold Scan.paramOk at hs
    refine key s hq ?_
    rw [hs, hq]
    simp
  | cons c cs ih =>
    intro f hf
    unfold flushStates at hf
    rcases List.mem_append.mp hf with h | h
    · split_ifs at h with hc
      · rw [List.mem_singleton.mp h]
        obtain ⟨hr2, _⟩ := quoted_none_snd _ _ hc.1
        unfold Scan.paramOk at hs
        have hm := open3_ne_param _ hc.2.2
        simp only [hm, if_false] at hs
        exact key _ hr2 hs
      · cases h
    · obtain ⟨h1, h2⟩ := scanStep_quote_paramOk parent s c hs
      apply ih (scanStep parent s c) h2 _ f h
      rw [h1]
      exact hend

theorem parse2_cursor (w : World) (parent : Nat) (head : Str) (h : cursorEnd none head = none) :
    (parse2 w none parent head).2.1 = none := by
  obtain ⟨h1, h2⟩ := scanFold_quote_paramOk parent head (Scan.init w none) rfl
  have hq : (scanHead parent w none head).quote = none := by
    rw [scanHead_quote]; exact h
  unfold Scan.paramOk at h2
  have hp : cursorEnd none (scanHead parent w none head).content.param = none := by
    unfold scanHead
    rw [h2]
    split_ifs
    · exact hq
    · rfl
  exact createElement_quote parent _ hq hp

theorem headerAgrees_of (text : Str) (w : World) (parent : Nat) (head : Str) (off : Nat)
    (h1 : (text.drop off).take head.length = head) (h2 : CursorAt text off)
    (h3 : cursorEnd none head = none) : HeaderAgrees text (w, none) parent head := by
  refine ⟨parse2_cursor w parent head h3, ?_, off, h1, ?_⟩
  · exact flush_cursor parent head (Scan.init w none) rfl h3
  · intro j hj
    show (scanHead parent w none (head.take j)).quote = _
    rw [scanHead_quote]
    have e : text.take (off + j) = text.take off ++ head.take j := by
      rw [List.take_add]
      congr 1
      rw [← h1, List.take_take, Nat.min_eq_left hj]
    unfold CursorAt at h2
    rw [e, cursorEnd_append, h2]

/-- The header of a round (lines 445-448) lies between two positions at which
the brace matching pass is outside a quote. -/
theorem round_header {text : Str} {b : Braces} (hn : NInv text b) {pos stop : Nat}
    (hlt : pos < stop) (h1 : CursorAt text pos) (h2 : CursorAt text stop) :
    ∃ off, (text.drop off).take (headAt text b.opens (nextOpen b.opens pos stop) pos stop).length =
        headAt text b.opens (nextOpen b.opens pos stop) pos stop ∧
      CursorAt text off ∧
      cursorEnd none (headAt text b.opens (nextOpen b.opens pos stop) pos stop) = none := by
  unfold headAt
  by_cases hi : nextOpen b.opens pos stop < b.opens.length
  · simp only [hi, if_true]
    exact header_cursor text pos _ (Nat.le_of_lt (nextOpen_lt b.opens pos stop hi)) h1
      (mark_cursor text _ _ (hn.open_mark _ hi)).1
  · simp only [hi, if_false]
    exact header_cursor text pos stop (Nat.le_of_lt hlt) h1 h2

theorem nextHead_cursor {text : Str} {b : Braces} (hn : NInv text b) (st : World × Option Char)
    (parent : Nat) {pos stop : Nat} (hq : st.2 = none)
    (hlt : pos < stop) (h1 : CursorAt text pos) (h2 : CursorAt text stop) :
    (nextHead text b.opens st parent pos stop).2.1 = none := by
  obtain ⟨off, _, _, e3⟩ := round_header hn hlt h1 h2
  unfold nextHead headObj
  split_ifs
  · rw [hq]
    exact parse2_cursor st.1 parent _ e3
  · exact hq

theorem headAt_lt (text : Str) (opens : List Nat) (pos stop : Nat)
    (hi : nextOpen opens pos stop < opens.length) :
    headAt text opens (nextOpen opens pos stop) pos stop =
      trim (substring text pos (opens.getD (nextOpen opens pos stop) 0)) := by
  simp [headAt, hi]

theorem headAt_ge (text : Str) (opens : List Nat) (pos stop : Nat)
    (hi : ¬ nextOpen opens pos stop < opens.length) :
    headAt text opens (nextOpen opens pos stop) pos stop = trim (substring text pos stop) := by
  simp [headAt, hi]

/-- A call of `parse1` that starts outside a quote, on a range whose ends the
brace matching pass met outside a quote, returns outside a quote. -/
theorem parse1_cursor {text : Str} {b : Braces} (hb : BInv text b) (hn : NInv text b)
    (hst : b.stack = []) (fuel : Nat) (st : World × Option Char) (parent pos stop : Nat)
    (st1 : World × Option Char) (hq : st.2 = none) (h1 : CursorAt text pos)
    (h2 : CursorAt text stop)
    (h : parse1 text b.opens b.closes fuel st parent pos stop = some st1) : st1.2 = none := by
  induction fuel generalizing st parent pos stop st1 with
  | zero => simp [parse1] at h
  | succ fuel ih =>
    by_cases hlt : pos < stop
    · have hnh := nextHead_cursor hn st parent hq hlt h1 h2
      by_cases hi : nextOpen b.opens pos stop < b.opens.length
      · obtain ⟨cl, e1, _, _⟩ := hb.closed _ hi (by rw [hst]; exact List.not_mem_nil _)
        rw [parse1_group text b.opens b.closes fuel st parent pos stop cl hlt hi e1] at h
        rw [← headAt_lt text b.opens pos stop hi] at h
        change (match parse1 text b.opens b.closes fuel
          ((nextHead text b.opens st parent pos stop).1,
            (nextHead text b.opens st parent pos stop).2.1)
          (nextHead text b.opens st parent pos stop).2.2
          (b.opens.getD (nextOpen b.opens pos stop) 0 + 1) cl with
          | none => none
          | some st2 => parse1 text b.opens b.closes fuel st2 parent (cl + 1) stop) = some st1
          at h
        have ho := mark_cursor text _ _ (hn.open_mark _ hi)
        have hc := mark_cursor text _ _ (hn.close_mark _ cl e1)
        cases hp : parse1 text b.opens b.closes fuel
            ((nextHead text b.opens st parent pos stop).1,
              (nextHead text b.opens st parent pos stop).2.1)
            (nextHead text b.opens st parent pos stop).2.2
            (b.opens.getD (nextOpen b.opens pos stop) 0 + 1) cl with
        | none => rw [hp] at h; cases h
        | some st2 =>
          rw [hp] at h
          have hq2 := ih _ _ _ _ st2 hnh ho.2 hc.1 hp
          exact ih st2 parent (cl + 1) stop st1 hq2 hc.2 h2 h
      · rw [parse1_tail text b.opens b.closes fuel st parent pos stop hlt hi] at h
        rw [← headAt_ge text b.opens pos stop hi] at h
        rw [← Option.some.inj h]
        exact hnh
    · rw [parse1_done text b.opens b.closes fuel st parent pos stop hlt] at h
      rw [← Option.some.inj h]
      exact hq

theorem visits_cursor {text : Str} {b : Braces} (hb : BInv text b) (hn : NInv text b)
    (hst : b.stack = []) (hend : cursorEnd none text = none) (w0 : World) (this : Nat)
    {st : World × Option Char} {parent start pos stop : Nat}
    (hv : Visits text b.opens b.closes w0 none this st parent start pos stop) :
    st.2 = none ∧ CursorAt text pos ∧ CursorAt text stop := by
  induction hv with
  | root =>
    refine ⟨rfl, rfl, ?_⟩
    unfold CursorAt
    rw [List.take_length]
    exact hend
  | nested _ hlt hi hc ih =>
    exact ⟨nextHead_cursor hn _ _ ih.1 hlt ih.2.1 ih.2.2,
      (mark_cursor text _ _ (hn.open_mark _ hi)).2, (mark_cursor text _ _ (hn.close_mark _ _ hc)).1⟩
  | next _ hlt hi hc hp ih =>
    exact ⟨parse1_cursor hb hn hst _ _ _ _ _ _
        (nextHead_cursor hn _ _ ih.1 hlt ih.2.1 ih.2.2)
        (mark_cursor text _ _ (hn.open_mark _ hi)).2
        (mark_cursor text _ _ (hn.close_mark _ _ hc)).1 hp,
      (mark_cursor text _ _ (hn.close_mark _ _ hc)).2, ih.2.2⟩
  | last _ hlt hi ih =>
    exact ⟨nextHead_cursor hn _ _ ih.1 hlt ih.2.1 ih.2.2, ih.2.2, ih.2.2⟩

/-- C19: the one cursor that the three scans share stays consistent. When the
brace matching pass succeeds and ends outside a quote, every loop state of
the tree builder is outside a quote, so every call of `parse2` starts outside
a quote; the call ends outside a quote; every flush in it, and so every
attribute scan, starts and ends outside a quote; and before each character of
the header, and after the last, the scan holds the cursor that the brace
matching pass held at the same position of the text, so that both classify
the character alike. -/
theorem cursor_consistent (w : World) (this : Nat) (text : Str) (b : Braces)
    (h : matchBraces text = BraceResult.ok b none) :
    ∀ (st : World × Option Char) (parent start pos stop : Nat),
      Visits text b.opens b.closes w none this st parent start pos stop →
      st.2 = none ∧
      (pos < stop → headAt text b.opens (nextOpen b.opens pos stop) pos stop ≠ [] →
        HeaderAgrees text st parent (headAt text b.opens (nextOpen b.opens pos stop) pos stop)) := by
  obtain ⟨hb, hn, hst, hq⟩ := matchBraces_ok text b none h
  intro st parent start pos stop hv
  obtain ⟨h1, h2, h3⟩ := visits_cursor hb hn hst hq.symm w this hv
  refine ⟨h1, ?_⟩
  intro hlt _
  obtain ⟨off, e1, e2, e3⟩ := round_header hn hlt h2 h3
  obtain ⟨w1, q1⟩ := st
  simp only at h1
  subst h1
  exact headerAgrees_of text w1 parent _ off e1 e2 e3

/-- C19, at the text `a<k:'x {'> {b}`, in the first round of the outer loop: the
header is `a<k:'x {'>`, with a quoted space and a quoted brace. -/
theorem cursor_consistent_witness :
    matchBraces "a<k:'x \x7b'> \x7bb\x7d".toList =
        BraceResult.ok { pair := 1, opens := [11], stack := [], closes := [some 13] } none ∧
    headAt "a<k:'x \x7b'> \x7bb\x7d".toList [11] (nextOpen [11] 0 14) 0 14 =
        "a<k:'x \x7b'>".toList ∧
    ((emptyRoot, (none : Option Char)).2 = none ∧
      (0 < 14 → headAt "a<k:'x \x7b'> \x7bb\x7d".toList [11] (nextOpen [11] 0 14) 0 14 ≠ [] →
        HeaderAgrees "a<k:'x \x7b'> \x7bb\x7d".toList (emptyRoot, none) 0
          (headAt "a<k:'x \x7b'> \x7bb\x7d".toList [11] (nextOpen [11] 0 14) 0 14))) :=
  ⟨by decide, by decide,
    cursor_consistent emptyRoot 0 "a<k:'x \x7b'> \x7bb\x7d".toList
      { pair := 1, opens := [11], stack := [], closes := [some 13] } (by decide)
      (emptyRoot, none) 0 0 0 14 Visits.root⟩

end Domchain
